import Mathlib

/-!
# Verification of the qct intrusive order-statistics AVL tree

Shallow embedding of `src/qct.h` (namespace `qct`, class `tree<Node, Comp>` and
class `node<SizeBits, BalanceBits>`).

## Modelling choices

* A linked node structure whose parent pointers are consistent is exactly a
  finite binary tree, so the pointer structure rooted at `header_.parent_` is
  embedded as the inductive type `QTree α`.  Each constructor node carries the
  two stored metadata fields of `qct::node`: the stored balance factor
  (`int8_t balance_ : BalanceBits`, embedded as `Int`; the code only ever
  assigns the constants -1, 0, 1 to it, so no bit-field wrap can occur) and the
  stored subtree size (`std::size_t subtree_size_ : SizeBits`, embedded as
  `Nat`; the size arithmetic in the rotations is transcribed with truncated
  subtraction, and the size invariant proved below shows that on every
  reachable tree the subtractions are exact, so truncated, wrapping and exact
  arithmetic agree on all states the claims quantify over).
* A value of type `α` plays the role of one caller-owned node object: the
  intrusive tree stores caller-owned nodes and compares them with
  `Comp{}(a, b) : bool`, embedded as `lt : α → α → Bool`.  Distinct node
  objects are distinct `α` values; the comparator may declare two distinct
  nodes equivalent (duplicate keys).
* A specific node of a tree (a pointer to a real node) is identified by its
  path from the root: `false` = descend to `left_`, `true` = descend to
  `right_`.
* The C++ splits insertion into `qct_insert` (descent, size increments,
  placement) followed by `qct_insert_rebalance` (a climb from the new leaf
  back to the header).  The embedding keeps the same two phases: the placement
  phase returns the descent path, and the rebalancing phase recurses along
  that path, performing at each level on the way back up exactly the work of
  one iteration of the C++ climb loop (the loop climbs through the ancestors
  in the same innermost-first order).
* `erase` (i.e. `bst_erase` + re-stamping `info.y` + `qct_erase_rebalance`) is
  embedded as one recursion along the path to the erased node; each level on
  the way back up performs the work of one iteration of the climb loop of
  `qct_erase_rebalance` for that ancestor (unconditional size decrement plus
  the conditional balance/rotation logic; the code's second loop, which only
  decrements sizes once balance propagation has stopped, corresponds to the
  levels where the "height changed" flag is `false`).  When the erased node
  has two children, `bst_erase` splices the in-order successor
  `y = bst_minimum(z->right_)` into `z`'s place and `tree::erase` re-stamps it
  with `z`'s balance and size; the embedding does the same via `qct_remove_min`.
-/

/-- One real node of the intrusive tree: left pointer, the caller-owned
element, the stored `balance_` field, the stored `subtree_size_` field and the
right pointer.  `qnil` is the null pointer. -/
inductive QTree (α : Type) : Type where
  | qnil : QTree α
  | qnode (l : QTree α) (v : α) (bal : Int) (sz : Nat) (r : QTree α) : QTree α
deriving DecidableEq, Repr

namespace QTree

variable {α : Type}

/-- Actual height of the linked structure (0 for the null pointer).  Not a
stored field; used to state the AVL invariant. -/
def height : QTree α → Nat
  | qnil => 0
  | qnode l _ _ _ r => 1 + max (height l) (height r)

/-- Actual number of real nodes in the subtree.  Not a stored field. -/
def realSize : QTree α → Nat
  | qnil => 0
  | qnode l _ _ _ r => 1 + realSize l + realSize r

/-- The stored `subtree_size_` field of the root node of a subtree, i.e. the
C++ expression `p ? p->subtree_size_ : 0`. -/
def szf : QTree α → Nat
  | qnil => 0
  | qnode _ _ _ sz _ => sz

/-- The stored `balance_` field of the root node, `0` for the null pointer. -/
def balf : QTree α → Int
  | qnil => 0
  | qnode _ _ bal _ _ => bal

/-- In-order list of the elements of the subtree. -/
def inorder : QTree α → List α
  | qnil => []
  | qnode l v _ _ r => inorder l ++ v :: inorder r

/-- Element membership. -/
def elems : QTree α → List α := inorder

/-- `tree::qct_rotate_left(x, z)` (src/qct.h:399-422) where `x` is the root of
the given subtree and `z = x->right_` its right child; `tmp = z->left_`.
Re-links `z` above `x`, recomputes the two stored sizes
(`x->subtree_size_ -= z->subtree_size_ - (tmp ? tmp->subtree_size_ : 0)`,
`z->subtree_size_ = x_subtree_size`) and assigns the balance constants: if
`z->balance_ == 0` then `x.bal, z.bal := 1, -1` else both `0`.
If `x` has no right child the C++ would dereference a null pointer; the
embedding returns the tree unchanged (this case is unreachable from the two
call sites, which guard it by the balance-factor tests). -/
def qct_rotate_left : QTree α → QTree α
  | qnode xl xv _xb xs (qnode tmp zv zb zs zr) =>
      let xs' := xs - (zs - szf tmp)
      if zb = 0 then
        qnode (qnode xl xv 1 xs' tmp) zv (-1) xs zr
      else
        qnode (qnode xl xv 0 xs' tmp) zv 0 xs zr
  | t => t

/-- `tree::qct_rotate_right(x, z)` (src/qct.h:424-447), mirror image of
`qct_rotate_left`: `z = x->left_`, `tmp = z->right_`; if `z->balance_ == 0`
then `x.bal, z.bal := -1, 1` else both `0`. -/
def qct_rotate_right : QTree α → QTree α
  | qnode (qnode zl zv zb zs tmp) xv _xb xs xr =>
      let xs' := xs - (zs - szf tmp)
      if zb = 0 then
        qnode zl zv 1 xs (qnode tmp xv (-1) xs' xr)
      else
        qnode zl zv 0 xs (qnode tmp xv 0 xs' xr)
  | t => t

/-- `tree::qct_rotate_right_left(x, z)` (src/qct.h:449-487): double rotation
with `z = x->right_`, `y = z->left_`, `tmp1 = y->right_`, `tmp2 = y->left_`.
Sizes: `x -= z - tmp2`, `z -= y - tmp1`, `y := x_subtree_size`.  Balances by
the three-way split on `y->balance_`; `y` always ends at `0`. -/
def qct_rotate_right_left : QTree α → QTree α
  | qnode xl xv _xb xs (qnode (qnode tmp2 yv yb ys tmp1) zv _zb zs zr) =>
      let xs' := xs - (zs - szf tmp2)
      let zs' := zs - (ys - szf tmp1)
      if yb = 0 then
        qnode (qnode xl xv 0 xs' tmp2) yv 0 xs (qnode tmp1 zv 0 zs' zr)
      else if yb > 0 then
        qnode (qnode xl xv (-1) xs' tmp2) yv 0 xs (qnode tmp1 zv 0 zs' zr)
      else
        qnode (qnode xl xv 0 xs' tmp2) yv 0 xs (qnode tmp1 zv 1 zs' zr)
  | t => t

/-- `tree::qct_rotate_left_right(x, z)` (src/qct.h:489-527), mirror image of
`qct_rotate_right_left`: `z = x->left_`, `y = z->right_`, `tmp1 = y->left_`,
`tmp2 = y->right_`. -/
def qct_rotate_left_right : QTree α → QTree α
  | qnode (qnode zl zv _zb zs (qnode tmp1 yv yb ys tmp2)) xv _xb xs xr =>
      let xs' := xs - (zs - szf tmp2)
      let zs' := zs - (ys - szf tmp1)
      if yb = 0 then
        qnode (qnode zl zv 0 zs' tmp1) yv 0 xs (qnode tmp2 xv 0 xs' xr)
      else if yb < 0 then
        qnode (qnode zl zv 0 zs' tmp1) yv 0 xs (qnode tmp2 xv 1 xs' xr)
      else
        qnode (qnode zl zv (-1) zs' tmp1) yv 0 xs (qnode tmp2 xv 0 xs' xr)
  | t => t

/-- The descent/placement phase `tree::qct_insert` (src/qct.h:324-356)
restricted to the link structure: descends from the root with the comparator
(`Comp{}(*current, x)` true descends right, otherwise left — ties go left),
increments `subtree_size_` of every node visited during the descent, and
places the new node with `balance_ = 0` and `subtree_size_ = 1`.  Also returns
the descent path (the sequence of right/left decisions), which determines the
`is_leftmost` / `is_rightmost` flags and along which the rebalancing phase
climbs. -/
def qct_insert (lt : α → α → Bool) (x : α) : QTree α → QTree α × List Bool
  | qnil => (qnode qnil x 0 1 qnil, [])
  | qnode l v b s r =>
      if lt v x then
        let res := qct_insert lt x r
        (qnode l v b (s + 1) res.1, true :: res.2)
      else
        let res := qct_insert lt x l
        (qnode res.1 v b (s + 1) r, false :: res.2)

/-- One iteration of the climb loop of `tree::qct_insert_rebalance`
(src/qct.h:529-585) at an ancestor `x` whose *left* child `z` just grew
(`z == x->left_` branch, lines 534-550).  The subtree handed in is `x` with
its already-updated left child `l`.  Returns the new subtree at `x`'s position
together with the "keep climbing" flag (`continue` in the loop) and the number
of rotation events performed (0 or 1; ghost instrumentation, not a field of
the source — it counts executions of the `qct_rotate_*` calls). -/
def insStepL (l : QTree α) (v : α) (b : Int) (s : Nat) (r : QTree α) :
    QTree α × Bool × Nat :=
  if b < 0 then
    -- height-2 imbalance: single or double rotation selected by z->balance_
    if balf l > 0 then (qct_rotate_left_right (qnode l v b s r), false, 1)
    else (qct_rotate_right (qnode l v b s r), false, 1)
  else if b > 0 then (qnode l v 0 s r, false, 0)   -- absorb, break
  else (qnode l v (-1) s r, true, 0)               -- lean left, continue

/-- One iteration of the climb loop of `tree::qct_insert_rebalance` at an
ancestor whose *right* child just grew (lines 552-568). -/
def insStepR (l : QTree α) (v : α) (b : Int) (s : Nat) (r : QTree α) :
    QTree α × Bool × Nat :=
  if b > 0 then
    if balf r < 0 then (qct_rotate_right_left (qnode l v b s r), false, 1)
    else (qct_rotate_left (qnode l v b s r), false, 1)
  else if b < 0 then (qnode l v 0 s r, false, 0)
  else (qnode l v 1 s r, true, 0)

/-- The climb phase `tree::qct_insert_rebalance` (src/qct.h:529-585), recursing
along the descent path returned by `qct_insert`.  Each recursion level, on the
way back up, performs one iteration of the C++ loop for the corresponding
ancestor; the boolean result is `true` while the loop keeps climbing
(re-linking the subtree returned by a level into its parent is the `g` /
`root()` update at lines 571-582, which the tree-valued recursion performs by
construction).  The `Nat` component counts rotation events (ghost
instrumentation).  Once the flag is `false` the remaining levels reconstruct
their node unchanged, which is exactly the loop having exited. -/
def qct_insert_rebalance : QTree α → List Bool → QTree α × Bool × Nat
  | t, [] => (t, true, 0)
  | qnode l v b s r, false :: p =>
      let res := qct_insert_rebalance l p
      if res.2.1 then
        let st := insStepL res.1 v b s r
        (st.1, st.2.1, res.2.2 + st.2.2)
      else (qnode res.1 v b s r, false, res.2.2)
  | qnode l v b s r, true :: p =>
      let res := qct_insert_rebalance r p
      if res.2.1 then
        let st := insStepR l v b s res.1
        (st.1, st.2.1, res.2.2 + st.2.2)
      else (qnode l v b s res.1, false, res.2.2)
  | qnil, _ :: _ => (qnil, false, 0)  -- invalid path, unreachable

/-- `tree::insert` (src/qct.h:185-189) restricted to the link structure:
placement followed by rebalancing. -/
def insert (lt : α → α → Bool) (x : α) (t : QTree α) : QTree α :=
  let placed := qct_insert lt x t
  (qct_insert_rebalance placed.1 placed.2).1

/-- Left child pointer of the root node (`x->left_`, null for null). -/
def leftOf : QTree α → QTree α
  | qnil => qnil
  | qnode l _ _ _ _ => l

/-- Right child pointer of the root node (`x->right_`, null for null). -/
def rightOf : QTree α → QTree α
  | qnil => qnil
  | qnode _ _ _ _ r => r

/-- Does the path identify a real node of the tree? -/
def isValidPath : QTree α → List Bool → Bool
  | qnil, _ => false
  | qnode _ _ _ _ _, [] => true
  | qnode l _ _ _ _, false :: p => isValidPath l p
  | qnode _ _ _ _ r, true :: p => isValidPath r p

/-- Subtree rooted at the node a path points to (`qnil` past a null pointer). -/
def subtreeAt : QTree α → List Bool → QTree α
  | t, [] => t
  | qnil, _ :: _ => qnil
  | qnode l _ _ _ _, false :: p => subtreeAt l p
  | qnode _ _ _ _ r, true :: p => subtreeAt r p

/-- The element stored at the node a path points to. -/
def valAt? (t : QTree α) (p : List Bool) : Option α :=
  match subtreeAt t p with
  | qnil => none
  | qnode _ v _ _ _ => some v

/-- Path from a subtree's root to `bst_minimum` of that subtree (follow
`left_` while non-null, src/qct.h:259-265). -/
def minPath : QTree α → List Bool
  | qnil => []
  | qnode qnil _ _ _ _ => []
  | qnode (qnode a w c d e) _ _ _ _ => false :: minPath (qnode a w c d e)

/-- Path from a subtree's root to `bst_maximum` of that subtree
(src/qct.h:267-273). -/
def maxPath : QTree α → List Bool
  | qnil => []
  | qnode _ _ _ _ qnil => []
  | qnode _ _ _ _ (qnode a w c d e) => true :: maxPath (qnode a w c d e)

/-- Value of `bst_minimum` of a nonempty subtree. -/
def minVal? : QTree α → Option α
  | qnil => none
  | qnode qnil v _ _ _ => some v
  | qnode (qnode a w c d e) _ _ _ _ => minVal? (qnode a w c d e)

/-- Value of `bst_maximum` of a nonempty subtree. -/
def maxVal? : QTree α → Option α
  | qnil => none
  | qnode _ v _ _ qnil => some v
  | qnode _ _ _ _ (qnode a w c d e) => maxVal? (qnode a w c d e)

/-- One iteration of the climb loop of `tree::qct_erase_rebalance`
(src/qct.h:587-657) at an ancestor `x` whose *left* subtree shrank
(`n_is_left` branch, lines 599-618).  The unconditional size decrement
`x->subtree_size_--` of line 597 has already been applied by the caller (`s`
is the decremented value).  The boolean result is the "keep climbing" state of
the loop: for the rotation case it is `height_changed = z->balance_ != 0`
(line 602/623 together with the `if (!height_changed) break` at line 654), for
the absorb case (`x->balance_` opposite to the shrunk side, set to 0) it is
`true` (`continue`), and for the balanced case (tilt toward the sibling,
height unchanged) it is `false` (`break`).  The `Nat` counts rotation events
(ghost instrumentation). -/
def eraStepL (l : QTree α) (v : α) (b : Int) (s : Nat) (r : QTree α) :
    QTree α × Bool × Nat :=
  if b > 0 then
    -- z = x->right_; rotation selected by z->balance_ (lines 600-608)
    if balf r < 0 then (qct_rotate_right_left (qnode l v b s r), true, 1)
    else if balf r = 0 then (qct_rotate_left (qnode l v b s r), false, 1)
    else (qct_rotate_left (qnode l v b s r), true, 1)
  else if b < 0 then (qnode l v 0 s r, true, 0)
  else (qnode l v 1 s r, false, 0)

/-- One iteration of the climb loop of `tree::qct_erase_rebalance` at an
ancestor whose *right* subtree shrank (lines 620-639). -/
def eraStepR (l : QTree α) (v : α) (b : Int) (s : Nat) (r : QTree α) :
    QTree α × Bool × Nat :=
  if b < 0 then
    if balf l > 0 then (qct_rotate_left_right (qnode l v b s r), true, 1)
    else if balf l = 0 then (qct_rotate_right (qnode l v b s r), false, 1)
    else (qct_rotate_right (qnode l v b s r), true, 1)
  else if b > 0 then (qnode l v 0 s r, true, 0)
  else (qnode l v (-1) s r, false, 0)

/-- The successor extraction of `bst_erase` for a node with two children
(`y = bst_minimum(z->right_)`, splice `y` out of the right subtree,
src/qct.h:378-386) fused with the iterations of the `qct_erase_rebalance`
climb that take place inside that right subtree (the climb starts at `y`'s
old parent with `n_is_left = true`, line 380-381, and walks up to the right
subtree's root).  Returns `y`'s element, the new right subtree, the
"keep climbing" state when the climb leaves the subtree, and the rotation
count. -/
def qct_remove_min : QTree α → Option (α × QTree α × Bool × Nat)
  | qnil => none
  | qnode qnil v _ _ r =>
      -- y is this node: its right child takes its place (bst_shift_nodes);
      -- the climb continues at its old parent
      some (v, r, true, 0)
  | qnode (qnode a w c d e) v b s r =>
      match qct_remove_min (qnode a w c d e) with
      | none => none
      | some (y, l2, dec, cnt) =>
          if dec then
            let st := eraStepL l2 v b (s - 1) r
            some (y, st.1, st.2.1, cnt + st.2.2)
          else
            -- balance propagation has stopped; the second loop of
            -- qct_erase_rebalance (lines 659-661) still decrements the size
            some (y, qnode l2 v b (s - 1) r, false, cnt)

/-- `tree::erase` restricted to the link structure: `bst_erase`
(src/qct.h:358-397) composed with the re-stamp of `info.y` (lines 178-181)
and `qct_erase_rebalance` (lines 587-662), as one recursion along the path to
the erased node `z`.  Each level above the erased position performs one
iteration of the climb (size decrement + conditional balance logic; levels
reached after the "keep climbing" flag went `false` correspond to the second,
size-only loop).  Returns the new tree, the final climb state, and the number
of rotation events performed.  On an invalid path (erasing a node that is not
a member — undefined behavior in C++) it leaves the tree unchanged. -/
def qct_erase : QTree α → List Bool → QTree α × Bool × Nat
  | qnil, _ => (qnil, false, 0)
  | qnode l v b s r, false :: p =>
      let res := qct_erase l p
      if res.2.1 then
        let st := eraStepL res.1 v b (s - 1) r
        (st.1, st.2.1, res.2.2 + st.2.2)
      else (qnode res.1 v b (s - 1) r, false, res.2.2)
  | qnode l v b s r, true :: p =>
      let res := qct_erase r p
      if res.2.1 then
        let st := eraStepR l v b (s - 1) res.1
        (st.1, st.2.1, res.2.2 + st.2.2)
      else (qnode l v b (s - 1) res.1, false, res.2.2)
  | qnode l v b s r, [] =>
      match l, r with
      | qnil, _ => (r, true, 0)        -- no left child: right child takes the place
      | _, qnil => (l, true, 0)        -- no right child: left child takes the place
      | qnode la lw lc ld le, qnode ra rw rc rd re =>
          -- two children: splice in the in-order successor y, re-stamped with
          -- z's balance_ and subtree_size_ (tree::erase lines 178-181); the
          -- climb passes through y's new position coming from the right side
          match qct_remove_min (qnode ra rw rc rd re) with
          | none => (qnode l v b s r, false, 0)   -- impossible: r is nonempty
          | some (y, r2, dec, cnt) =>
              if dec then
                let st := eraStepR (qnode la lw lc ld le) y b (s - 1) r2
                (st.1, st.2.1, cnt + st.2.2)
              else (qnode (qnode la lw lc ld le) y b (s - 1) r2, false, cnt)

/-- The pure link-surgery part of `bst_erase` (src/qct.h:358-397) alone, with
no size or balance updates: used to transcribe the `leftmost()` cache update,
which `bst_erase` computes on the post-splice, pre-rebalance structure. -/
def bst_splice : QTree α → List Bool → QTree α
  | qnil, _ => qnil
  | qnode l v b s r, false :: p => qnode (bst_splice l p) v b s r
  | qnode l v b s r, true :: p => qnode l v b s (bst_splice r p)
  | qnode l v b s r, [] =>
      match l, r with
      | qnil, _ => r
      | _, qnil => l
      | qnode la lw lc ld le, qnode ra rw rc rd re =>
          match qct_remove_min (qnode ra rw rc rd re) with
          | none => qnode l v b s r
          | some (y, r2, _, _) => qnode (qnode la lw lc ld le) y b s r2

end QTree

open QTree

/-- A pointer that can be stored in the header's `left_` / `right_` slots:
the null pointer, the header itself, or a real node (identified by its
element). -/
inductive HPtr (α : Type) : Type where
  | hnull : HPtr α
  | hheader : HPtr α
  | helem (v : α) : HPtr α
deriving DecidableEq, Repr

/-- The full container state of `qct::tree`: the root pointer
(`header_.parent_`) plus the two cached extreme pointers
(`header_.left_` = `leftmost()`, `header_.right_` = `rightmost()`).  A
default-constructed tree (`node header_;` with all pointers `nullptr`,
src/qct.h:80-85 and 671) is `⟨qnil, hnull, hnull⟩`. -/
structure QCT (α : Type) : Type where
  root : QTree α
  lm : HPtr α
  rm : HPtr α
deriving DecidableEq, Repr

namespace QCT

variable {α : Type}

/-- `tree::size()` (src/qct.h:170-173): the root's stored `subtree_size_`, or
0 when the root pointer is null. -/
def size (q : QCT α) : Nat := szf q.root

/-- `tree::insert` (src/qct.h:185-189): `qct_insert` places the node,
maintaining the `is_leftmost` / `is_rightmost` flags (`is_leftmost` stays
`true` exactly when the descent never goes right, i.e. the descent path is all
`false`; then `leftmost() = &x`, and symmetrically for `rightmost()`), then
`qct_insert_rebalance` climbs. -/
def insert (lt : α → α → Bool) (x : α) (q : QCT α) : QCT α :=
  let placed := qct_insert lt x q.root
  { root := (qct_insert_rebalance placed.1 placed.2).1
    lm := if placed.2.all (fun d => !d) then HPtr.helem x else q.lm
    rm := if placed.2.all (fun d => d) then HPtr.helem x else q.rm }

/-- `tree::erase` (src/qct.h:175-183) of the member node at path `p`,
including the cache updates performed by `bst_erase`:

* first branch (`!z->left_`, lines 363-369): if `z == leftmost()`, then
  `leftmost() = bst_minimum(z->parent_)`, evaluated on the post-splice
  structure.  When `z` is the root, `z->parent_` is the header whose `left_`
  still points to `z`, and `z->left_` is null, so `bst_minimum` returns `z`
  itself: the cache keeps pointing at the erased node.  Otherwise it returns
  the leftmost descendant of `z`'s old parent in the spliced tree.
* second branch (`z->left_ && !z->right_`, lines 370-376): if
  `z == rightmost()`, then `rightmost() = bst_maximum(z->left_)`.
* two-children branch: no cache update (such a node is never an extremum of a
  tree whose caches are intact).

Pointer comparisons such as `z == leftmost()` are element comparisons here:
each caller-owned node object is represented by its distinct `α` value.
Erasing a node that is not a member is undefined behavior in C++; the model
leaves the container unchanged on an invalid path. -/
def erase [DecidableEq α] (q : QCT α) (p : List Bool) : QCT α :=
  match valAt? q.root p with
  | none => q
  | some z =>
      let zt := subtreeAt q.root p
      let root2 := (qct_erase q.root p).1
      let lm2 :=
        if leftOf zt = qnil ∧ q.lm = HPtr.helem z then
          if p = [] then q.lm
          else
            match minVal? (subtreeAt (bst_splice q.root p) p.dropLast) with
            | some w => HPtr.helem w
            | none => HPtr.hnull
        else q.lm
      let rm2 :=
        if leftOf zt ≠ qnil ∧ rightOf zt = qnil ∧ q.rm = HPtr.helem z then
          match maxVal? (leftOf zt) with
          | some w => HPtr.helem w
          | none => q.rm
        else q.rm
      { root := root2, lm := lm2, rm := rm2 }

end QCT

/-- The states of `qct::tree` reachable from a default-constructed tree by
any sequence of `insert` and `erase` calls that respects the container's
preconditions: an inserted node is not already a member (the same caller-owned
object may not be linked twice), and an erased node is a member. -/
inductive Reach [DecidableEq α] (lt : α → α → Bool) : QCT α → Prop where
  | empty : Reach lt ⟨qnil, HPtr.hnull, HPtr.hnull⟩
  | ins {q : QCT α} {x : α} : Reach lt q → x ∉ elems q.root →
      Reach lt (QCT.insert lt x q)
  | del {q : QCT α} {p : List Bool} : Reach lt q →
      isValidPath q.root p = true → Reach lt (QCT.erase q p)

namespace QTree

/-- The per-node balance invariant (spec §3): the stored `balance_` field of
every real node equals height(right subtree) − height(left subtree) and has
absolute value at most 1. -/
def BalOk : QTree α → Prop
  | qnil => True
  | qnode l _ b _ r =>
      b = (height r : Int) - (height l : Int) ∧ -1 ≤ b ∧ b ≤ 1 ∧
        BalOk l ∧ BalOk r

instance BalOk.dec : (t : QTree α) → Decidable (BalOk t)
  | qnil => isTrue trivial
  | qnode l _v b _s r =>
      letI := BalOk.dec l
      letI := BalOk.dec r
      decidable_of_iff
        (b = (height r : Int) - (height l : Int) ∧ -1 ≤ b ∧ b ≤ 1 ∧
          BalOk l ∧ BalOk r) Iff.rfl

/-- The size-augmentation invariant (spec §3): the stored `subtree_size_` of
every real node equals 1 + stored size of the left child (or 0 if absent)
+ stored size of the right child (or 0 if absent). -/
def SizeOk : QTree α → Prop
  | qnil => True
  | qnode l _ _ s r => s = 1 + szf l + szf r ∧ SizeOk l ∧ SizeOk r

instance SizeOk.dec : (t : QTree α) → Decidable (SizeOk t)
  | qnil => isTrue trivial
  | qnode l _v _b s r =>
      letI := SizeOk.dec l
      letI := SizeOk.dec r
      decidable_of_iff (s = 1 + szf l + szf r ∧ SizeOk l ∧ SizeOk r) Iff.rfl

/-- The binary-search-tree ordering invariant maintained by the code: every
element of a node's left subtree is "not greater" than the node
(`lt v w = false` — a node descends left exactly when the comparator call
`Comp{}(*current, x)` returns false), and every element of the right subtree
is "not less" than the node.  The right-side condition is non-strict because
`erase` splices the in-order successor above elements it ties with. -/
def BSTOrd (lt : α → α → Bool) : QTree α → Prop
  | qnil => True
  | qnode l v _ _ r =>
      (∀ w ∈ elems l, lt v w = false) ∧ (∀ w ∈ elems r, lt w v = false) ∧
        BSTOrd lt l ∧ BSTOrd lt r

instance BSTOrd.dec (lt : α → α → Bool) :
    (t : QTree α) → Decidable (BSTOrd lt t)
  | qnil => isTrue trivial
  | qnode l v _b _s r =>
      letI := BSTOrd.dec lt l
      letI := BSTOrd.dec lt r
      decidable_of_iff
        ((∀ w ∈ elems l, lt v w = false) ∧ (∀ w ∈ elems r, lt w v = false) ∧
          BSTOrd lt l ∧ BSTOrd lt r) Iff.rfl

end QTree

/-- Asymmetry of the comparator: one half of the strict-weak-order contract
the container requires of `Comp` (spec §5: "the comparator is assumed total,
consistent"). -/
def LtAsymm (lt : α → α → Bool) : Prop :=
  ∀ a b : α, lt a b = true → lt b a = false

/-- The other half of the strict-weak-order contract: whenever `a < b`, any
third element compares above `a` or below `b` (equivalently, incomparability
is transitive). -/
def LtWeakLinear (lt : α → α → Bool) : Prop :=
  ∀ a b c : α, lt a b = true → lt a c = true ∨ lt c b = true

namespace QTree

/-- The climb part of `node::distance_from_begin` (src/qct.h:59-70) computed
top-down along the path of a real node: the rank starts from the stored size
of the node's left subtree, and every ancestor edge the original climb leaves
through a `right_` pointer contributes
`x->parent_->subtree_size_ - x->subtree_size_` (both stored fields). -/
def dfbAux : QTree α → List Bool → Nat
  | qnode l _ _ _ _, [] => szf l
  | qnode l _ _ _ _, false :: p => dfbAux l p
  | qnode _ _ _ s r, true :: p => (s - szf r) + dfbAux r p
  | qnil, _ => 0

/-- The path (relative to the whole tree) of the node a value identifies,
searching root-first.  On reachable trees all stored values are distinct, so
this recovers a node's position from the pointer stored in a header cache;
`none` means the pointer does not point into the tree (a stale cache). -/
def pathToVal [DecidableEq α] : QTree α → α → Option (List Bool)
  | qnil, _ => none
  | qnode l v _ _ r, x =>
      if v = x then some []
      else
        match pathToVal l x with
        | some p => some (false :: p)
        | none => (pathToVal r x).map (fun p => true :: p)

end QTree

namespace QCT

/-- `end()->distance_from_begin()`, i.e. `node::distance_from_begin` applied
to the header (src/qct.h:52-57): 0 for an empty tree, otherwise
`header_.right_->distance_from_begin() + 1` — the rank of the node the
`rightmost()` cache points at, plus one.  `none` when that cache does not
point into the tree (the stale-cache situation; the C++ then reads the stale
node's pointer fields, which the tree-shaped model cannot represent — the
pointer-level model below evaluates that case). -/
def dfbEnd [DecidableEq α] (q : QCT α) : Option Nat :=
  match q.root with
  | qnil => some 0
  | _ =>
      match q.rm with
      | HPtr.helem v => (pathToVal q.root v).map (fun p => dfbAux q.root p + 1)
      | _ => none

/-- `begin()->distance_from_begin()`: the rank of the node the `leftmost()`
cache points at.  `none` when `begin()` holds a null pointer (empty tree — the
C++ would dereference null) or a stale pointer. -/
def dfbBegin [DecidableEq α] (q : QCT α) : Option Nat :=
  match q.lm with
  | HPtr.helem v => (pathToVal q.root v).map (fun p => dfbAux q.root p)
  | _ => none

/-- `distance(begin(), end())` (src/qct.h:139-143):
`(rhs.node_ ? rhs.node_->distance_from_begin() : 0) - (lhs.node_ ? ... : 0)`.
The right-hand iterator is `end()` (the header, never null); the left-hand
iterator is `begin()`, whose node pointer is null on a default-constructed
tree (then the guard contributes 0). -/
def distBeginEnd [DecidableEq α] (q : QCT α) : Option Int :=
  match q.lm with
  | HPtr.hnull => (dfbEnd q).map (fun b => (b : Int))
  | HPtr.helem v =>
      match pathToVal q.root v, dfbEnd q with
      | some p, some b => some ((b : Int) - (dfbAux q.root p : Int))
      | _, _ => none
  | HPtr.hheader => none

end QCT

/-- An iterator position: a real node (identified by its path) or the header
(`end()`). -/
inductive IterPos : Type where
  | node (p : List Bool) : IterPos
  | header : IterPos
deriving DecidableEq, Repr

namespace QTree

/-- The climb of `bst_successor` (src/qct.h:280-289) expressed on paths: the
loop `while (x == y->right_) { x = y; y = y->parent_; }` retraces the path
while the last edge is a `right_` edge; if it stops at a `left_` edge the
successor is that ancestor, and if the whole path is consumed the climb has
passed the root and ends at the header.  Takes the reversed path. -/
def succClimb : List Bool → Option (List Bool)
  | [] => none
  | true :: rest => succClimb rest
  | false :: rest => some rest.reverse

/-- `bst_successor` (src/qct.h:275-290) of the real node at path `p`: the
leftmost node of the right subtree if there is one, otherwise the climb. -/
def succPath (t : QTree α) (p : List Bool) : IterPos :=
  match rightOf (subtreeAt t p) with
  | qnode a w c d e => IterPos.node (p ++ true :: minPath (qnode a w c d e))
  | qnil =>
      match succClimb p.reverse with
      | some q => IterPos.node q
      | none => IterPos.header

/-- The climb of `bst_predecessor` (src/qct.h:300-305), mirror image of
`succClimb`. -/
def predClimb : List Bool → Option (List Bool)
  | [] => none
  | false :: rest => predClimb rest
  | true :: rest => some rest.reverse

/-- `bst_predecessor` (src/qct.h:292-306).  For the header
(`bst_is_header(x)` true), the predecessor is `bst_maximum(x->parent_)`: the
rightmost real node (undefined on an empty tree, where the C++ dereferences a
null root; the model returns the header).  For a real node with a left child,
the rightmost node of that subtree; otherwise the climb.  When a minimum root
is decremented (path `[]`, no left child), the C++ climb steps through the
header — whose `left_` cache points back at that root — and returns the root
itself. -/
def predPath (t : QTree α) (pos : IterPos) : IterPos :=
  match pos with
  | IterPos.header =>
      match t with
      | qnil => IterPos.header
      | qnode a w c d e => IterPos.node (maxPath (qnode a w c d e))
  | IterPos.node p =>
      match leftOf (subtreeAt t p) with
      | qnode a w c d e => IterPos.node (p ++ false :: maxPath (qnode a w c d e))
      | qnil =>
          match predClimb p.reverse with
          | some q => IterPos.node q
          | none => if p = [] then IterPos.node [] else IterPos.header

/-- `iterator_impl::operator++` (src/qct.h:106-110):
`node_ = bst_successor(node_)`.  Incrementing `end()` follows
`header_.right_` into `bst_minimum` of the rightmost node's subtree, which is
that node itself (it has no right child); on an empty tree the C++
dereferences null — the model stays at the header. -/
def itInc (t : QTree α) : IterPos → IterPos
  | IterPos.node p => succPath t p
  | IterPos.header =>
      match t with
      | qnil => IterPos.header
      | qnode a w c d e => IterPos.node (maxPath (qnode a w c d e))

/-- `iterator_impl::operator--` (src/qct.h:117-121):
`node_ = bst_predecessor(node_)`. -/
def itDec (t : QTree α) (pos : IterPos) : IterPos := predPath t pos

/-- Postfix increment `iterator_impl::operator++(int)` (src/qct.h:111-116):
`retval = *this; ++(*this); return retval` — returns the original iterator
and advances the state with `operator++`.  The pair is (returned iterator,
new state). -/
def itIncPost (t : QTree α) (pos : IterPos) : IterPos × IterPos :=
  (pos, itInc t pos)

/-- Postfix decrement `iterator_impl::operator--(int)` (src/qct.h:122-127).
The body is `retval = *this; ++(*this); return retval`: it calls prefix
*increment*, not prefix decrement. -/
def itDecPost (t : QTree α) (pos : IterPos) : IterPos × IterPos :=
  (pos, itInc t pos)

/-- The in-order walk the iterators perform: start at `begin()` and follow
`bst_successor` until the header, collecting the elements.  The fuel is the
number of real nodes. -/
def iterChain (t : QTree α) : Nat → IterPos → List α
  | 0, _ => []
  | _ + 1, IterPos.header => []
  | n + 1, IterPos.node p =>
      match valAt? t p with
      | none => []
      | some v => v :: iterChain t n (succPath t p)

/-- Iterating from `begin()` to `end()` via `bst_successor`. -/
def traverse (t : QTree α) : List α :=
  match t with
  | qnil => []
  | qnode a w c d e =>
      iterChain (qnode a w c d e) (realSize (qnode a w c d e))
        (IterPos.node (minPath (qnode a w c d e)))

end QTree

/-- An erase step that keeps the header caches intact and avoids the
undefined behavior of the source (see the `corrected` analysis of the
sentinel claims): the erased node is not the root of a tree with fewer than
two root children (erasing such a root leaves `qct_erase_rebalance`'s `g`
uninitialized and, for a minimum root, leaves `leftmost()` pointing at the
erased node), and is not a childless maximum (whose erase never updates
`rightmost()`). -/
def SafeErase [DecidableEq α] (t : QTree α) (p : List Bool) : Prop :=
  (p = [] → leftOf t ≠ qnil ∧ rightOf t ≠ qnil) ∧
  (p = maxPath t → leftOf (subtreeAt t p) ≠ qnil)

/-- Reachability restricted to erase calls that keep the header caches
pointing at live extremes. -/
inductive ReachSafe [DecidableEq α] (lt : α → α → Bool) : QCT α → Prop where
  | empty : ReachSafe lt ⟨qnil, HPtr.hnull, HPtr.hnull⟩
  | ins {q : QCT α} {x : α} : ReachSafe lt q → x ∉ elems q.root →
      ReachSafe lt (QCT.insert lt x q)
  | del {q : QCT α} {p : List Bool} : ReachSafe lt q →
      isValidPath q.root p = true → SafeErase q.root p →
      ReachSafe lt (QCT.erase q p)

/-!
## Pointer-level model

A second, lower-level transcription of src/qct.h in which every node —
including the header — is a record of raw pointer fields in a heap addressed
by node ids, exactly as the C++ lays them out.  Loops carry explicit fuel.
This model exists because some reachable states leave a header cache pointing
at an *erased* node, whose stale pointer fields the tree-shaped model above
cannot represent: `node::distance_from_begin` then walks those stale fields.
Nodes are caller-owned (the tree never allocates), so an erased node's record
stays in the heap with whatever field values it had when it was unlinked —
exactly the situation in the C++ test-bench, where erased nodes remain alive
in the caller's vector.  The id 0 is the header (`tree::header_`); real nodes
use nonzero ids chosen by the caller. -/

/-- One `qct::node` object: the three pointers, the two packed fields, and
the caller's payload (`none` for the header, which stores no element). -/
structure HNode (α : Type) : Type where
  parent : Option Nat
  left : Option Nat
  right : Option Nat
  sz : Nat
  bal : Int
  val : Option α
deriving DecidableEq, Repr

/-- The heap: an association of node ids to node records. -/
abbrev Heap (α : Type) : Type := List (Nat × HNode α)

namespace Heap

variable {α : Type}

/-- A default-constructed node (`node header_;`, all pointers null,
`subtree_size_ = 0`, `balance_ = 0`). -/
def blank : HNode α := ⟨none, none, none, 0, 0, none⟩

/-- Dereference a node id. -/
def hget (h : Heap α) (i : Nat) : HNode α :=
  match h.find? (fun e => e.1 = i) with
  | some e => e.2
  | none => blank

/-- Update the record of a node id (no effect if absent). -/
def hset (h : Heap α) (i : Nat) (f : HNode α → HNode α) : Heap α :=
  h.map (fun e => if e.1 = i then (e.1, f e.2) else e)

/-- The heap of a default-constructed tree: just the header with all pointers
null. -/
def hempty : Heap α := [(0, blank)]

/-- `bst_is_header` (src/qct.h:9-28), the structural sentinel test. -/
def hIsHeader (h : Heap α) (x : Nat) : Bool :=
  let nx := hget h x
  if nx.parent = none then true
  else if nx.right = none || nx.left = none then false
  else if nx.right = nx.left then true
  else if (hget h (nx.right.getD 0)).parent ≠ some x ||
          (hget h (nx.left.getD 0)).parent ≠ some x then true
  else false

/-- `bst_is_root` (src/qct.h:30-33): `x->parent()->parent() == x`. -/
def hIsRoot (h : Heap α) (x : Nat) : Bool :=
  match (hget h x).parent with
  | none => false
  | some p => (hget h p).parent = some x

/-- `bst_minimum` (src/qct.h:259-265): follow `left_` while non-null. -/
def hMinimum (h : Heap α) : Nat → Nat → Nat
  | 0, x => x
  | fuel + 1, x =>
      match (hget h x).left with
      | none => x
      | some l => hMinimum h fuel l

/-- `bst_maximum` (src/qct.h:267-273). -/
def hMaximum (h : Heap α) : Nat → Nat → Nat
  | 0, x => x
  | fuel + 1, x =>
      match (hget h x).right with
      | none => x
      | some r => hMaximum h fuel r

/-- The ancestor loop of `node::distance_from_begin` (src/qct.h:65-69):
climb to the root, adding `x->parent_->subtree_size_ - x->subtree_size_`
whenever `x == x->parent_->right_`. -/
def hDfbClimb (h : Heap α) : Nat → Nat → Nat → Nat
  | 0, _, acc => acc
  | fuel + 1, x, acc =>
      if hIsRoot h x then acc
      else
        match (hget h x).parent with
        | none => acc
        | some p =>
            let acc2 :=
              if (hget h p).right = some x then
                acc + ((hget h p).sz - (hget h x).sz)
              else acc
            hDfbClimb h fuel p acc2

/-- `node::distance_from_begin` (src/qct.h:48-71).  For the header: 0 if the
tree is empty, else `header_.right_->distance_from_begin() + 1` (one
recursion step).  For a real node: the stored size of its left subtree plus
the ancestor-loop contributions. -/
def hDfb (h : Heap α) : Nat → Nat → Nat
  | 0, _ => 0
  | fuel + 1, x =>
      if hIsHeader h x then
        match (hget h x).parent with
        | none => 0
        | some _ =>
            match (hget h x).right with
            | none => 0
            | some rm => hDfb h fuel rm + 1
      else
        let base :=
          match (hget h x).left with
          | none => 0
          | some l => (hget h l).sz
        hDfbClimb h fuel x base

/-- `tree::size()` (src/qct.h:170-173). -/
def hSize (h : Heap α) : Nat :=
  match (hget h 0).parent with
  | none => 0
  | some r => (hget h r).sz

/-- The `distance(lhs, rhs)` friend function of the iterator
(src/qct.h:139-143) for `lhs = begin()` (node pointer `header_.left_`, null
on a default-constructed tree) and `rhs = end()` (the header). -/
def hDistBeginEnd (h : Heap α) (fuel : Nat) : Int :=
  (hDfb h fuel 0 : Int) -
    (match (hget h 0).left with
     | none => 0
     | some b => (hDfb h fuel b : Int))

/-- The descent loop of `tree::qct_insert` (src/qct.h:330-341), carried out
on a "slot" — the `node**` the C++ walks: the slot is identified by the node
holding it plus which of its pointer fields it is (the initial slot is
`&root()`, i.e. the header's `parent_` field).  Increments `subtree_size_` of
every node visited, tracks `is_leftmost` / `is_rightmost`, and returns the
final null slot together with the last visited node (`parent`). -/
inductive Slot : Type where
  | par (i : Nat) : Slot
  | lft (i : Nat) : Slot
  | rgt (i : Nat) : Slot
deriving DecidableEq, Repr

/-- Read the pointer a slot holds. -/
def readSlot (h : Heap α) : Slot → Option Nat
  | Slot.par i => (hget h i).parent
  | Slot.lft i => (hget h i).left
  | Slot.rgt i => (hget h i).right

/-- Write a pointer through a slot. -/
def writeSlot (h : Heap α) : Slot → Option Nat → Heap α
  | Slot.par i, v => hset h i (fun n => { n with parent := v })
  | Slot.lft i, v => hset h i (fun n => { n with left := v })
  | Slot.rgt i, v => hset h i (fun n => { n with right := v })

def hInsertLoop (h : Heap α) (lt : α → α → Bool) (x : α) :
    Nat → Slot → Nat → Bool → Bool → Heap α × Slot × Nat × Bool × Bool
  | 0, cur, par, isL, isR => (h, cur, par, isL, isR)
  | fuel + 1, cur, par, isL, isR =>
      match readSlot h cur with
      | none => (h, cur, par, isL, isR)
      | some c =>
          let h2 := hset h c (fun n => { n with sz := n.sz + 1 })
          match (hget h c).val with
          | none => (h2, cur, par, isL, isR)
          | some v =>
              if lt v x then hInsertLoop h2 lt x fuel (Slot.rgt c) c false isR
              else hInsertLoop h2 lt x fuel (Slot.lft c) c isL false

/-- `tree::qct_insert` (src/qct.h:324-356): the descent loop, then linking in
the caller-owned node `xid` (which must not yet be in the heap) with
`balance_ = 0`, `subtree_size_ = 1`, and the `leftmost()` / `rightmost()`
cache updates. -/
def hQctInsert (h : Heap α) (lt : α → α → Bool) (x : α) (xid : Nat) : Heap α :=
  let res := hInsertLoop h lt x (h.length + 1) (Slot.par 0) 0 true true
  let h2 := res.1
  let cur := res.2.1
  let par := res.2.2.1
  let isL := res.2.2.2.1
  let isR := res.2.2.2.2
  let h3 := writeSlot h2 cur (some xid)
  let h4 : Heap α := h3 ++ [(xid, ⟨some par, none, none, 1, 0, some x⟩)]
  let h5 := if isL then writeSlot h4 (Slot.lft 0) (some xid) else h4
  if isR then writeSlot h5 (Slot.rgt 0) (some xid) else h5

/-- `tree::qct_rotate_left(x, z)` (src/qct.h:399-422) on the heap; returns
the new heap and the returned subtree root `z`. -/
def hRotL (h : Heap α) (x z : Nat) : Heap α × Nat :=
  let tmp := (hget h z).left
  let h1 := hset h x (fun n => { n with right := tmp })
  let h2 :=
    match tmp with
    | some t => hset h1 t (fun n => { n with parent := some x })
    | none => h1
  let h3 := hset h2 z (fun n => { n with left := some x })
  let h4 := hset h3 x (fun n => { n with parent := some z })
  let xsz := (hget h4 x).sz
  let zsz := (hget h4 z).sz
  let tsz := match tmp with | some t => (hget h4 t).sz | none => 0
  let h5 := hset h4 x (fun n => { n with sz := n.sz - (zsz - tsz) })
  let h6 := hset h5 z (fun n => { n with sz := xsz })
  let h7 :=
    if (hget h6 z).bal = 0 then
      hset (hset h6 x (fun n => { n with bal := 1 })) z
        (fun n => { n with bal := -1 })
    else
      hset (hset h6 x (fun n => { n with bal := 0 })) z
        (fun n => { n with bal := 0 })
  (h7, z)

/-- `tree::qct_rotate_right(x, z)` (src/qct.h:424-447). -/
def hRotR (h : Heap α) (x z : Nat) : Heap α × Nat :=
  let tmp := (hget h z).right
  let h1 := hset h x (fun n => { n with left := tmp })
  let h2 :=
    match tmp with
    | some t => hset h1 t (fun n => { n with parent := some x })
    | none => h1
  let h3 := hset h2 z (fun n => { n with right := some x })
  let h4 := hset h3 x (fun n => { n with parent := some z })
  let xsz := (hget h4 x).sz
  let zsz := (hget h4 z).sz
  let tsz := match tmp with | some t => (hget h4 t).sz | none => 0
  let h5 := hset h4 x (fun n => { n with sz := n.sz - (zsz - tsz) })
  let h6 := hset h5 z (fun n => { n with sz := xsz })
  let h7 :=
    if (hget h6 z).bal = 0 then
      hset (hset h6 x (fun n => { n with bal := -1 })) z
        (fun n => { n with bal := 1 })
    else
      hset (hset h6 x (fun n => { n with bal := 0 })) z
        (fun n => { n with bal := 0 })
  (h7, z)

/-- `tree::qct_rotate_right_left(x, z)` (src/qct.h:449-487): `y = z->left_`,
`tmp1 = y->right_`, `tmp2 = y->left_`. -/
def hRotRL (h : Heap α) (x z : Nat) : Heap α × Nat :=
  let y := (hget h z).left.getD 0
  let tmp1 := (hget h y).right
  let h1 := hset h z (fun n => { n with left := tmp1 })
  let h2 :=
    match tmp1 with
    | some t => hset h1 t (fun n => { n with parent := some z })
    | none => h1
  let h3 := hset h2 y (fun n => { n with right := some z })
  let h4 := hset h3 z (fun n => { n with parent := some y })
  let tmp2 := (hget h4 y).left
  let h5 := hset h4 x (fun n => { n with right := tmp2 })
  let h6 :=
    match tmp2 with
    | some t => hset h5 t (fun n => { n with parent := some x })
    | none => h5
  let h7 := hset h6 y (fun n => { n with left := some x })
  let h8 := hset h7 x (fun n => { n with parent := some y })
  let xsz := (hget h8 x).sz
  let zsz := (hget h8 z).sz
  let ysz := (hget h8 y).sz
  let t1sz := match tmp1 with | some t => (hget h8 t).sz | none => 0
  let t2sz := match tmp2 with | some t => (hget h8 t).sz | none => 0
  let h9 := hset h8 x (fun n => { n with sz := n.sz - (zsz - t2sz) })
  let h10 := hset h9 z (fun n => { n with sz := n.sz - (ysz - t1sz) })
  let h11 := hset h10 y (fun n => { n with sz := xsz })
  let yb := (hget h11 y).bal
  let h12 :=
    if yb = 0 then
      hset (hset h11 x (fun n => { n with bal := 0 })) z
        (fun n => { n with bal := 0 })
    else if yb > 0 then
      hset (hset h11 x (fun n => { n with bal := -1 })) z
        (fun n => { n with bal := 0 })
    else
      hset (hset h11 x (fun n => { n with bal := 0 })) z
        (fun n => { n with bal := 1 })
  (hset h12 y (fun n => { n with bal := 0 }), y)

/-- `tree::qct_rotate_left_right(x, z)` (src/qct.h:489-527). -/
def hRotLR (h : Heap α) (x z : Nat) : Heap α × Nat :=
  let y := (hget h z).right.getD 0
  let tmp1 := (hget h y).left
  let h1 := hset h z (fun n => { n with right := tmp1 })
  let h2 :=
    match tmp1 with
    | some t => hset h1 t (fun n => { n with parent := some z })
    | none => h1
  let h3 := hset h2 y (fun n => { n with left := some z })
  let h4 := hset h3 z (fun n => { n with parent := some y })
  let tmp2 := (hget h4 y).right
  let h5 := hset h4 x (fun n => { n with left := tmp2 })
  let h6 :=
    match tmp2 with
    | some t => hset h5 t (fun n => { n with parent := some x })
    | none => h5
  let h7 := hset h6 y (fun n => { n with right := some x })
  let h8 := hset h7 x (fun n => { n with parent := some y })
  let xsz := (hget h8 x).sz
  let zsz := (hget h8 z).sz
  let ysz := (hget h8 y).sz
  let t1sz := match tmp1 with | some t => (hget h8 t).sz | none => 0
  let t2sz := match tmp2 with | some t => (hget h8 t).sz | none => 0
  let h9 := hset h8 x (fun n => { n with sz := n.sz - (zsz - t2sz) })
  let h10 := hset h9 z (fun n => { n with sz := n.sz - (ysz - t1sz) })
  let h11 := hset h10 y (fun n => { n with sz := xsz })
  let yb := (hget h11 y).bal
  let h12 :=
    if yb = 0 then
      hset (hset h11 x (fun n => { n with bal := 0 })) z
        (fun n => { n with bal := 0 })
    else if yb < 0 then
      hset (hset h11 x (fun n => { n with bal := 1 })) z
        (fun n => { n with bal := 0 })
    else
      hset (hset h11 x (fun n => { n with bal := -1 })) z
        (fun n => { n with bal := 0 })
  (hset h12 y (fun n => { n with bal := 0 }), y)

/-- The re-linking of the rotated subtree root `n` under the old grandparent
`g` (src/qct.h:571-583 and 642-653): `n->parent_ = g`, then fix the child
slot of `g` — or `root()` when `g` is the header. -/
def hRelink (h : Heap α) (n : Nat) (g : Option Nat) (x : Nat) : Heap α :=
  let h1 := hset h n (fun nd => { nd with parent := g })
  match g with
  | none => h1
  | some gi =>
      if gi = 0 then writeSlot h1 (Slot.par 0) (some n)
      else if (hget h1 gi).left = some x then
        hset h1 gi (fun nd => { nd with left := some n })
      else hset h1 gi (fun nd => { nd with right := some n })

/-- The climb loop of `tree::qct_insert_rebalance` (src/qct.h:529-585),
starting at the freshly inserted node `z`. -/
def hInsRebal (h : Heap α) : Nat → Nat → Heap α
  | 0, _ => h
  | fuel + 1, z =>
      match (hget h z).parent with
      | none => h
      | some x =>
          if x = 0 then h
          else
            let g := (hget h x).parent
            if (hget h x).left = some z then
              if (hget h x).bal < 0 then
                let res :=
                  if (hget h z).bal > 0 then hRotLR h x z else hRotR h x z
                hRelink res.1 res.2 g x
              else if (hget h x).bal > 0 then
                hset h x (fun n => { n with bal := 0 })
              else hInsRebal (hset h x (fun n => { n with bal := -1 })) fuel x
            else
              if (hget h x).bal > 0 then
                let res :=
                  if (hget h z).bal < 0 then hRotRL h x z else hRotL h x z
                hRelink res.1 res.2 g x
              else if (hget h x).bal < 0 then
                hset h x (fun n => { n with bal := 0 })
              else hInsRebal (hset h x (fun n => { n with bal := 1 })) fuel x

/-- `tree::insert` (src/qct.h:185-189) on the heap. -/
def hInsert (h : Heap α) (lt : α → α → Bool) (x : α) (xid : Nat) : Heap α :=
  let h1 := hQctInsert h lt x xid
  hInsRebal h1 (h1.length + 1) xid

/-- `tree::bst_shift_nodes(u, v)` (src/qct.h:308-322). -/
def hShift (h : Heap α) (u : Nat) (v : Option Nat) : Heap α :=
  let h1 :=
    if (hget h 0).parent = some u then writeSlot h (Slot.par 0) v
    else
      match (hget h u).parent with
      | none => h
      | some pu =>
          if (hget h pu).left = some u then
            hset h pu (fun n => { n with left := v })
          else hset h pu (fun n => { n with right := v })
  match v with
  | none => h1
  | some vi => hset h1 vi (fun n => { n with parent := (hget h u).parent })

/-- `tree::bst_erase(z)` (src/qct.h:358-397): the BST unlinking, the
`leftmost()` / `rightmost()` cache updates, and the `erase_rebalance_info`
result `(x, y, n_is_left)`. -/
def hBstErase (h : Heap α) (z : Nat) : Heap α × Option Nat × Option Nat × Bool :=
  let zn := hget h z
  let inl :=
    match zn.parent with
    | some p => (hget h p).left = some z
    | none => false
  if zn.left = none then
    let h1 := hShift h z zn.right
    let h2 :=
      if (hget h1 0).left = some z then
        writeSlot h1 (Slot.lft 0)
          (some (hMinimum h1 (h1.length + 1) (zn.parent.getD 0)))
      else h1
    (h2, zn.parent, none, inl)
  else if zn.right = none then
    let h1 := hShift h z zn.left
    let h2 :=
      if (hget h1 0).right = some z then
        writeSlot h1 (Slot.rgt 0)
          (some (hMaximum h1 (h1.length + 1) (zn.left.getD 0)))
      else h1
    (h2, zn.parent, none, inl)
  else
    let y := hMinimum h (h.length + 1) (zn.right.getD 0)
    if (hget h y).parent ≠ some z then
      let ix := (hget h y).parent
      let h1 := hShift h y (hget h y).right
      let h2 := hset h1 y (fun n => { n with right := (hget h1 z).right })
      let h3 :=
        match (hget h2 y).right with
        | some ri => hset h2 ri (fun n => { n with parent := some y })
        | none => h2
      let h4 := hShift h3 z (some y)
      let h5 := hset h4 y (fun n => { n with left := (hget h4 z).left })
      let h6 :=
        match (hget h5 y).left with
        | some li => hset h5 li (fun n => { n with parent := some y })
        | none => h5
      (h6, ix, some y, true)
    else
      let h4 := hShift h z (some y)
      let h5 := hset h4 y (fun n => { n with left := (hget h4 z).left })
      let h6 :=
        match (hget h5 y).left with
        | some li => hset h5 li (fun n => { n with parent := some y })
        | none => h5
      (h6, some y, some y, false)

/-- The climb loop of `tree::qct_erase_rebalance` (src/qct.h:594-657).
Returns the heap and the value of `g` when the loop exits — `none` stands for
the case in which the loop body never ran and `g` was left uninitialized
(only possible when erasing the root of a tree whose root has fewer than two
children; the second loop is then modelled as a no-op, the one benign reading
of the uninitialized variable). -/
def hEraseLoop (h : Heap α) : Nat → Nat → Bool → Option Nat → Heap α × Option Nat
  | 0, _, _, gPrev => (h, gPrev)
  | fuel + 1, x, nIsLeft, gPrev =>
      if x = 0 then (h, gPrev)
      else
        let g := (hget h x).parent
        let h1 := hset h x (fun n => { n with sz := n.sz - 1 })
        if nIsLeft then
          if (hget h1 x).bal > 0 then
            let z := (hget h1 x).right.getD 0
            let hc := (hget h1 z).bal ≠ 0
            let res := if (hget h1 z).bal < 0 then hRotRL h1 x z else hRotL h1 x z
            let h3 := hRelink res.1 res.2 g x
            if hc then
              hEraseLoop h3 fuel (g.getD 0)
                ((hget h3 (g.getD 0)).left = some res.2) g
            else (h3, g)
          else if (hget h1 x).bal < 0 then
            let h2 := hset h1 x (fun n => { n with bal := 0 })
            hEraseLoop h2 fuel (g.getD 0) ((hget h2 (g.getD 0)).left = some x) g
          else (hset h1 x (fun n => { n with bal := 1 }), g)
        else
          if (hget h1 x).bal < 0 then
            let z := (hget h1 x).left.getD 0
            let hc := (hget h1 z).bal ≠ 0
            let res := if (hget h1 z).bal > 0 then hRotLR h1 x z else hRotR h1 x z
            let h3 := hRelink res.1 res.2 g x
            if hc then
              hEraseLoop h3 fuel (g.getD 0)
                ((hget h3 (g.getD 0)).left = some res.2) g
            else (h3, g)
          else if (hget h1 x).bal > 0 then
            let h2 := hset h1 x (fun n => { n with bal := 0 })
            hEraseLoop h2 fuel (g.getD 0) ((hget h2 (g.getD 0)).left = some x) g
          else (hset h1 x (fun n => { n with bal := -1 }), g)

/-- The second loop of `tree::qct_erase_rebalance` (src/qct.h:659-661):
decrement `subtree_size_` of the remaining ancestors up to the header. -/
def hSizeLoop (h : Heap α) : Nat → Option Nat → Heap α
  | 0, _ => h
  | _ + 1, none => h
  | fuel + 1, some x =>
      if x = 0 then h
      else
        hSizeLoop (hset h x (fun n => { n with sz := n.sz - 1 })) fuel
          (hget h x).parent

/-- `tree::erase` (src/qct.h:175-183): `bst_erase`, the re-stamp of `info.y`
with the erased node's `balance_` and `subtree_size_`, and
`qct_erase_rebalance`.  The erased node's record is left in the heap with its
stale field values (the caller owns its storage). -/
def hErase (h : Heap α) (z : Nat) : Heap α :=
  let res := hBstErase h z
  let h1 := res.1
  let ix := res.2.1
  let iy := res.2.2.1
  let inl := res.2.2.2
  let h2 :=
    match iy with
    | some y =>
        hset h1 y (fun n => { n with bal := (hget h z).bal, sz := (hget h z).sz })
    | none => h1
  match ix with
  | none => h2
  | some x0 =>
      let res2 := hEraseLoop h2 (h2.length + 1) x0 inl none
      hSizeLoop res2.1 (res2.1.length + 1) res2.2

end Heap

/-- `q` is the position of a proper ancestor of the node at position `p`:
a strict prefix of the path. -/
def ProperAnc (q p : List Bool) : Prop :=
  q.length < p.length ∧ p.take q.length = q

instance : ∀ q p : List Bool, Decidable (ProperAnc q p) := fun q p =>
  decidable_of_iff (q.length < p.length ∧ p.take q.length = q) Iff.rfl

/-- The comparator used by all concrete witnesses: `<` on `ℕ`
(`std::less<>` on integer payloads). -/
def natLt : Nat → Nat → Bool := fun a b => decide (a < b)

/-- The empty, default-constructed container. -/
def qct0 : QCT Nat := ⟨qnil, HPtr.hnull, HPtr.hnull⟩

/-- The reachable state obtained by inserting 10, 5, 20, 3, 7, 25, 8 into an
empty tree.  Its root is 10 with stored balance -1; the node 5 (at path
`[false]`) has stored balance +1 and right child 7 with stored balance +1. -/
def c1state : QCT Nat :=
  QCT.insert natLt 8 (QCT.insert natLt 25 (QCT.insert natLt 7
    (QCT.insert natLt 3 (QCT.insert natLt 20 (QCT.insert natLt 5
      (QCT.insert natLt 10 qct0))))))

/-- The path of the *removed position*: the structural position at which a
node physically disappears during `erase` of the node at `p`.  For a node
with fewer than two children that is `p` itself; for a node with two children
it is the position of the spliced in-order successor
`y = bst_minimum(z->right_)` — `p`, then right once, then left all the way. -/
def erasePath {α : Type} (t : QTree α) (p : List Bool) : List Bool :=
  match subtreeAt t p with
  | qnil => p
  | qnode qnil _ _ _ _ => p
  | qnode _ _ _ _ qnil => p
  | qnode _ _ _ _ (qnode a w c d e) => p ++ true :: minPath (qnode a w c d e)

/-- The reachable state obtained by inserting 10, 5, 20, 3, 15, 25, 30: root
10 with stored balance +1, left child 5 (balance -1, subtree size 2, left
child 3), right child 20 (balance +1, subtree size 4). -/
def c3state : QCT Nat :=
  QCT.insert natLt 30 (QCT.insert natLt 25 (QCT.insert natLt 15
    (QCT.insert natLt 3 (QCT.insert natLt 20 (QCT.insert natLt 5
      (QCT.insert natLt 10 qct0))))))

/-- The reachable state obtained by inserting 1 then 2 (tree: root 1 with
right child 2) and then erasing the node 2 — a childless maximum.  The first
branch of `bst_erase` (no left child) runs and never updates `rightmost()`. -/
def c5state : QCT Nat :=
  QCT.erase (QCT.insert natLt 2 (QCT.insert natLt 1 qct0)) [true]

/-- The pointer-level heap obtained by inserting 1, 2, 3 (ids = values) and
erasing node 3 — a childless maximum.  `header_.right_` still points at the
erased node 3, whose stale record keeps `parent_ = node 2`. -/
def c6heap : Heap Nat :=
  Heap.hErase (Heap.hInsert (Heap.hInsert (Heap.hInsert Heap.hempty
    natLt 1 1) natLt 2 2) natLt 3 3) 3

/-- A state reached through a cache-safe erase: insert 1, 2, 3 (the tree
rebalances to root 2 with children 1 and 3) and erase the root, which has
two children.  The expected caches are `leftmost() = 1`, `rightmost() = 3`. -/
def c5safe : QCT Nat :=
  QCT.erase (QCT.insert natLt 3 (QCT.insert natLt 2
    (QCT.insert natLt 1 qct0))) []

/-- Non-decreasing in-order sequence: every element is "not less" than every
earlier one. -/
def SortedIO {α : Type} (lt : α → α → Bool) (t : QTree α) : Prop :=
  List.Pairwise (fun a b => lt b a = false) (QTree.inorder t)

/-- The suffix of the in-order sequence of `t` that starts at the real node
identified by the path: the elements the iterator chain still has to visit
when it stands on that node. -/
def inorderTail {α : Type} : QTree α → List Bool → List α
  | qnil, _ => []
  | qnode _ v _ _ r, [] => v :: QTree.inorder r
  | qnode l v _ _ r, false :: p => inorderTail l p ++ v :: QTree.inorder r
  | qnode _ _ _ _ r, true :: p => inorderTail r p

/-!
## Claim theorems

Helper lemmas first, then one theorem per claim (with witnesses and
counterexamples where required).
-/

open QTree

/-- **C8.** The rotation primitives implement exactly the specified
balance-factor transition table.  For the single rotations
(`qct_rotate_left` / `qct_rotate_right`, where the returned root is the old
child `z` and the demoted node `x` becomes its child): if `z`'s input
balance was 0 then `x` and `z` end with balances of magnitude 1 leaning away
from each other (`x` leans toward the side `z` came from and `z` leans back
toward `x`), otherwise both end at 0.  For the double rotations through the
intermediate node `y` (the returned root): the outer nodes' balances follow
the three-way split on `y`'s pre-rotation balance — zero means both outer
nodes end balanced, otherwise exactly one outer node ends leaning one way and
the other ends balanced — and `y` itself always ends with balance 0. -/
theorem claim_C8_rotation_balance_table {α : Type}
    (xl tmp zr tmp1 tmp2 : QTree α) (xv zv yv : α)
    (xb zb yb : Int) (xs zs ys : Nat) :
    ((zb = 0 →
        balf (qct_rotate_left (qnode xl xv xb xs (qnode tmp zv zb zs zr))) = -1 ∧
        balf (leftOf (qct_rotate_left (qnode xl xv xb xs (qnode tmp zv zb zs zr)))) = 1) ∧
      (zb ≠ 0 →
        balf (qct_rotate_left (qnode xl xv xb xs (qnode tmp zv zb zs zr))) = 0 ∧
        balf (leftOf (qct_rotate_left (qnode xl xv xb xs (qnode tmp zv zb zs zr)))) = 0)) ∧
    ((zb = 0 →
        balf (qct_rotate_right (qnode (qnode tmp zv zb zs zr) xv xb xs xl)) = 1 ∧
        balf (rightOf (qct_rotate_right (qnode (qnode tmp zv zb zs zr) xv xb xs xl))) = -1) ∧
      (zb ≠ 0 →
        balf (qct_rotate_right (qnode (qnode tmp zv zb zs zr) xv xb xs xl)) = 0 ∧
        balf (rightOf (qct_rotate_right (qnode (qnode tmp zv zb zs zr) xv xb xs xl))) = 0)) ∧
    (balf (qct_rotate_right_left
        (qnode xl xv xb xs (qnode (qnode tmp2 yv yb ys tmp1) zv zb zs zr))) = 0 ∧
      (yb = 0 →
        balf (leftOf (qct_rotate_right_left
          (qnode xl xv xb xs (qnode (qnode tmp2 yv yb ys tmp1) zv zb zs zr)))) = 0 ∧
        balf (rightOf (qct_rotate_right_left
          (qnode xl xv xb xs (qnode (qnode tmp2 yv yb ys tmp1) zv zb zs zr)))) = 0) ∧
      (yb > 0 →
        balf (leftOf (qct_rotate_right_left
          (qnode xl xv xb xs (qnode (qnode tmp2 yv yb ys tmp1) zv zb zs zr)))) = -1 ∧
        balf (rightOf (qct_rotate_right_left
          (qnode xl xv xb xs (qnode (qnode tmp2 yv yb ys tmp1) zv zb zs zr)))) = 0) ∧
      (yb < 0 →
        balf (leftOf (qct_rotate_right_left
          (qnode xl xv xb xs (qnode (qnode tmp2 yv yb ys tmp1) zv zb zs zr)))) = 0 ∧
        balf (rightOf (qct_rotate_right_left
          (qnode xl xv xb xs (qnode (qnode tmp2 yv yb ys tmp1) zv zb zs zr)))) = 1)) ∧
    (balf (qct_rotate_left_right
        (qnode (qnode tmp1 zv zb zs (qnode tmp2 yv yb ys zr)) xv xb xs xl)) = 0 ∧
      (yb = 0 →
        balf (leftOf (qct_rotate_left_right
          (qnode (qnode tmp1 zv zb zs (qnode tmp2 yv yb ys zr)) xv xb xs xl))) = 0 ∧
        balf (rightOf (qct_rotate_left_right
          (qnode (qnode tmp1 zv zb zs (qnode tmp2 yv yb ys zr)) xv xb xs xl))) = 0) ∧
      (yb < 0 →
        balf (leftOf (qct_rotate_left_right
          (qnode (qnode tmp1 zv zb zs (qnode tmp2 yv yb ys zr)) xv xb xs xl))) = 0 ∧
        balf (rightOf (qct_rotate_left_right
          (qnode (qnode tmp1 zv zb zs (qnode tmp2 yv yb ys zr)) xv xb xs xl))) = 1) ∧
      (yb > 0 →
        balf (leftOf (qct_rotate_left_right
          (qnode (qnode tmp1 zv zb zs (qnode tmp2 yv yb ys zr)) xv xb xs xl))) = -1 ∧
        balf (rightOf (qct_rotate_left_right
          (qnode (qnode tmp1 zv zb zs (qnode tmp2 yv yb ys zr)) xv xb xs xl))) = 0)) := by
  refine ⟨⟨?_, ?_⟩, ⟨?_, ?_⟩, ⟨?_, ?_, ?_, ?_⟩, ⟨?_, ?_, ?_, ?_⟩⟩ <;>
    (try intro h) <;>
    simp only [qct_rotate_left, qct_rotate_right, qct_rotate_right_left,
      qct_rotate_left_right] <;>
    split_ifs <;>
    simp_all [balf, leftOf, rightOf] <;>
    omega

/-- Witness for C8 at concrete inputs: a single left rotation with `z`
balanced yields the leaning-apart pair, and a double rotation with `y`
leaning right yields `x` at -1, `z` at 0, `y` at 0. -/
theorem claim_C8_witness :
    balf (qct_rotate_left
      (qnode (qnil : QTree Nat) 1 1 3 (qnode qnil 2 0 2 qnil))) = -1 ∧
    balf (qct_rotate_right_left
      (qnode (qnil : QTree Nat) 1 2 4
        (qnode (qnode qnil 2 1 2 (qnode qnil 3 0 1 qnil)) 4 (-1) 3 qnil))) = 0 := by
  constructor
  · exact ((claim_C8_rotation_balance_table (α := Nat) qnil qnil qnil qnil qnil
      1 2 0 1 0 0 3 2 0).1.1 rfl).1
  · exact (claim_C8_rotation_balance_table (α := Nat) qnil qnil qnil
      (qnode qnil 3 0 1 qnil) qnil 1 4 2 2 (-1) 1 4 3 2).2.2.1.1

/-- **C7.** Insert breaks ties by descending left (`qct_insert` descends
right only when `Comp{}(*current, x)` is true, src/qct.h:333-340), so a newly
inserted node that compares equal to existing nodes precedes them in
in-order iteration: for any three pairwise comparator-equal nodes `a`, `b`,
`c` inserted in that order into an empty tree, the in-order sequence is
`[c, b, a]` — the third-inserted precedes the second-inserted, which precedes
the first-inserted (LIFO among equal keys). -/
theorem claim_C7_duplicate_ties_lifo {α : Type} (lt : α → α → Bool) (a b c : α)
    (hab : lt a b = false) (hac : lt a c = false) (hbc : lt b c = false) :
    inorder (insert lt c (insert lt b (insert lt a qnil))) = [c, b, a] := by
  simp [QTree.insert, qct_insert, qct_insert_rebalance, insStepL,
    qct_rotate_right, inorder, balf, szf, hab, hac, hbc]

/-- Witness for C7: three nodes with key 5 (distinguished by their identity,
as caller-owned objects are) inserted into an empty tree come out in reverse
insertion order. -/
theorem claim_C7_witness :
    inorder (insert (fun x y : Nat × Nat => decide (x.1 < y.1)) (5, 3)
      (insert (fun x y => decide (x.1 < y.1)) (5, 2)
        (insert (fun x y => decide (x.1 < y.1)) (5, 1) qnil))) =
      [(5, 3), (5, 2), (5, 1)] :=
  claim_C7_duplicate_ties_lifo (fun x y => decide (x.1 < y.1))
    (5, 1) (5, 2) (5, 3) (by decide) (by decide) (by decide)

/-- **C10.** For an iterator referring to a real node of a reachable tree,
the postfix decrement `operator--(int)` (src/qct.h:122-127) returns an
iterator to the original node but moves the iterator to the node's in-order
*successor* — its body is `retval = *this; ++(*this); return retval`,
identical to postfix increment — rather than to the in-order predecessor;
only the prefix decrement (src/qct.h:117-121) moves backward. -/
theorem claim_C10_postfix_decrement_moves_forward {α : Type} [DecidableEq α]
    (lt : α → α → Bool) (q : QCT α) (_hq : Reach lt q) (p : List Bool)
    (_hv : isValidPath q.root p = true) :
    itDecPost q.root (IterPos.node p) = itIncPost q.root (IterPos.node p) ∧
    itDecPost q.root (IterPos.node p) = (IterPos.node p, succPath q.root p) ∧
    itDec q.root (IterPos.node p) = predPath q.root (IterPos.node p) :=
  ⟨rfl, rfl, rfl⟩

/-- Witness for C10 on the reachable tree {1, 2, 3} (root 2): postfix
decrement at the root returns the root and moves to node 3 (the successor),
which differs from the predecessor (node 1). -/
theorem claim_C10_witness :
    itDecPost (QCT.insert natLt 3 (QCT.insert natLt 2
        (QCT.insert natLt 1 ⟨qnil, HPtr.hnull, HPtr.hnull⟩))).root
      (IterPos.node []) =
      (IterPos.node [],
        succPath (QCT.insert natLt 3 (QCT.insert natLt 2
          (QCT.insert natLt 1 ⟨qnil, HPtr.hnull, HPtr.hnull⟩))).root []) ∧
    succPath (QCT.insert natLt 3 (QCT.insert natLt 2
        (QCT.insert natLt 1 ⟨qnil, HPtr.hnull, HPtr.hnull⟩))).root [] =
      IterPos.node [true] ∧
    predPath (QCT.insert natLt 3 (QCT.insert natLt 2
        (QCT.insert natLt 1 ⟨qnil, HPtr.hnull, HPtr.hnull⟩))).root
      (IterPos.node []) = IterPos.node [false] :=
  ⟨(claim_C10_postfix_decrement_moves_forward natLt _
      (Reach.ins (Reach.ins (Reach.ins Reach.empty (by decide)) (by decide))
        (by decide)) [] (by decide)).2.1,
    by decide, by decide⟩

/-- **C1, counterexample.**  The claim states that during erase rebalancing a
rotation pivot with *non-zero* pre-rotation balance stops the upward
propagation and a pivot with *zero* balance lets it continue.  The code does
the opposite (`height_changed = z->balance_ != 0; ... if (!height_changed)
break;`, src/qct.h:602, 623, 654-656).  Concretely: in the reachable
seven-element tree `c1state` (root 10 with stored balance -1), erasing the
node at path `[false, false]` (element 3) performs exactly one rotation, at
the ancestor 5, whose pivot `z` (node 7, the right child of 5) has
pre-rotation balance +1 — non-zero — yet propagation *continues* past the
rotation: the root's stored balance changes from -1 to 0. -/
theorem claim_C1_counterexample :
    Reach natLt c1state ∧
    isValidPath c1state.root [false, false] = true ∧
    balf (rightOf (subtreeAt c1state.root [false])) = 1 ∧
    (qct_erase c1state.root [false, false]).2.2 = 1 ∧
    balf c1state.root = -1 ∧
    balf (qct_erase c1state.root [false, false]).1 = 0 ∧
    (qct_erase c1state.root [false, false]).2.1 = true := by
  refine ⟨?_, by decide, by decide, by decide, by decide, by decide, by decide⟩
  exact Reach.ins (Reach.ins (Reach.ins (Reach.ins (Reach.ins (Reach.ins
    (Reach.ins Reach.empty (by decide)) (by decide)) (by decide)) (by decide))
    (by decide)) (by decide)) (by decide)

/-- **C1, amended.**  During erase rebalancing, whenever a rotation is
performed at an ancestor `x` (because the sibling-side subtree leaned away
from the shrunk side, stored balance ±1 toward the sibling), the continuation
of upward propagation is decided by the rotation pivot `z`'s pre-rotation
balance, with the roles of zero and non-zero swapped with respect to the
claim: if `z`'s pre-rotation balance was *zero*, the subtree's height is
restored exactly (the pre-erase height was `height of the sibling + 1`) and
propagation stops; if it was *non-zero*, the height decreased by one and
propagation continues climbing after the rotation.  Stated for both shrink
directions on any step whose subtrees satisfy the AVL balance invariant and
whose shrunk side is two levels below the sibling. -/
theorem claim_C1_amended {α : Type} :
    (∀ (l : QTree α) (v : α) (s : Nat) (r : QTree α), BalOk l → BalOk r →
      height l + 2 = height r →
      ((balf r = 0 → (eraStepL l v 1 s r).2.1 = false ∧
          height (eraStepL l v 1 s r).1 = height r + 1) ∧
        (balf r ≠ 0 → (eraStepL l v 1 s r).2.1 = true ∧
          height (eraStepL l v 1 s r).1 = height r))) ∧
    (∀ (l : QTree α) (v : α) (s : Nat) (r : QTree α), BalOk l → BalOk r →
      height r + 2 = height l →
      ((balf l = 0 → (eraStepR l v (-1) s r).2.1 = false ∧
          height (eraStepR l v (-1) s r).1 = height l + 1) ∧
        (balf l ≠ 0 → (eraStepR l v (-1) s r).2.1 = true ∧
          height (eraStepR l v (-1) s r).1 = height l))) := by
  constructor
  · intro l v s r hl hr hh
    match r with
    | qnil => simp [height] at hh
    | qnode rl rv rb rs rr =>
      obtain ⟨hrb, hrb1, hrb2, hrl, hrr⟩ := hr
      have h1 : ((1 : Int) > 0) = True := by norm_num
      rcases lt_trichotomy rb 0 with hneg | h0 | hpos
      · -- rb < 0: double rotation through y = rl
        have c2 : balf (qnode rl rv rb rs rr) ≠ 0 := by simp [balf]; omega
        refine ⟨fun he => absurd he c2.elim, fun _ => ?_⟩
        match rl with
        | qnil => exfalso; simp [height] at hrb; omega
        | qnode ya yv yb ys yc =>
          obtain ⟨hyb, hyb1, hyb2, hya, hyc⟩ := hrl
          have c1 : balf (qnode (qnode ya yv yb ys yc) rv rb rs rr) < 0 := by
            simpa [balf] using hneg
          simp only [eraStepL, h1, if_true, if_pos c1, qct_rotate_right_left]
          split_ifs <;> refine ⟨by trivial, ?_⟩ <;>
            simp only [height] at hh hrb hyb ⊢ <;> omega
      · have c0 : balf (qnode rl rv rb rs rr) = 0 := by simpa [balf] using h0
        refine ⟨fun _ => ?_, fun hne => absurd c0 hne⟩
        have c1 : ¬ balf (qnode rl rv rb rs rr) < 0 := by simp [balf]; omega
        simp only [eraStepL, h1, if_true, if_neg c1, if_pos c0, qct_rotate_left,
          if_pos (show rb = 0 by omega)]
        refine ⟨by trivial, ?_⟩
        simp only [height] at hh hrb ⊢
        omega
      · have c2 : balf (qnode rl rv rb rs rr) ≠ 0 := by simp [balf]; omega
        refine ⟨fun he => absurd he c2.elim, fun _ => ?_⟩
        have c1 : ¬ balf (qnode rl rv rb rs rr) < 0 := by simp [balf]; omega
        have c0 : ¬ balf (qnode rl rv rb rs rr) = 0 := c2
        simp only [eraStepL, h1, if_true, if_neg c1, if_neg c0, qct_rotate_left,
          if_neg (show ¬ rb = 0 by omega)]
        refine ⟨by trivial, ?_⟩
        simp only [height] at hh hrb ⊢
        omega
  · intro l v s r hl hr hh
    match l with
    | qnil => simp [height] at hh
    | qnode ll lv lb ls lr =>
      obtain ⟨hlb, hlb1, hlb2, hll, hlr⟩ := hl
      have h1 : ((-1 : Int) < 0) = True := by norm_num
      rcases lt_trichotomy lb 0 with hneg | h0 | hpos
      · have c2 : balf (qnode ll lv lb ls lr) ≠ 0 := by simp [balf]; omega
        refine ⟨fun he => absurd he c2.elim, fun _ => ?_⟩
        have c1 : ¬ balf (qnode ll lv lb ls lr) > 0 := by simp [balf]; omega
        have c0 : ¬ balf (qnode ll lv lb ls lr) = 0 := c2
        simp only [eraStepR, h1, if_true, if_neg c1, if_neg c0, qct_rotate_right,
          if_neg (show ¬ lb = 0 by omega)]
        refine ⟨by trivial, ?_⟩
        simp only [height] at hh hlb ⊢
        omega
      · have c0 : balf (qnode ll lv lb ls lr) = 0 := by simpa [balf] using h0
        refine ⟨fun _ => ?_, fun hne => absurd c0 hne⟩
        have c1 : ¬ balf (qnode ll lv lb ls lr) > 0 := by simp [balf]; omega
        simp only [eraStepR, h1, if_true, if_neg c1, if_pos c0, qct_rotate_right,
          if_pos (show lb = 0 by omega)]
        refine ⟨by trivial, ?_⟩
        simp only [height] at hh hlb ⊢
        omega
      · -- lb > 0: double rotation through y = lr
        have c2 : balf (qnode ll lv lb ls lr) ≠ 0 := by simp [balf]; omega
        refine ⟨fun he => absurd he c2.elim, fun _ => ?_⟩
        match lr with
        | qnil => exfalso; simp [height] at hlb; omega
        | qnode ya yv yb ys yc =>
          obtain ⟨hyb, hyb1, hyb2, hya, hyc⟩ := hlr
          have c1 : balf (qnode ll lv lb ls (qnode ya yv yb ys yc)) > 0 := by
            simpa [balf] using hpos
          simp only [eraStepR, h1, if_true, if_pos c1, qct_rotate_left_right]
          split_ifs <;> refine ⟨by trivial, ?_⟩ <;>
            simp only [height] at hh hlb hyb ⊢ <;> omega

/-- Witness for the amended C1: a concrete left-shrink step whose pivot has
balance +1 continues climbing with the height decreased, and one whose pivot
has balance 0 stops with the height restored. -/
theorem claim_C1_witness :
    ((eraStepL (qnil : QTree Nat) 5 1 3
        (qnode qnil 7 1 2 (qnode qnil 8 0 1 qnil))).2.1 = true ∧
      height (eraStepL (qnil : QTree Nat) 5 1 3
        (qnode qnil 7 1 2 (qnode qnil 8 0 1 qnil))).1 = 2) ∧
    ((eraStepL (qnil : QTree Nat) 5 1 3
        (qnode (qnode qnil 6 0 1 qnil) 7 0 3 (qnode qnil 8 0 1 qnil))).2.1 =
        false ∧
      height (eraStepL (qnil : QTree Nat) 5 1 3
        (qnode (qnode qnil 6 0 1 qnil) 7 0 3 (qnode qnil 8 0 1 qnil))).1 = 3) := by
  constructor
  · exact ((claim_C1_amended (α := Nat)).1 qnil 5 3
      (qnode qnil 7 1 2 (qnode qnil 8 0 1 qnil)) (by decide) (by decide)
      (by decide)).2 (by decide)
  · exact ((claim_C1_amended (α := Nat)).1 qnil 5 3
      (qnode (qnode qnil 6 0 1 qnil) 7 0 3 (qnode qnil 8 0 1 qnil))
      (by decide) (by decide) (by decide)).1 (by decide)

/-- The insertion-rebalance climb never performs more than one rotation
event, and if it is still climbing (the height grew past the processed
levels) it has performed none: once a step rotates, its "keep climbing" flag
is `false`, and every level above a `false` flag reconstructs its node
unchanged. -/
theorem insRebal_count {α : Type} : ∀ (p : List Bool) (t : QTree α),
    (qct_insert_rebalance t p).2.2 ≤ 1 ∧
    ((qct_insert_rebalance t p).2.1 = true →
      (qct_insert_rebalance t p).2.2 = 0) := by
  intro p
  induction p with
  | nil => intro t; simp [qct_insert_rebalance]
  | cons d p ih =>
    intro t
    match t with
    | qnil => cases d <;> simp [qct_insert_rebalance]
    | qnode l v b s r =>
      cases d
      · have hl := ih l
        simp only [qct_insert_rebalance]
        by_cases hres : (qct_insert_rebalance l p).2.1 = true
        · rw [if_pos hres]
          have h0 := hl.2 hres
          simp only [insStepL]
          split_ifs <;> simp_all
        · rw [if_neg hres]
          exact ⟨hl.1, fun hf => by simp at hf⟩
      · have hr := ih r
        simp only [qct_insert_rebalance]
        by_cases hres : (qct_insert_rebalance r p).2.1 = true
        · rw [if_pos hres]
          have h0 := hr.2 hres
          simp only [insStepR]
          split_ifs <;> simp_all
        · rw [if_neg hres]
          exact ⟨hr.1, fun hf => by simp at hf⟩

/-- **C9.** For every insert into a tree satisfying the AVL balance
invariant, the insertion rebalancing walk performs at most one rotation event
(one single or one double rotation), and when it has performed one it has
stopped climbing (the C++ loop `break`s immediately after re-linking the
rotated subtree, src/qct.h:583); an insert never performs two or more
rotation events.  (The bound holds for the climb on any tree; the AVL
hypothesis mirrors the claim.) -/
theorem claim_C9_insert_rotates_at_most_once {α : Type} (lt : α → α → Bool)
    (t : QTree α) (x : α) (_hb : BalOk t) :
    (qct_insert_rebalance (qct_insert lt x t).1 (qct_insert lt x t).2).2.2 ≤ 1 ∧
    ((qct_insert_rebalance (qct_insert lt x t).1 (qct_insert lt x t).2).2.2 = 1 →
      (qct_insert_rebalance (qct_insert lt x t).1 (qct_insert lt x t).2).2.1 =
        false) := by
  have h := insRebal_count (qct_insert lt x t).2 (qct_insert lt x t).1
  refine ⟨h.1, fun h1 => ?_⟩
  rcases Bool.eq_false_or_eq_true
      (qct_insert_rebalance (qct_insert lt x t).1 (qct_insert lt x t).2).2.1 with
    ht | hf
  · exact absurd h1 (by rw [h.2 ht]; decide)
  · exact hf

/-- Witness for C9: inserting 3 into the AVL tree {1, 2} (a right chain)
performs exactly one rotation — so the bound is tight — and the climb has
stopped after it. -/
theorem claim_C9_witness :
    (qct_insert_rebalance
        (qct_insert natLt 3 (qnode qnil 1 1 2 (qnode qnil 2 0 1 qnil))).1
        (qct_insert natLt 3 (qnode qnil 1 1 2 (qnode qnil 2 0 1 qnil))).2).2.2 =
      1 ∧
    (qct_insert_rebalance
        (qct_insert natLt 3 (qnode qnil 1 1 2 (qnode qnil 2 0 1 qnil))).1
        (qct_insert natLt 3 (qnode qnil 1 1 2 (qnode qnil 2 0 1 qnil))).2).2.2 ≤
      1 ∧
    (qct_insert_rebalance
        (qct_insert natLt 3 (qnode qnil 1 1 2 (qnode qnil 2 0 1 qnil))).1
        (qct_insert natLt 3 (qnode qnil 1 1 2 (qnode qnil 2 0 1 qnil))).2).2.1 =
      false := by
  refine ⟨by decide, ?_, ?_⟩
  · exact (claim_C9_insert_rotates_at_most_once natLt
      (qnode qnil 1 1 2 (qnode qnil 2 0 1 qnil)) 3 (by decide)).1
  · exact (claim_C9_insert_rotates_at_most_once natLt
      (qnode qnil 1 1 2 (qnode qnil 2 0 1 qnil)) 3 (by decide)).2 (by decide)

/-! ### Rotation lemmas: in-order preservation, size bookkeeping, balance
bookkeeping.  Each is stated on the exact node shape the rotation matches. -/

theorem rotL_inorder {α : Type} (xl rl rr : QTree α) (xv rv : α)
    (xb rb : Int) (xs rs : Nat) :
    inorder (qct_rotate_left (qnode xl xv xb xs (qnode rl rv rb rs rr))) =
      inorder (qnode xl xv xb xs (qnode rl rv rb rs rr)) := by
  simp only [qct_rotate_left]
  split_ifs <;> simp [inorder]

theorem rotR_inorder {α : Type} (zl zr xr : QTree α) (xv zv : α)
    (xb zb : Int) (xs zs : Nat) :
    inorder (qct_rotate_right (qnode (qnode zl zv zb zs zr) xv xb xs xr)) =
      inorder (qnode (qnode zl zv zb zs zr) xv xb xs xr) := by
  simp only [qct_rotate_right]
  split_ifs <;> simp [inorder]

theorem rotRL_inorder {α : Type} (xl ya yc zr : QTree α) (xv yv zv : α)
    (xb yb zb : Int) (xs ys zs : Nat) :
    inorder (qct_rotate_right_left
        (qnode xl xv xb xs (qnode (qnode ya yv yb ys yc) zv zb zs zr))) =
      inorder (qnode xl xv xb xs (qnode (qnode ya yv yb ys yc) zv zb zs zr)) := by
  simp only [qct_rotate_right_left]
  split_ifs <;> simp [inorder]

theorem rotLR_inorder {α : Type} (zl ya yc xr : QTree α) (xv yv zv : α)
    (xb yb zb : Int) (xs ys zs : Nat) :
    inorder (qct_rotate_left_right
        (qnode (qnode zl zv zb zs (qnode ya yv yb ys yc)) xv xb xs xr)) =
      inorder (qnode (qnode zl zv zb zs (qnode ya yv yb ys yc)) xv xb xs xr) := by
  simp only [qct_rotate_left_right]
  split_ifs <;> simp [inorder]

theorem rotL_size {α : Type} {xl rl rr : QTree α} {xv rv : α}
    {xb rb : Int} {xs rs : Nat}
    (h : SizeOk (qnode xl xv xb xs (qnode rl rv rb rs rr))) :
    SizeOk (qct_rotate_left (qnode xl xv xb xs (qnode rl rv rb rs rr))) ∧
      szf (qct_rotate_left (qnode xl xv xb xs (qnode rl rv rb rs rr))) = xs := by
  obtain ⟨hs, hsl, hrs, hsrl, hsrr⟩ := h
  simp only [qct_rotate_left]
  split_ifs <;>
    refine ⟨⟨?_, ⟨?_, hsl, hsrl⟩, hsrr⟩, rfl⟩ <;> simp [szf] at * <;> omega

theorem rotR_size {α : Type} {zl zr xr : QTree α} {xv zv : α}
    {xb zb : Int} {xs zs : Nat}
    (h : SizeOk (qnode (qnode zl zv zb zs zr) xv xb xs xr)) :
    SizeOk (qct_rotate_right (qnode (qnode zl zv zb zs zr) xv xb xs xr)) ∧
      szf (qct_rotate_right (qnode (qnode zl zv zb zs zr) xv xb xs xr)) = xs := by
  obtain ⟨hs, ⟨hzs, hszl, hszr⟩, hsr⟩ := h
  simp only [qct_rotate_right]
  split_ifs <;>
    refine ⟨⟨?_, hszl, ⟨?_, hszr, hsr⟩⟩, rfl⟩ <;> simp [szf] at * <;> omega

theorem rotRL_size {α : Type} {xl ya yc zr : QTree α} {xv yv zv : α}
    {xb yb zb : Int} {xs ys zs : Nat}
    (h : SizeOk (qnode xl xv xb xs (qnode (qnode ya yv yb ys yc) zv zb zs zr))) :
    SizeOk (qct_rotate_right_left
        (qnode xl xv xb xs (qnode (qnode ya yv yb ys yc) zv zb zs zr))) ∧
      szf (qct_rotate_right_left
        (qnode xl xv xb xs (qnode (qnode ya yv yb ys yc) zv zb zs zr))) = xs := by
  obtain ⟨hs, hsl, hzs, ⟨hys, hsya, hsyc⟩, hszr⟩ := h
  simp only [qct_rotate_right_left]
  split_ifs <;>
    refine ⟨⟨?_, ⟨?_, hsl, hsya⟩, ⟨?_, hsyc, hszr⟩⟩, rfl⟩ <;>
      simp [szf] at * <;> omega

theorem rotLR_size {α : Type} {zl ya yc xr : QTree α} {xv yv zv : α}
    {xb yb zb : Int} {xs ys zs : Nat}
    (h : SizeOk (qnode (qnode zl zv zb zs (qnode ya yv yb ys yc)) xv xb xs xr)) :
    SizeOk (qct_rotate_left_right
        (qnode (qnode zl zv zb zs (qnode ya yv yb ys yc)) xv xb xs xr)) ∧
      szf (qct_rotate_left_right
        (qnode (qnode zl zv zb zs (qnode ya yv yb ys yc)) xv xb xs xr)) = xs := by
  obtain ⟨hs, ⟨hzs, hszl, ⟨hys, hsya, hsyc⟩⟩, hsr⟩ := h
  simp only [qct_rotate_left_right]
  split_ifs <;>
    refine ⟨⟨?_, ⟨?_, hszl, hsya⟩, ⟨?_, hsyc, hsr⟩⟩, rfl⟩ <;>
      simp [szf] at * <;> omega

theorem rotL_bal {α : Type} {xl rl rr : QTree α} {xv rv : α}
    {xb rb : Int} {xs rs : Nat}
    (hxl : BalOk xl) (hrl : BalOk rl) (hrr : BalOk rr)
    (hrb : rb = (height rr : Int) - height rl) (h0 : 0 ≤ rb) (h1 : rb ≤ 1)
    (hgap : 1 + max (height rl) (height rr) = height xl + 2) :
    BalOk (qct_rotate_left (qnode xl xv xb xs (qnode rl rv rb rs rr))) ∧
      height (qct_rotate_left (qnode xl xv xb xs (qnode rl rv rb rs rr))) =
        (if rb = 0 then height xl + 3 else height xl + 2) := by
  simp only [qct_rotate_left]
  by_cases hc : rb = 0
  · rw [if_pos hc, if_pos hc]
    refine ⟨⟨?_, ?_, ?_, ⟨?_, ?_, ?_, hxl, hrl⟩, hrr⟩, ?_⟩ <;>
      (try simp only [height]) <;> omega
  · rw [if_neg hc, if_neg hc]
    refine ⟨⟨?_, ?_, ?_, ⟨?_, ?_, ?_, hxl, hrl⟩, hrr⟩, ?_⟩ <;>
      (try simp only [height]) <;> omega

theorem rotR_bal {α : Type} {zl zr xr : QTree α} {xv zv : α}
    {xb zb : Int} {xs zs : Nat}
    (hzl : BalOk zl) (hzr : BalOk zr) (hxr : BalOk xr)
    (hzb : zb = (height zr : Int) - height zl) (h0 : zb ≤ 0) (h1 : -1 ≤ zb)
    (hgap : 1 + max (height zl) (height zr) = height xr + 2) :
    BalOk (qct_rotate_right (qnode (qnode zl zv zb zs zr) xv xb xs xr)) ∧
      height (qct_rotate_right (qnode (qnode zl zv zb zs zr) xv xb xs xr)) =
        (if zb = 0 then height xr + 3 else height xr + 2) := by
  simp only [qct_rotate_right]
  by_cases hc : zb = 0
  · rw [if_pos hc, if_pos hc]
    refine ⟨⟨?_, ?_, ?_, hzl, ⟨?_, ?_, ?_, hzr, hxr⟩⟩, ?_⟩ <;>
      (try simp only [height]) <;> omega
  · rw [if_neg hc, if_neg hc]
    refine ⟨⟨?_, ?_, ?_, hzl, ⟨?_, ?_, ?_, hzr, hxr⟩⟩, ?_⟩ <;>
      (try simp only [height]) <;> omega

theorem rotRL_bal {α : Type} {xl ya yc zr : QTree α} {xv yv zv : α}
    {xb yb zb : Int} {xs ys zs : Nat}
    (hxl : BalOk xl) (hya : BalOk ya) (hyc : BalOk yc) (hzr : BalOk zr)
    (hyb : yb = (height yc : Int) - height ya) (h0 : -1 ≤ yb) (h1 : yb ≤ 1)
    (hy : 1 + max (height ya) (height yc) = height zr + 1)
    (hgap : 1 + max (1 + max (height ya) (height yc)) (height zr) =
      height xl + 2) :
    BalOk (qct_rotate_right_left
        (qnode xl xv xb xs (qnode (qnode ya yv yb ys yc) zv zb zs zr))) ∧
      height (qct_rotate_right_left
        (qnode xl xv xb xs (qnode (qnode ya yv yb ys yc) zv zb zs zr))) =
        height xl + 2 := by
  simp only [qct_rotate_right_left]
  split_ifs <;>
    refine ⟨⟨?_, ?_, ?_, ⟨?_, ?_, ?_, hxl, hya⟩, ⟨?_, ?_, ?_, hyc, hzr⟩⟩, ?_⟩ <;>
      (try simp only [height]) <;> omega

theorem rotLR_bal {α : Type} {zl ya yc xr : QTree α} {xv yv zv : α}
    {xb yb zb : Int} {xs ys zs : Nat}
    (hzl : BalOk zl) (hya : BalOk ya) (hyc : BalOk yc) (hxr : BalOk xr)
    (hyb : yb = (height yc : Int) - height ya) (h0 : -1 ≤ yb) (h1 : yb ≤ 1)
    (hy : 1 + max (height ya) (height yc) = height zl + 1)
    (hgap : 1 + max (height zl) (1 + max (height ya) (height yc)) =
      height xr + 2) :
    BalOk (qct_rotate_left_right
        (qnode (qnode zl zv zb zs (qnode ya yv yb ys yc)) xv xb xs xr)) ∧
      height (qct_rotate_left_right
        (qnode (qnode zl zv zb zs (qnode ya yv yb ys yc)) xv xb xs xr)) =
        height xr + 2 := by
  simp only [qct_rotate_left_right]
  split_ifs <;>
    refine ⟨⟨?_, ?_, ?_, ⟨?_, ?_, ?_, hzl, hya⟩, ⟨?_, ?_, ?_, hyc, hxr⟩⟩, ?_⟩ <;>
      (try simp only [height]) <;> omega

/-! ### The BST-order invariant and sortedness of the in-order sequence -/

theorem sortedIO_to_BSTOrd {α : Type} (lt : α → α → Bool) :
    ∀ t : QTree α, SortedIO lt t → BSTOrd lt t := by
  intro t
  induction t with
  | qnil => intro _; trivial
  | qnode l v b s r ihl ihr =>
    intro h
    unfold SortedIO at h
    simp only [inorder] at h
    rw [List.pairwise_append] at h
    obtain ⟨hL, hR, hLR⟩ := h
    rw [List.pairwise_cons] at hR
    obtain ⟨hvR, hRr⟩ := hR
    refine ⟨?_, ?_, ihl ?_, ihr ?_⟩
    · intro w hw
      exact hLR w hw v (by simp)
    · intro w hw
      exact hvR w hw
    · exact hL
    · exact hRr

theorem BSTOrd_to_sortedIO {α : Type} (lt : α → α → Bool)
    (hW : LtWeakLinear lt) :
    ∀ t : QTree α, BSTOrd lt t → SortedIO lt t := by
  intro t
  induction t with
  | qnil => exact fun _ => List.Pairwise.nil
  | qnode l v b s r ihl ihr =>
    intro h
    obtain ⟨hlv, hrv, hl, hr⟩ := h
    unfold SortedIO
    simp only [inorder]
    rw [List.pairwise_append]
    refine ⟨ihl hl, ?_, ?_⟩
    · rw [List.pairwise_cons]
      exact ⟨fun w hw => hrv w hw, ihr hr⟩
    · intro a ha c hc
      simp only [List.mem_cons] at hc
      rcases hc with rfl | hc
      · exact hlv a ha
      · -- a ≤ v ≤ c: if lt c a then lt c v or lt v a, both false
        cases hca : lt c a
        · rfl
        · rcases hW c a v hca with h2 | h2
          · rw [hrv c hc] at h2; cases h2
          · rw [hlv a ha] at h2; cases h2

/-! ### Step lemmas: one iteration of the insertion climb -/

theorem insStepL_spec {α : Type} (lt : α → α → Bool) {l r : QTree α} (v : α)
    {b : Int} (s : Nat)
    (hbl : BalOk l) (hbr : BalOk r) (hl1 : 1 ≤ height l)
    (hb : b = (height r : Int) - ((height l : Int) - 1))
    (hb0 : -1 ≤ b) (hb1 : b ≤ 1)
    (hnz : b = -1 → balf l ≠ 0) :
    BalOk (insStepL l v b s r).1 ∧
    ((insStepL l v b s r).2.1 = true →
      height (insStepL l v b s r).1 = 1 + max (height l - 1) (height r) + 1) ∧
    ((insStepL l v b s r).2.1 = false →
      height (insStepL l v b s r).1 = 1 + max (height l - 1) (height r)) ∧
    ((insStepL l v b s r).2.1 = true → balf (insStepL l v b s r).1 ≠ 0) ∧
    szf (insStepL l v b s r).1 = s ∧
    inorder (insStepL l v b s r).1 = inorder l ++ v :: inorder r ∧
    (LtWeakLinear lt →
      (∀ w ∈ elems l, lt v w = false) → (∀ w ∈ elems r, lt w v = false) →
      BSTOrd lt l → BSTOrd lt r → BSTOrd lt (insStepL l v b s r).1) ∧
    (SizeOk l → SizeOk r → s = 1 + szf l + szf r →
      SizeOk (insStepL l v b s r).1) := by
  rcases lt_trichotomy b 0 with hneg | h0 | hpos
  · -- b = -1: rotation; the grown left child leans
    have hm1 : b = -1 := by omega
    have hzz := hnz hm1
    cases l with
    | qnil => exact absurd rfl hzz
    | qnode zl zv zb zs zr =>
      obtain ⟨hzb, hzb0, hzb1, hbzl, hbzr⟩ := hbl
      by_cases hz : balf (qnode zl zv zb zs zr) > 0
      · have e : insStepL (qnode zl zv zb zs zr) v b s r =
            (qct_rotate_left_right (qnode (qnode zl zv zb zs zr) v b s r),
              false, 1) := by
          simp only [insStepL, if_pos hneg, if_pos hz]
        rw [e]
        dsimp only
        simp only [balf] at hz hzz
        cases zr with
        | qnil =>
          exfalso
          simp only [height] at hzb
          omega
        | qnode ya yv yb ys yc =>
          obtain ⟨hyb, hyb0, hyb1, hbya, hbyc⟩ := hbzr
          have hy2 : 1 + max (height ya) (height yc) = height zl + 1 := by
            simp only [height] at hzb
            omega
          have hgap2 : 1 + max (height zl)
              (1 + max (height ya) (height yc)) = height r + 2 := by
            simp only [height] at hb
            omega
          have hrot := @rotLR_bal _ zl ya yc r v yv zv b yb zb s ys zs
            hbzl hbya hbyc hbr hyb hyb0 hyb1 hy2 hgap2
          refine ⟨hrot.1, ?_, ?_, ?_, ?_, ?_, ?_, ?_⟩
          · intro ht; exact Bool.noConfusion ht
          · intro _
            rw [hrot.2]; simp only [height] at hb ⊢; omega
          · intro ht; exact Bool.noConfusion ht
          · simp only [qct_rotate_left_right]
            split_ifs <;> rfl
          · exact rotLR_inorder zl ya yc r v yv zv b yb zb s ys zs
          · intro hW c1 c2 hol hor
            apply sortedIO_to_BSTOrd
            unfold SortedIO
            rw [rotLR_inorder]
            exact BSTOrd_to_sortedIO lt hW _ ⟨c1, c2, hol, hor⟩
          · intro hsl hsr hss
            exact (rotLR_size ⟨hss, hsl, hsr⟩).1
      · have e : insStepL (qnode zl zv zb zs zr) v b s r =
            (qct_rotate_right (qnode (qnode zl zv zb zs zr) v b s r),
              false, 1) := by
          simp only [insStepL, if_pos hneg, if_neg hz]
        rw [e]
        dsimp only
        simp only [balf] at hz hzz
        have hgap2 : 1 + max (height zl) (height zr) = height r + 2 := by
          simp only [height] at hb
          omega
        have hrot := @rotR_bal _ zl zr r v zv b zb s zs
          hbzl hbzr hbr hzb (by omega) (by omega) hgap2
        refine ⟨hrot.1, ?_, ?_, ?_, ?_, ?_, ?_, ?_⟩
        · intro ht; exact Bool.noConfusion ht
        · intro _
          rw [hrot.2, if_neg hzz]; simp only [height] at hb ⊢; omega
        · intro ht; exact Bool.noConfusion ht
        · simp only [qct_rotate_right]
          split_ifs <;> rfl
        · exact rotR_inorder zl zr r v zv b zb s zs
        · intro hW c1 c2 hol hor
          apply sortedIO_to_BSTOrd
          unfold SortedIO
          rw [rotR_inorder]
          exact BSTOrd_to_sortedIO lt hW _ ⟨c1, c2, hol, hor⟩
        · intro hsl hsr hss
          exact (rotR_size ⟨hss, hsl, hsr⟩).1
  · -- b = 0: lean toward the insertion side and keep climbing
    subst h0
    have e : insStepL l v 0 s r = (qnode l v (-1) s r, true, 0) := rfl
    rw [e]
    dsimp only
    refine ⟨⟨?_, ?_, ?_, hbl, hbr⟩, ?_, ?_, ?_, rfl, rfl, ?_, ?_⟩
    · omega
    · omega
    · omega
    · intro _; simp only [height]; omega
    · intro hf; exact Bool.noConfusion hf
    · intro _; norm_num [balf]
    · intro _ c1 c2 hol hor
      exact ⟨c1, c2, hol, hor⟩
    · intro hsl hsr hss
      exact ⟨hss, hsl, hsr⟩
  · -- b = 1: absorb and stop
    have h1 : b = 1 := by omega
    subst h1
    have e : insStepL l v 1 s r = (qnode l v 0 s r, false, 0) := rfl
    rw [e]
    dsimp only
    refine ⟨⟨?_, ?_, ?_, hbl, hbr⟩, ?_, ?_, ?_, rfl, rfl, ?_, ?_⟩
    · omega
    · omega
    · omega
    · intro ht; exact Bool.noConfusion ht
    · intro _; simp only [height]; omega
    · intro ht; exact Bool.noConfusion ht
    · intro _ c1 c2 hol hor
      exact ⟨c1, c2, hol, hor⟩
    · intro hsl hsr hss
      exact ⟨hss, hsl, hsr⟩

theorem insStepR_spec {α : Type} (lt : α → α → Bool) {l r : QTree α} (v : α)
    {b : Int} (s : Nat)
    (hbl : BalOk l) (hbr : BalOk r) (hr1 : 1 ≤ height r)
    (hb : b = ((height r : Int) - 1) - (height l : Int))
    (hb0 : -1 ≤ b) (hb1 : b ≤ 1)
    (hnz : b = 1 → balf r ≠ 0) :
    BalOk (insStepR l v b s r).1 ∧
    ((insStepR l v b s r).2.1 = true →
      height (insStepR l v b s r).1 = 1 + max (height l) (height r - 1) + 1) ∧
    ((insStepR l v b s r).2.1 = false →
      height (insStepR l v b s r).1 = 1 + max (height l) (height r - 1)) ∧
    ((insStepR l v b s r).2.1 = true → balf (insStepR l v b s r).1 ≠ 0) ∧
    szf (insStepR l v b s r).1 = s ∧
    inorder (insStepR l v b s r).1 = inorder l ++ v :: inorder r ∧
    (LtWeakLinear lt →
      (∀ w ∈ elems l, lt v w = false) → (∀ w ∈ elems r, lt w v = false) →
      BSTOrd lt l → BSTOrd lt r → BSTOrd lt (insStepR l v b s r).1) ∧
    (SizeOk l → SizeOk r → s = 1 + szf l + szf r →
      SizeOk (insStepR l v b s r).1) := by
  rcases lt_trichotomy b 0 with hneg | h0 | hpos
  · -- b = -1: absorb and stop
    have hm1 : b = -1 := by omega
    subst hm1
    have e : insStepR l v (-1) s r = (qnode l v 0 s r, false, 0) := rfl
    rw [e]
    dsimp only
    refine ⟨⟨?_, ?_, ?_, hbl, hbr⟩, ?_, ?_, ?_, rfl, rfl, ?_, ?_⟩
    · omega
    · omega
    · omega
    · intro ht; exact Bool.noConfusion ht
    · intro _; simp only [height]; omega
    · intro ht; exact Bool.noConfusion ht
    · intro _ c1 c2 hol hor
      exact ⟨c1, c2, hol, hor⟩
    · intro hsl hsr hss
      exact ⟨hss, hsl, hsr⟩
  · -- b = 0: lean toward the insertion side and keep climbing
    subst h0
    have e : insStepR l v 0 s r = (qnode l v 1 s r, true, 0) := rfl
    rw [e]
    dsimp only
    refine ⟨⟨?_, ?_, ?_, hbl, hbr⟩, ?_, ?_, ?_, rfl, rfl, ?_, ?_⟩
    · omega
    · omega
    · omega
    · intro _; simp only [height]; omega
    · intro hf; exact Bool.noConfusion hf
    · intro _; norm_num [balf]
    · intro _ c1 c2 hol hor
      exact ⟨c1, c2, hol, hor⟩
    · intro hsl hsr hss
      exact ⟨hss, hsl, hsr⟩
  · -- b = 1: rotation; the grown right child leans
    have h1 : b = 1 := by omega
    have hzz := hnz h1
    cases r with
    | qnil => exact absurd rfl hzz
    | qnode zl zv zb zs zr =>
      obtain ⟨hzb, hzb0, hzb1, hbzl, hbzr⟩ := hbr
      by_cases hz : balf (qnode zl zv zb zs zr) < 0
      · have e : insStepR l v b s (qnode zl zv zb zs zr) =
            (qct_rotate_right_left (qnode l v b s (qnode zl zv zb zs zr)),
              false, 1) := by
          simp only [insStepR, if_pos hpos, if_pos hz]
        rw [e]
        dsimp only
        simp only [balf] at hz hzz
        cases zl with
        | qnil =>
          exfalso
          simp only [height] at hzb
          omega
        | qnode ya yv yb ys yc =>
          obtain ⟨hyb, hyb0, hyb1, hbya, hbyc⟩ := hbzl
          have hy2 : 1 + max (height ya) (height yc) = height zr + 1 := by
            simp only [height] at hzb
            omega
          have hgap2 : 1 + max (1 + max (height ya) (height yc))
              (height zr) = height l + 2 := by
            simp only [height] at hb
            omega
          have hrot := @rotRL_bal _ l ya yc zr v yv zv b yb zb s ys zs
            hbl hbya hbyc hbzr hyb hyb0 hyb1 hy2 hgap2
          refine ⟨hrot.1, ?_, ?_, ?_, ?_, ?_, ?_, ?_⟩
          · intro ht; exact Bool.noConfusion ht
          · intro _
            rw [hrot.2]; simp only [height] at hb ⊢; omega
          · intro ht; exact Bool.noConfusion ht
          · simp only [qct_rotate_right_left]
            split_ifs <;> rfl
          · exact rotRL_inorder l ya yc zr v yv zv b yb zb s ys zs
          · intro hW c1 c2 hol hor
            apply sortedIO_to_BSTOrd
            unfold SortedIO
            rw [rotRL_inorder]
            exact BSTOrd_to_sortedIO lt hW _ ⟨c1, c2, hol, hor⟩
          · intro hsl hsr hss
            exact (rotRL_size ⟨hss, hsl, hsr⟩).1
      · have e : insStepR l v b s (qnode zl zv zb zs zr) =
            (qct_rotate_left (qnode l v b s (qnode zl zv zb zs zr)),
              false, 1) := by
          simp only [insStepR, if_pos hpos, if_neg hz]
        rw [e]
        dsimp only
        simp only [balf] at hz hzz
        have hgap2 : 1 + max (height zl) (height zr) = height l + 2 := by
          simp only [height] at hb
          omega
        have hrot := @rotL_bal _ l zl zr v zv b zb s zs
          hbl hbzl hbzr hzb (by omega) (by omega) hgap2
        refine ⟨hrot.1, ?_, ?_, ?_, ?_, ?_, ?_, ?_⟩
        · intro ht; exact Bool.noConfusion ht
        · intro _
          rw [hrot.2, if_neg hzz]; simp only [height] at hb ⊢; omega
        · intro ht; exact Bool.noConfusion ht
        · simp only [qct_rotate_left]
          split_ifs <;> rfl
        · exact rotL_inorder l zl zr v zv b zb s zs
        · intro hW c1 c2 hol hor
          apply sortedIO_to_BSTOrd
          unfold SortedIO
          rw [rotL_inorder]
          exact BSTOrd_to_sortedIO lt hW _ ⟨c1, c2, hol, hor⟩
        · intro hsl hsr hss
          exact (rotL_size ⟨hss, hsl, hsr⟩).1

/-- The combined specification of `tree::insert` on the link structure:
placement followed by the rebalance climb preserves the balance and size
invariants, changes the height by one exactly when the climb flag is still
set, adds the new element to the in-order sequence, and preserves the BST
order (a tie descends left, `lt v x = false`, which is exactly the ordering
fact the new element needs at the node it passes). -/
theorem insert_spec {α : Type} (lt : α → α → Bool) (x : α) :
    ∀ t : QTree α, BalOk t → SizeOk t →
    ∀ t2 : QTree α, ∀ g : Bool, ∀ c : Nat,
    qct_insert_rebalance (qct_insert lt x t).1 (qct_insert lt x t).2 =
      (t2, g, c) →
    BalOk t2 ∧
    (g = true → height t2 = height t + 1) ∧
    (g = false → height t2 = height t) ∧
    (g = true → balf t2 ≠ 0 ∨ t = qnil) ∧
    1 ≤ height t2 ∧
    SizeOk t2 ∧
    szf t2 = szf t + 1 ∧
    (∀ w, w ∈ inorder t2 ↔ (w = x ∨ w ∈ inorder t)) ∧
    (LtAsymm lt → LtWeakLinear lt → BSTOrd lt t → BSTOrd lt t2) := by
  intro t
  induction t with
  | qnil =>
    intro _ _ t2 g c heq
    have e2 : qct_insert_rebalance (qct_insert lt x qnil).1
        (qct_insert lt x qnil).2 = (qnode qnil x 0 1 qnil, true, 0) := rfl
    rw [e2] at heq
    cases heq
    refine ⟨by simp [BalOk, height], fun _ => by simp [height],
      fun hf => Bool.noConfusion hf, fun _ => Or.inr rfl, by simp [height],
      by simp [SizeOk, szf], by simp [szf], by simp [inorder], ?_⟩
    intro _ _ _
    exact ⟨by simp [elems, inorder], by simp [elems, inorder], trivial, trivial⟩
  | qnode l v b s r ihl ihr =>
    intro hbal hsize t2 g c heq
    obtain ⟨hbb, hb0, hb1, hbl, hbr⟩ := hbal
    obtain ⟨hss, hsl, hsr⟩ := hsize
    cases hlt : lt v x with
    | false =>
      have e1 : qct_insert lt x (qnode l v b s r) =
          (qnode (qct_insert lt x l).1 v b (s + 1) r,
            false :: (qct_insert lt x l).2) := by
        simp [qct_insert, hlt]
      rw [e1] at heq
      rcases hres : qct_insert_rebalance (qct_insert lt x l).1
          (qct_insert lt x l).2 with ⟨l2, g2, c2⟩
      have spec := ihl hbl hsl l2 g2 c2 hres
      obtain ⟨sBal, sHt, sHf, sNz, sPos, sSz, sSzf, sMem, sOrd⟩ := spec
      simp only [qct_insert_rebalance, hres] at heq
      cases g2 with
      | true =>
        rw [if_pos rfl] at heq
        have hl2 : height l2 = height l + 1 := sHt rfl
        have hnz : b = -1 → balf l2 ≠ 0 := by
          intro hbm
          rcases sNz rfl with h | h
          · exact h
          · subst h
            simp only [height] at hbb
            omega
        have hstep := insStepL_spec lt v (s + 1)
          sBal hbr (by omega) (by omega) hb0 hb1 hnz
        obtain ⟨tBal, tHt, tHf, tNz, tSzf, tIo, tOrd, tSz⟩ := hstep
        cases heq
        refine ⟨tBal, ?_, ?_, ?_, ?_, ?_, ?_, ?_, ?_⟩
        · intro hgt
          rw [tHt hgt]
          simp only [height]
          omega
        · intro hgf
          rw [tHf hgf]
          simp only [height]
          omega
        · intro hgt
          exact Or.inl (tNz hgt)
        · rcases Bool.eq_false_or_eq_true (insStepL l2 v b (s + 1) r).2.1 with
            hg | hg
          · rw [tHt hg]; omega
          · rw [tHf hg]; omega
        · exact tSz sSz hsr (by omega)
        · simp only [szf]
          exact tSzf
        · intro w
          rw [tIo]
          simp only [inorder, List.mem_append, List.mem_cons]
          constructor
          · rintro (hw | rfl | hw)
            · rcases (sMem w).1 hw with h | h
              · exact Or.inl h
              · exact Or.inr (Or.inl h)
            · exact Or.inr (Or.inr (Or.inl rfl))
            · exact Or.inr (Or.inr (Or.inr hw))
          · rintro (rfl | hw | rfl | hw)
            · exact Or.inl ((sMem w).2 (Or.inl rfl))
            · exact Or.inl ((sMem w).2 (Or.inr hw))
            · exact Or.inr (Or.inl rfl)
            · exact Or.inr (Or.inr hw)
        · intro hA hW hord
          obtain ⟨c1, c2o, hol, hor⟩ := hord
          refine tOrd hW ?_ c2o (sOrd hA hW hol) hor
          intro w hw
          rcases (sMem w).1 hw with rfl | h
          · exact hlt
          · exact c1 w h
      | false =>
        rw [if_neg (Bool.noConfusion : ¬ false = true)] at heq
        have hl2 : height l2 = height l := sHf rfl
        cases heq
        refine ⟨⟨?_, ?_, ?_, sBal, hbr⟩, ?_, ?_, ?_, ?_, ?_, ?_, ?_, ?_⟩
        · omega
        · omega
        · omega
        · intro hgt; exact Bool.noConfusion hgt
        · intro _
          simp only [height]
          omega
        · intro hgt; exact Bool.noConfusion hgt
        · simp only [height]; omega
        · exact ⟨by omega, sSz, hsr⟩
        · simp only [szf]

        · intro w
          simp only [inorder, List.mem_append, List.mem_cons]
          constructor
          · rintro (hw | rfl | hw)
            · rcases (sMem w).1 hw with h | h
              · exact Or.inl h
              · exact Or.inr (Or.inl h)
            · exact Or.inr (Or.inr (Or.inl rfl))
            · exact Or.inr (Or.inr (Or.inr hw))
          · rintro (rfl | hw | rfl | hw)
            · exact Or.inl ((sMem w).2 (Or.inl rfl))
            · exact Or.inl ((sMem w).2 (Or.inr hw))
            · exact Or.inr (Or.inl rfl)
            · exact Or.inr (Or.inr hw)
        · intro hA hW hord
          obtain ⟨c1, c2o, hol, hor⟩ := hord
          refine ⟨?_, c2o, sOrd hA hW hol, hor⟩
          intro w hw
          rcases (sMem w).1 hw with rfl | h
          · exact hlt
          · exact c1 w h
    | true =>
      have e1 : qct_insert lt x (qnode l v b s r) =
          (qnode l v b (s + 1) (qct_insert lt x r).1,
            true :: (qct_insert lt x r).2) := by
        simp [qct_insert, hlt]
      rw [e1] at heq
      rcases hres : qct_insert_rebalance (qct_insert lt x r).1
          (qct_insert lt x r).2 with ⟨r2, g2, c2⟩
      have spec := ihr hbr hsr r2 g2 c2 hres
      obtain ⟨sBal, sHt, sHf, sNz, sPos, sSz, sSzf, sMem, sOrd⟩ := spec
      simp only [qct_insert_rebalance, hres] at heq
      cases g2 with
      | true =>
        rw [if_pos rfl] at heq
        have hr2 : height r2 = height r + 1 := sHt rfl
        have hnz : b = 1 → balf r2 ≠ 0 := by
          intro hbm
          rcases sNz rfl with h | h
          · exact h
          · subst h
            simp only [height] at hbb
            omega
        have hstep := insStepR_spec lt v (s + 1)
          hbl sBal (by omega) (by omega) hb0 hb1 hnz
        obtain ⟨tBal, tHt, tHf, tNz, tSzf, tIo, tOrd, tSz⟩ := hstep
        cases heq
        refine ⟨tBal, ?_, ?_, ?_, ?_, ?_, ?_, ?_, ?_⟩
        · intro hgt
          rw [tHt hgt]
          simp only [height]
          omega
        · intro hgf
          rw [tHf hgf]
          simp only [height]
          omega
        · intro hgt
          exact Or.inl (tNz hgt)
        · rcases Bool.eq_false_or_eq_true (insStepR l v b (s + 1) r2).2.1 with
            hg | hg
          · rw [tHt hg]; omega
          · rw [tHf hg]; omega
        · exact tSz hsl sSz (by omega)
        · simp only [szf]
          exact tSzf
        · intro w
          rw [tIo]
          simp only [inorder, List.mem_append, List.mem_cons]
          constructor
          · rintro (hw | rfl | hw)
            · exact Or.inr (Or.inl hw)
            · exact Or.inr (Or.inr (Or.inl rfl))
            · rcases (sMem w).1 hw with h | h
              · exact Or.inl h
              · exact Or.inr (Or.inr (Or.inr h))
          · rintro (rfl | hw | rfl | hw)
            · exact Or.inr (Or.inr ((sMem w).2 (Or.inl rfl)))
            · exact Or.inl hw
            · exact Or.inr (Or.inl rfl)
            · exact Or.inr (Or.inr ((sMem w).2 (Or.inr hw)))
        · intro hA hW hord
          obtain ⟨c1, c2o, hol, hor⟩ := hord
          refine tOrd hW c1 ?_ hol (sOrd hA hW hor)
          intro w hw
          rcases (sMem w).1 hw with rfl | h
          · exact hA v w hlt
          · exact c2o w h
      | false =>
        rw [if_neg (Bool.noConfusion : ¬ false = true)] at heq
        have hr2 : height r2 = height r := sHf rfl
        cases heq
        refine ⟨⟨?_, ?_, ?_, hbl, sBal⟩, ?_, ?_, ?_, ?_, ?_, ?_, ?_, ?_⟩
        · omega
        · omega
        · omega
        · intro hgt; exact Bool.noConfusion hgt
        · intro _
          simp only [height]
          omega
        · intro hgt; exact Bool.noConfusion hgt
        · simp only [height]; omega
        · exact ⟨by omega, hsl, sSz⟩
        · simp only [szf]
        · intro w
          simp only [inorder, List.mem_append, List.mem_cons]
          constructor
          · rintro (hw | rfl | hw)
            · exact Or.inr (Or.inl hw)
            · exact Or.inr (Or.inr (Or.inl rfl))
            · rcases (sMem w).1 hw with h | h
              · exact Or.inl h
              · exact Or.inr (Or.inr (Or.inr h))
          · rintro (rfl | hw | rfl | hw)
            · exact Or.inr (Or.inr ((sMem w).2 (Or.inl rfl)))
            · exact Or.inl hw
            · exact Or.inr (Or.inl rfl)
            · exact Or.inr (Or.inr ((sMem w).2 (Or.inr hw)))
        · intro hA hW hord
          obtain ⟨c1, c2o, hol, hor⟩ := hord
          refine ⟨c1, ?_, hol, sOrd hA hW hor⟩
          intro w hw
          rcases (sMem w).1 hw with rfl | h
          · exact hA v w hlt
          · exact c2o w h

/-! ### Step lemmas: one iteration of the erase climb -/

theorem eraStepL_spec {α : Type} {l r : QTree α} (v : α) {b : Int} (s : Nat)
    (hbl : BalOk l) (hbr : BalOk r)
    (hb : b = (height r : Int) - ((height l : Int) + 1))
    (hb0 : -1 ≤ b) (hb1 : b ≤ 1) :
    BalOk (eraStepL l v b s r).1 ∧
    ((eraStepL l v b s r).2.1 = true →
      height (eraStepL l v b s r).1 + 1 = 1 + max (height l + 1) (height r)) ∧
    ((eraStepL l v b s r).2.1 = false →
      height (eraStepL l v b s r).1 = 1 + max (height l + 1) (height r)) ∧
    szf (eraStepL l v b s r).1 = s ∧
    inorder (eraStepL l v b s r).1 = inorder l ++ v :: inorder r ∧
    (SizeOk l → SizeOk r → s = 1 + szf l + szf r →
      SizeOk (eraStepL l v b s r).1) ∧
    ((eraStepL l v b s r).2.2 = 0 →
      ∃ b2, (eraStepL l v b s r).1 = qnode l v b2 s r) := by
  rcases lt_trichotomy b 0 with hneg | h0 | hpos
  · -- b = -1: the sibling side already leaned toward the shrunk side
    have hm1 : b = -1 := by omega
    subst hm1
    have e : eraStepL l v (-1) s r = (qnode l v 0 s r, true, 0) := rfl
    rw [e]
    dsimp only
    refine ⟨⟨?_, ?_, ?_, hbl, hbr⟩, ?_, ?_, rfl, rfl, ?_, ?_⟩
    · omega
    · omega
    · omega
    · intro _; simp only [height]; omega
    · intro hf; exact Bool.noConfusion hf
    · intro hsl hsr hss; exact ⟨hss, hsl, hsr⟩
    · intro _; exact ⟨0, rfl⟩
  · -- b = 0: tilt toward the sibling, height unchanged
    subst h0
    have e : eraStepL l v 0 s r = (qnode l v 1 s r, false, 0) := rfl
    rw [e]
    dsimp only
    refine ⟨⟨?_, ?_, ?_, hbl, hbr⟩, ?_, ?_, rfl, rfl, ?_, ?_⟩
    · omega
    · omega
    · omega
    · intro ht; exact Bool.noConfusion ht
    · intro _; simp only [height]; omega
    · intro hsl hsr hss; exact ⟨hss, hsl, hsr⟩
    · intro _; exact ⟨1, rfl⟩
  · -- b = 1: the sibling side leaned away from the shrunk side: rotation
    have h1 : b = 1 := by omega
    cases r with
    | qnil =>
      exfalso
      simp only [height] at hb
      omega
    | qnode rl rv rb rs rr =>
      obtain ⟨hrb, hrb0, hrb1, hbrl, hbrr⟩ := hbr
      rcases lt_trichotomy rb 0 with hrneg | hr0 | hrpos
      · -- pivot leans left: double rotation
        have e : eraStepL l v b s (qnode rl rv rb rs rr) =
            (qct_rotate_right_left (qnode l v b s (qnode rl rv rb rs rr)),
              true, 1) := by
          simp only [eraStepL, if_pos (show b > 0 by omega),
            if_pos (show balf (qnode rl rv rb rs rr) < 0 by
              simpa [balf] using hrneg)]
        rw [e]
        dsimp only
        cases rl with
        | qnil =>
          exfalso
          simp only [height] at hrb
          omega
        | qnode ya yv yb ys yc =>
          obtain ⟨hyb, hyb0, hyb1, hbya, hbyc⟩ := hbrl
          have hy2 : 1 + max (height ya) (height yc) = height rr + 1 := by
            simp only [height] at hrb
            omega
          have hgap2 : 1 + max (1 + max (height ya) (height yc))
              (height rr) = height l + 2 := by
            simp only [height] at hb
            omega
          have hrot := @rotRL_bal _ l ya yc rr v yv rv b yb rb s ys rs
            hbl hbya hbyc hbrr hyb hyb0 hyb1 hy2 hgap2
          refine ⟨hrot.1, ?_, ?_, ?_, ?_, ?_, ?_⟩
          · intro _
            rw [hrot.2]
            simp only [height] at hb ⊢
            omega
          · intro hf; exact Bool.noConfusion hf
          · simp only [qct_rotate_right_left]
            split_ifs <;> rfl
          · exact rotRL_inorder l ya yc rr v yv rv b yb rb s ys rs
          · intro hsl hsr hss
            exact (rotRL_size ⟨hss, hsl, hsr⟩).1
          · intro hc; exact absurd hc (by norm_num)
      · -- pivot balanced: single rotation, height restored, stop
        subst hr0
        have e : eraStepL l v b s (qnode rl rv 0 rs rr) =
            (qct_rotate_left (qnode l v b s (qnode rl rv 0 rs rr)),
              false, 1) := by
          simp only [eraStepL, if_pos (show b > 0 by omega), balf]
          norm_num
        rw [e]
        dsimp only
        have hgap2 : 1 + max (height rl) (height rr) = height l + 2 := by
          simp only [height] at hb
          omega
        have hrot := @rotL_bal _ l rl rr v rv b 0 s rs
          hbl hbrl hbrr hrb (by omega) (by omega) hgap2
        refine ⟨hrot.1, ?_, ?_, ?_, ?_, ?_, ?_⟩
        · intro ht; exact Bool.noConfusion ht
        · intro _
          rw [hrot.2, if_pos rfl]
          simp only [height] at hb ⊢
          omega
        · simp only [qct_rotate_left]
          split_ifs <;> rfl
        · exact rotL_inorder l rl rr v rv b 0 s rs
        · intro hsl hsr hss
          exact (rotL_size ⟨hss, hsl, hsr⟩).1
        · intro hc; exact absurd hc (by norm_num)
      · -- pivot leans away: single rotation, height decreased, continue
        have e : eraStepL l v b s (qnode rl rv rb rs rr) =
            (qct_rotate_left (qnode l v b s (qnode rl rv rb rs rr)),
              true, 1) := by
          simp only [eraStepL, balf, if_pos (show b > 0 by omega),
            if_neg (show ¬ rb < 0 by omega), if_neg (show ¬ rb = 0 by omega)]
        rw [e]
        dsimp only
        have hgap2 : 1 + max (height rl) (height rr) = height l + 2 := by
          simp only [height] at hb
          omega
        have hrot := @rotL_bal _ l rl rr v rv b rb s rs
          hbl hbrl hbrr hrb (by omega) (by omega) hgap2
        refine ⟨hrot.1, ?_, ?_, ?_, ?_, ?_, ?_⟩
        · intro _
          rw [hrot.2, if_neg (show ¬ rb = 0 by omega)]
          simp only [height] at hb ⊢
          omega
        · intro hf; exact Bool.noConfusion hf
        · simp only [qct_rotate_left]
          split_ifs <;> rfl
        · exact rotL_inorder l rl rr v rv b rb s rs
        · intro hsl hsr hss
          exact (rotL_size ⟨hss, hsl, hsr⟩).1
        · intro hc; exact absurd hc (by norm_num)

theorem eraStepR_spec {α : Type} {l r : QTree α} (v : α) {b : Int} (s : Nat)
    (hbl : BalOk l) (hbr : BalOk r)
    (hb : b = ((height r : Int) + 1) - (height l : Int))
    (hb0 : -1 ≤ b) (hb1 : b ≤ 1) :
    BalOk (eraStepR l v b s r).1 ∧
    ((eraStepR l v b s r).2.1 = true →
      height (eraStepR l v b s r).1 + 1 = 1 + max (height l) (height r + 1)) ∧
    ((eraStepR l v b s r).2.1 = false →
      height (eraStepR l v b s r).1 = 1 + max (height l) (height r + 1)) ∧
    szf (eraStepR l v b s r).1 = s ∧
    inorder (eraStepR l v b s r).1 = inorder l ++ v :: inorder r ∧
    (SizeOk l → SizeOk r → s = 1 + szf l + szf r →
      SizeOk (eraStepR l v b s r).1) ∧
    ((eraStepR l v b s r).2.2 = 0 →
      ∃ b2, (eraStepR l v b s r).1 = qnode l v b2 s r) := by
  rcases lt_trichotomy b 0 with hneg | h0 | hpos
  · -- b = -1: the left sibling leaned away from the shrunk side: rotation
    have hm1 : b = -1 := by omega
    cases l with
    | qnil =>
      exfalso
      simp only [height] at hb
      omega
    | qnode ll lv lb ls lr =>
      obtain ⟨hlb, hlb0, hlb1, hbll, hblr⟩ := hbl
      rcases lt_trichotomy lb 0 with hlneg | hl0 | hlpos
      · -- pivot leans away: single rotation, height decreased, continue
        have e : eraStepR (qnode ll lv lb ls lr) v b s r =
            (qct_rotate_right (qnode (qnode ll lv lb ls lr) v b s r),
              true, 1) := by
          simp only [eraStepR, balf, if_pos (show b < 0 by omega),
            if_neg (show ¬ lb > 0 by omega), if_neg (show ¬ lb = 0 by omega)]
        rw [e]
        dsimp only
        have hgap2 : 1 + max (height ll) (height lr) = height r + 2 := by
          simp only [height] at hb
          omega
        have hrot := @rotR_bal _ ll lr r v lv b lb s ls
          hbll hblr hbr hlb (by omega) (by omega) hgap2
        refine ⟨hrot.1, ?_, ?_, ?_, ?_, ?_, ?_⟩
        · intro _
          rw [hrot.2, if_neg (show ¬ lb = 0 by omega)]
          simp only [height] at hb ⊢
          omega
        · intro hf; exact Bool.noConfusion hf
        · simp only [qct_rotate_right]
          split_ifs <;> rfl
        · exact rotR_inorder ll lr r v lv b lb s ls
        · intro hsl hsr hss
          exact (rotR_size ⟨hss, hsl, hsr⟩).1
        · intro hc; exact absurd hc (by norm_num)
      · -- pivot balanced: single rotation, height restored, stop
        subst hl0
        have e : eraStepR (qnode ll lv 0 ls lr) v b s r =
            (qct_rotate_right (qnode (qnode ll lv 0 ls lr) v b s r),
              false, 1) := by
          simp only [eraStepR, if_pos (show b < 0 by omega), balf]
          norm_num
        rw [e]
        dsimp only
        have hgap2 : 1 + max (height ll) (height lr) = height r + 2 := by
          simp only [height] at hb
          omega
        have hrot := @rotR_bal _ ll lr r v lv b 0 s ls
          hbll hblr hbr hlb (by omega) (by omega) hgap2
        refine ⟨hrot.1, ?_, ?_, ?_, ?_, ?_, ?_⟩
        · intro ht; exact Bool.noConfusion ht
        · intro _
          rw [hrot.2, if_pos rfl]
          simp only [height] at hb ⊢
          omega
        · simp only [qct_rotate_right]
          split_ifs <;> rfl
        · exact rotR_inorder ll lr r v lv b 0 s ls
        · intro hsl hsr hss
          exact (rotR_size ⟨hss, hsl, hsr⟩).1
        · intro hc; exact absurd hc (by norm_num)
      · -- pivot leans toward the shrunk side is impossible here; lb > 0:
        -- double rotation
        have e : eraStepR (qnode ll lv lb ls lr) v b s r =
            (qct_rotate_left_right (qnode (qnode ll lv lb ls lr) v b s r),
              true, 1) := by
          simp only [eraStepR, if_pos (show b < 0 by omega),
            if_pos (show balf (qnode ll lv lb ls lr) > 0 by
              simpa [balf] using hlpos)]
        rw [e]
        dsimp only
        cases lr with
        | qnil =>
          exfalso
          simp only [height] at hlb
          omega
        | qnode ya yv yb ys yc =>
          obtain ⟨hyb, hyb0, hyb1, hbya, hbyc⟩ := hblr
          have hy2 : 1 + max (height ya) (height yc) = height ll + 1 := by
            simp only [height] at hlb
            omega
          have hgap2 : 1 + max (height ll)
              (1 + max (height ya) (height yc)) = height r + 2 := by
            simp only [height] at hb
            omega
          have hrot := @rotLR_bal _ ll ya yc r v yv lv b yb lb s ys ls
            hbll hbya hbyc hbr hyb hyb0 hyb1 hy2 hgap2
          refine ⟨hrot.1, ?_, ?_, ?_, ?_, ?_, ?_⟩
          · intro _
            rw [hrot.2]
            simp only [height] at hb ⊢
            omega
          · intro hf; exact Bool.noConfusion hf
          · simp only [qct_rotate_left_right]
            split_ifs <;> rfl
          · exact rotLR_inorder ll ya yc r v yv lv b yb lb s ys ls
          · intro hsl hsr hss
            exact (rotLR_size ⟨hss, hsl, hsr⟩).1
          · intro hc; exact absurd hc (by norm_num)
  · -- b = 0: tilt toward the sibling, height unchanged
    subst h0
    have e : eraStepR l v 0 s r = (qnode l v (-1) s r, false, 0) := rfl
    rw [e]
    dsimp only
    refine ⟨⟨?_, ?_, ?_, hbl, hbr⟩, ?_, ?_, rfl, rfl, ?_, ?_⟩
    · omega
    · omega
    · omega
    · intro ht; exact Bool.noConfusion ht
    · intro _; simp only [height]; omega
    · intro hsl hsr hss; exact ⟨hss, hsl, hsr⟩
    · intro _; exact ⟨-1, rfl⟩
  · -- b = 1: the right sibling already leaned toward the shrunk side
    have h1 : b = 1 := by omega
    subst h1
    have e : eraStepR l v 1 s r = (qnode l v 0 s r, true, 0) := rfl
    rw [e]
    dsimp only
    refine ⟨⟨?_, ?_, ?_, hbl, hbr⟩, ?_, ?_, rfl, rfl, ?_, ?_⟩
    · omega
    · omega
    · omega
    · intro _; simp only [height]; omega
    · intro hf; exact Bool.noConfusion hf
    · intro hsl hsr hss; exact ⟨hss, hsl, hsr⟩
    · intro _; exact ⟨0, rfl⟩

theorem properAnc_nil (q : List Bool) : ¬ ProperAnc q [] := by
  rintro ⟨h, _⟩
  simp at h

theorem properAnc_cons {q p : List Bool} {d : Bool} (h : ProperAnc q (d :: p)) :
    q = [] ∨ ∃ q2, q = d :: q2 ∧ ProperAnc q2 p := by
  obtain ⟨hlen, htake⟩ := h
  cases q with
  | nil => exact Or.inl rfl
  | cons e q2 =>
    simp only [List.length_cons, List.take_succ_cons, List.cons.injEq] at hlen htake
    exact Or.inr ⟨q2, by rw [htake.1], ⟨by omega, htake.2⟩⟩

theorem removeMin_ne_none {α : Type} :
    ∀ t : QTree α, t ≠ qnil → qct_remove_min t ≠ none := by
  intro t
  induction t with
  | qnil => intro h; exact absurd rfl h
  | qnode l v b s r ihl ihr =>
    intro _
    cases l with
    | qnil => simp [qct_remove_min]
    | qnode a w c d e =>
      simp only [qct_remove_min]
      rcases hres : qct_remove_min (qnode a w c d e) with _ | ⟨y, l2, dec, cnt⟩
      · exact absurd hres (ihl (by simp))
      · cases dec <;> simp

/-- Specification of `qct_remove_min`: extracting the in-order minimum `y`
from a nonempty AVL subtree (the successor-splice part of `bst_erase` plus
the in-subtree iterations of the erase climb) preserves the balance and size
invariants, decreases the height by one exactly when the returned flag is
set, removes the head of the in-order sequence, and — when no rotation was
performed — decrements the stored size at every proper ancestor position of
the minimum while keeping the spine structure. -/
theorem removeMin_spec {α : Type} :
    ∀ r : QTree α, BalOk r → SizeOk r →
    ∀ (y : α) (r2 : QTree α) (dec : Bool) (cnt : Nat),
    qct_remove_min r = some (y, r2, dec, cnt) →
    BalOk r2 ∧
    (dec = true → height r2 + 1 = height r) ∧
    (dec = false → height r2 = height r) ∧
    SizeOk r2 ∧
    szf r = szf r2 + 1 ∧
    inorder r = y :: inorder r2 ∧
    (cnt = 0 → ∀ q, ProperAnc q (minPath r) →
      szf (subtreeAt r2 q) = szf (subtreeAt r q) - 1) := by
  intro r
  induction r with
  | qnil => intro _ _ y r2 dec cnt heq; exact absurd heq (by simp [qct_remove_min])
  | qnode l v b s r ihl ihr =>
    intro hbal hsize y r2 dec cnt heq
    obtain ⟨hbb, hb0, hb1, hbl, hbr⟩ := hbal
    obtain ⟨hss, hsl, hsr⟩ := hsize
    cases l with
    | qnil =>
      have e : qct_remove_min (qnode qnil v b s r) = some (v, r, true, 0) := rfl
      rw [e] at heq
      injection heq with h1
      injection h1 with hy h2
      injection h2 with hr2 h3
      injection h3 with hdec hcnt
      subst hy; subst hr2; subst hdec; subst hcnt
      refine ⟨hbr, ?_, ?_, hsr, ?_, ?_, ?_⟩
      · intro _; simp only [height]; omega
      · intro hf; exact Bool.noConfusion hf
      · simp only [szf] at hss ⊢; omega
      · simp [inorder]
      · intro _ q hq
        exact absurd hq (by simp [minPath, ProperAnc])
    | qnode a w c0 d e =>
      rcases hres : qct_remove_min (qnode a w c0 d e) with _ | ⟨y0, l2, dec0, cnt0⟩
      · exact absurd hres (removeMin_ne_none _ (by simp))
      · have spec0 := ihl hbl hsl y0 l2 dec0 cnt0 hres
        obtain ⟨sBal, sHt, sHf, sSz, sSzf, sIo, sPre⟩ := spec0
        simp only [qct_remove_min, hres] at heq
        cases dec0 with
        | true =>
          rw [if_pos rfl] at heq
          have hl2 : height l2 + 1 = height (qnode a w c0 d e) := sHt rfl
          simp only [height] at hl2
          have hstep := eraStepL_spec v (s - 1)
            sBal hbr (by simp only [height] at hbb ⊢; omega) hb0 hb1
          obtain ⟨tBal, tHt, tHf, tSzf, tIo, tSz, tSh⟩ := hstep
          have hss2 : s = 1 + d + szf r := hss
          have sSzf2 : d = szf l2 + 1 := sSzf
          injection heq with h1
          injection h1 with hy h2
          injection h2 with hr2 h3
          injection h3 with hdec hcnt
          subst hy; subst hr2; subst hdec; subst hcnt
          refine ⟨tBal, ?_, ?_, ?_, ?_, ?_, ?_⟩
          · intro ht
            rw [tHt ht]
            simp only [height]
            omega
          · intro hf
            rw [tHf hf]
            simp only [height]
            omega
          · refine tSz sSz hsr ?_
            omega
          · show s = szf (eraStepL l2 v b (s - 1) r).1 + 1
            rw [tSzf]
            omega
          · have e3 : inorder (qnode (qnode a w c0 d e) v b s r) =
                inorder (qnode a w c0 d e) ++ v :: inorder r := rfl
            rw [e3, sIo, tIo]
            simp
          · intro hc q hq
            have hc0 : cnt0 = 0 := by omega
            have hstc : (eraStepL l2 v b (s - 1) r).2.2 = 0 := by omega
            obtain ⟨b2, hsh⟩ := tSh hstc
            rw [hsh]
            have hmp : minPath (qnode (qnode a w c0 d e) v b s r) =
                false :: minPath (qnode a w c0 d e) := rfl
            rw [hmp] at hq
            rcases properAnc_cons hq with rfl | ⟨q2, rfl, hq2⟩
            · rfl
            · simp only [subtreeAt]
              exact sPre hc0 q2 hq2
        | false =>
          rw [if_neg (Bool.noConfusion : ¬ false = true)] at heq
          have hl2 : height l2 = height (qnode a w c0 d e) := sHf rfl
          simp only [height] at hl2
          simp only [height] at hbb
          injection heq with h1
          injection h1 with hy h2
          injection h2 with hr2 h3
          injection h3 with hdec hcnt
          subst hy; subst hr2; subst hdec; subst hcnt
          have hss2 : s = 1 + d + szf r := hss
          have sSzf2 : d = szf l2 + 1 := sSzf
          refine ⟨⟨?_, ?_, ?_, sBal, hbr⟩, ?_, ?_, ?_, ?_, ?_, ?_⟩
          · omega
          · omega
          · omega
          · intro ht; exact Bool.noConfusion ht
          · intro _
            simp only [height]
            omega
          · refine ⟨?_, sSz, hsr⟩
            omega
          · show s = szf (qnode l2 v b (s - 1) r) + 1
            simp only [szf]
            omega
          · have e3 : inorder (qnode (qnode a w c0 d e) v b s r) =
                inorder (qnode a w c0 d e) ++ v :: inorder r := rfl
            rw [e3, sIo]
            simp [inorder]
          · intro hc q hq
            have hmp : minPath (qnode (qnode a w c0 d e) v b s r) =
                false :: minPath (qnode a w c0 d e) := rfl
            rw [hmp] at hq
            rcases properAnc_cons hq with rfl | ⟨q2, rfl, hq2⟩
            · rfl
            · simp only [subtreeAt]
              exact sPre hc q2 hq2

theorem erasePath_cons_left {α : Type} (l : QTree α) (v : α) (b : Int)
    (s : Nat) (r : QTree α) (p : List Bool) :
    erasePath (qnode l v b s r) (false :: p) = false :: erasePath l p := by
  unfold erasePath
  simp only [subtreeAt]
  cases subtreeAt l p with
  | qnil => rfl
  | qnode a w c d e => cases a <;> cases e <;> rfl

theorem erasePath_cons_right {α : Type} (l : QTree α) (v : α) (b : Int)
    (s : Nat) (r : QTree α) (p : List Bool) :
    erasePath (qnode l v b s r) (true :: p) = true :: erasePath r p := by
  unfold erasePath
  simp only [subtreeAt]
  cases subtreeAt r p with
  | qnil => rfl
  | qnode a w c d e => cases a <;> cases e <;> rfl

/-- The combined specification of `tree::erase` on the link structure
(`bst_erase` + re-stamp + `qct_erase_rebalance`): erasing the member node at
a valid path preserves the balance and size invariants, decreases the height
by one exactly when the final climb state is still set, removes exactly the
erased element from the in-order sequence, and — when no rotation was
performed — decrements the stored size at every proper ancestor position of
the removed position by exactly one. -/
theorem erase_spec {α : Type} :
    ∀ t : QTree α, BalOk t → SizeOk t →
    ∀ p : List Bool, isValidPath t p = true →
    ∀ (t2 : QTree α) (dec : Bool) (cnt : Nat),
    qct_erase t p = (t2, dec, cnt) →
    BalOk t2 ∧
    (dec = true → height t2 + 1 = height t) ∧
    (dec = false → height t2 = height t) ∧
    SizeOk t2 ∧
    szf t = szf t2 + 1 ∧
    (∃ A B : List α, ∃ z : α, valAt? t p = some z ∧
      inorder t = A ++ z :: B ∧ inorder t2 = A ++ B) ∧
    (cnt = 0 → ∀ q, ProperAnc q (erasePath t p) →
      szf (subtreeAt t2 q) = szf (subtreeAt t q) - 1) := by
  intro t
  induction t with
  | qnil =>
    intro _ _ p hval
    exact absurd hval (by simp [isValidPath])
  | qnode l v b s r ihl ihr =>
    intro hbal hsize p hval t2 dec cnt heq
    obtain ⟨hbb, hb0, hb1, hbl, hbr⟩ := hbal
    obtain ⟨hss, hsl, hsr⟩ := hsize
    cases p with
    | cons dir p2 =>
      cases dir with
      | false =>
        have hval2 : isValidPath l p2 = true := hval
        rcases hres : qct_erase l p2 with ⟨l2, dec0, cnt0⟩
        have spec := ihl hbl hsl p2 hval2 l2 dec0 cnt0 hres
        obtain ⟨sBal, sHt, sHf, sSz, sSzf, ⟨A, B, z, sVal, sIoT, sIoT2⟩, sPre⟩ :=
          spec
        simp only [qct_erase, hres] at heq
        cases dec0 with
        | true =>
          rw [if_pos rfl] at heq
          have hl2 : height l2 + 1 = height l := sHt rfl
          have hstep := eraStepL_spec v (s - 1)
            sBal hbr (by omega) hb0 hb1
          obtain ⟨tBal, tHt, tHf, tSzf, tIo, tSz, tSh⟩ := hstep
          cases heq
          refine ⟨tBal, ?_, ?_, ?_, ?_, ?_, ?_⟩
          · intro ht
            rw [tHt ht]
            simp only [height]
            omega
          · intro hf
            rw [tHf hf]
            simp only [height]
            omega
          · exact tSz sSz hsr (by omega)
          · show s = szf (eraStepL l2 v b (s - 1) r).1 + 1
            rw [tSzf]
            omega
          · refine ⟨A, B ++ v :: inorder r, z, sVal, ?_, ?_⟩
            · show inorder l ++ v :: inorder r = A ++ z :: (B ++ v :: inorder r)
              rw [sIoT]
              simp
            · rw [tIo, sIoT2]
              simp
          · intro hc q hq
            have hc0 : cnt0 = 0 := by omega
            obtain ⟨b2, hsh⟩ := tSh (by omega)
            rw [hsh]
            rw [erasePath_cons_left] at hq
            rcases properAnc_cons hq with rfl | ⟨q2, rfl, hq2⟩
            · rfl
            · simp only [subtreeAt]
              exact sPre hc0 q2 hq2
        | false =>
          rw [if_neg (Bool.noConfusion : ¬ false = true)] at heq
          have hl2 : height l2 = height l := sHf rfl
          cases heq
          refine ⟨⟨?_, ?_, ?_, sBal, hbr⟩, ?_, ?_, ?_, ?_, ?_, ?_⟩
          · omega
          · omega
          · omega
          · intro ht; exact Bool.noConfusion ht
          · intro _
            simp only [height]
            omega
          · exact ⟨by omega, sSz, hsr⟩
          · show s = szf (qnode l2 v b (s - 1) r) + 1
            simp only [szf]
            omega
          · refine ⟨A, B ++ v :: inorder r, z, sVal, ?_, ?_⟩
            · show inorder l ++ v :: inorder r = A ++ z :: (B ++ v :: inorder r)
              rw [sIoT]
              simp
            · show inorder l2 ++ v :: inorder r = A ++ (B ++ v :: inorder r)
              rw [sIoT2]
              simp
          · intro hc q hq
            rw [erasePath_cons_left] at hq
            rcases properAnc_cons hq with rfl | ⟨q2, rfl, hq2⟩
            · rfl
            · simp only [subtreeAt]
              exact sPre hc q2 hq2
      | true =>
        have hval2 : isValidPath r p2 = true := hval
        rcases hres : qct_erase r p2 with ⟨r2, dec0, cnt0⟩
        have spec := ihr hbr hsr p2 hval2 r2 dec0 cnt0 hres
        obtain ⟨sBal, sHt, sHf, sSz, sSzf, ⟨A, B, z, sVal, sIoT, sIoT2⟩, sPre⟩ :=
          spec
        simp only [qct_erase, hres] at heq
        cases dec0 with
        | true =>
          rw [if_pos rfl] at heq
          have hr2 : height r2 + 1 = height r := sHt rfl
          have hstep := eraStepR_spec v (s - 1)
            hbl sBal (by omega) hb0 hb1
          obtain ⟨tBal, tHt, tHf, tSzf, tIo, tSz, tSh⟩ := hstep
          cases heq
          refine ⟨tBal, ?_, ?_, ?_, ?_, ?_, ?_⟩
          · intro ht
            rw [tHt ht]
            simp only [height]
            omega
          · intro hf
            rw [tHf hf]
            simp only [height]
            omega
          · exact tSz hsl sSz (by omega)
          · show s = szf (eraStepR l v b (s - 1) r2).1 + 1
            rw [tSzf]
            omega
          · refine ⟨inorder l ++ v :: A, B, z, sVal, ?_, ?_⟩
            · show inorder l ++ v :: inorder r = (inorder l ++ v :: A) ++ z :: B
              rw [sIoT]
              simp
            · rw [tIo, sIoT2]
              simp
          · intro hc q hq
            have hc0 : cnt0 = 0 := by omega
            obtain ⟨b2, hsh⟩ := tSh (by omega)
            rw [hsh]
            rw [erasePath_cons_right] at hq
            rcases properAnc_cons hq with rfl | ⟨q2, rfl, hq2⟩
            · rfl
            · simp only [subtreeAt]
              exact sPre hc0 q2 hq2
        | false =>
          rw [if_neg (Bool.noConfusion : ¬ false = true)] at heq
          have hr2 : height r2 = height r := sHf rfl
          cases heq
          refine ⟨⟨?_, ?_, ?_, hbl, sBal⟩, ?_, ?_, ?_, ?_, ?_, ?_⟩
          · omega
          · omega
          · omega
          · intro ht; exact Bool.noConfusion ht
          · intro _
            simp only [height]
            omega
          · exact ⟨by omega, hsl, sSz⟩
          · show s = szf (qnode l v b (s - 1) r2) + 1
            simp only [szf]
            omega
          · refine ⟨inorder l ++ v :: A, B, z, sVal, ?_, ?_⟩
            · show inorder l ++ v :: inorder r = (inorder l ++ v :: A) ++ z :: B
              rw [sIoT]
              simp
            · show inorder l ++ v :: inorder r2 = (inorder l ++ v :: A) ++ B
              rw [sIoT2]
              simp
          · intro hc q hq
            rw [erasePath_cons_right] at hq
            rcases properAnc_cons hq with rfl | ⟨q2, rfl, hq2⟩
            · rfl
            · simp only [subtreeAt]
              exact sPre hc q2 hq2
    | nil =>
      cases l with
      | qnil =>
        have e : qct_erase (qnode qnil v b s r) [] = (r, true, 0) := by
          cases r <;> rfl
        rw [e] at heq
        cases heq
        refine ⟨hbr, ?_, ?_, hsr, ?_, ?_, ?_⟩
        · intro _
          simp only [height]
          omega
        · intro hf; exact Bool.noConfusion hf
        · simp only [szf] at hss ⊢
          omega
        · exact ⟨[], inorder r, v, rfl, by simp [inorder], by simp⟩
        · intro _ q hq
          have he : erasePath (qnode (qnil : QTree α) v b s r) [] = [] := by
            cases r <;> rfl
          rw [he] at hq
          exact absurd hq (properAnc_nil q)
      | qnode la lw lc ld le =>
        cases r with
        | qnil =>
          have e : qct_erase (qnode (qnode la lw lc ld le) v b s qnil) [] =
              (qnode la lw lc ld le, true, 0) := rfl
          rw [e] at heq
          cases heq
          refine ⟨hbl, ?_, ?_, hsl, ?_, ?_, ?_⟩
          · intro _
            simp only [height]
            omega
          · intro hf; exact Bool.noConfusion hf
          · simp only [szf] at hss ⊢
            omega
          · exact ⟨inorder (qnode la lw lc ld le), [], v, rfl,
              by simp [inorder], by simp⟩
          · intro _ q hq
            have he : erasePath (qnode (qnode la lw lc ld le) v b s
                (qnil : QTree α)) [] = [] := rfl
            rw [he] at hq
            exact absurd hq (properAnc_nil q)
        | qnode ra rw0 rc rd re =>
          rcases hres : qct_remove_min (qnode ra rw0 rc rd re) with
            _ | ⟨y, r2, dec0, cnt0⟩
          · exact absurd hres (removeMin_ne_none _ (by simp))
          · have spec0 := removeMin_spec (qnode ra rw0 rc rd re) hbr hsr
              y r2 dec0 cnt0 hres
            obtain ⟨sBal, sHt, sHf, sSz, sSzf, sIo, sPre⟩ := spec0
            simp only [qct_erase, hres] at heq
            cases dec0 with
            | true =>
              rw [if_pos rfl] at heq
              have hr2 : height r2 + 1 = height (qnode ra rw0 rc rd re) :=
                sHt rfl
              have hr2x : height r2 + 1 = 1 + max (height ra) (height re) :=
                hr2
              have hstep := eraStepR_spec y (s - 1) hbl sBal (by omega) hb0 hb1
              obtain ⟨tBal, tHt, tHf, tSzf, tIo, tSz, tSh⟩ := hstep
              cases heq
              refine ⟨tBal, ?_, ?_, ?_, ?_, ?_, ?_⟩
              · intro ht
                rw [tHt ht]
                simp only [height]
                omega
              · intro hf
                rw [tHf hf]
                simp only [height]
                omega
              · refine tSz hsl sSz ?_
                have hss2 : s = 1 + szf (qnode la lw lc ld le) + rd := hss
                have sSzf2 : rd = szf r2 + 1 := sSzf
                omega
              · show s = szf (eraStepR (qnode la lw lc ld le) y b (s - 1) r2).1 + 1
                rw [tSzf]
                have hss2 : s = 1 + szf (qnode la lw lc ld le) + rd := hss
                omega
              · refine ⟨inorder (qnode la lw lc ld le), y :: inorder r2, v,
                  rfl, ?_, ?_⟩
                · show inorder (qnode la lw lc ld le) ++ v ::
                      inorder (qnode ra rw0 rc rd re) = _
                  rw [sIo]
                · rw [tIo]
              · intro hc q hq
                have hc0 : cnt0 = 0 := by omega
                obtain ⟨b2, hsh⟩ := tSh (by omega)
                rw [hsh]
                have he : erasePath (qnode (qnode la lw lc ld le) v b s
                    (qnode ra rw0 rc rd re)) [] =
                    true :: minPath (qnode ra rw0 rc rd re) := rfl
                rw [he] at hq
                rcases properAnc_cons hq with rfl | ⟨q2, rfl, hq2⟩
                · rfl
                · simp only [subtreeAt]
                  exact sPre hc0 q2 hq2
            | false =>
              rw [if_neg (Bool.noConfusion : ¬ false = true)] at heq
              have hr2 : height r2 = height (qnode ra rw0 rc rd re) := sHf rfl
              have hr2x : height r2 = 1 + max (height ra) (height re) := hr2
              cases heq
              refine ⟨⟨?_, ?_, ?_, hbl, sBal⟩, ?_, ?_, ?_, ?_, ?_, ?_⟩
              · omega
              · omega
              · omega
              · intro ht; exact Bool.noConfusion ht
              · intro _
                simp only [height]
                omega
              · refine ⟨?_, hsl, sSz⟩
                have hss2 : s = 1 + szf (qnode la lw lc ld le) + rd := hss
                have sSzf2 : rd = szf r2 + 1 := sSzf
                omega
              · show s = szf (qnode (qnode la lw lc ld le) y b (s - 1) r2) + 1
                simp only [szf]
                have hss2 : s = 1 + szf (qnode la lw lc ld le) + rd := hss
                omega
              · refine ⟨inorder (qnode la lw lc ld le), y :: inorder r2, v,
                  rfl, ?_, ?_⟩
                · show inorder (qnode la lw lc ld le) ++ v ::
                      inorder (qnode ra rw0 rc rd re) = _
                  rw [sIo]
                · show inorder (qnode la lw lc ld le) ++ y :: inorder r2 = _
                  rfl
              · intro hc q hq
                have he : erasePath (qnode (qnode la lw lc ld le) v b s
                    (qnode ra rw0 rc rd re)) [] =
                    true :: minPath (qnode ra rw0 rc rd re) := rfl
                rw [he] at hq
                rcases properAnc_cons hq with rfl | ⟨q2, rfl, hq2⟩
                · rfl
                · simp only [subtreeAt]
                  exact sPre hc q2 hq2

theorem valAt_isSome_of_valid {α : Type} :
    ∀ (t : QTree α) (p : List Bool), isValidPath t p = true →
      ∃ z, valAt? t p = some z := by
  intro t
  induction t with
  | qnil => intro p hv; exact absurd hv (by simp [isValidPath])
  | qnode l v b s r ihl ihr =>
    intro p hv
    cases p with
    | nil => exact ⟨v, rfl⟩
    | cons d p2 =>
      cases d with
      | false => exact ihl p2 hv
      | true => exact ihr p2 hv

/-- Every reachable container state satisfies the stored-balance and
stored-size invariants at its root tree, and — whenever the comparator is a
strict weak order — the binary-search-tree ordering invariant as well. -/
theorem reach_invariant {α : Type} [DecidableEq α] (lt : α → α → Bool) :
    ∀ q : QCT α, Reach lt q →
    BalOk q.root ∧ SizeOk q.root ∧
    (LtAsymm lt → LtWeakLinear lt → BSTOrd lt q.root) := by
  intro q h
  induction h with
  | empty => exact ⟨trivial, trivial, fun _ _ => trivial⟩
  | @ins q x _ _ ih =>
    obtain ⟨ihB, ihS, ihO⟩ := ih
    rcases hres : qct_insert_rebalance (qct_insert lt x q.root).1
        (qct_insert lt x q.root).2 with ⟨t2, g, c⟩
    have spec := insert_spec lt x q.root ihB ihS t2 g c hres
    obtain ⟨sB, _, _, _, _, sS, _, _, sO⟩ := spec
    have hroot : (QCT.insert lt x q).root = t2 := by
      show (qct_insert_rebalance (qct_insert lt x q.root).1
        (qct_insert lt x q.root).2).1 = t2
      rw [hres]
    rw [hroot]
    exact ⟨sB, sS, fun hA hW => sO hA hW (ihO hA hW)⟩
  | @del q p _ hvp ih =>
    obtain ⟨ihB, ihS, ihO⟩ := ih
    obtain ⟨z, hz⟩ := valAt_isSome_of_valid q.root p hvp
    rcases hqe : qct_erase q.root p with ⟨t2, dec, cnt⟩
    have spec := erase_spec q.root ihB ihS p hvp t2 dec cnt hqe
    obtain ⟨sB, _, _, sS, _, ⟨A, B, z2, _, hio1, hio2⟩, _⟩ := spec
    have hroot : (QCT.erase q p).root = t2 := by
      unfold QCT.erase
      rw [hz]
      show (qct_erase q.root p).1 = t2
      rw [hqe]
    rw [hroot]
    refine ⟨sB, sS, fun hA hW => ?_⟩
    have hsorted : SortedIO lt q.root := BSTOrd_to_sortedIO lt hW q.root
      (ihO hA hW)
    have hsub : List.Sublist (QTree.inorder t2) (QTree.inorder q.root) := by
      rw [hio1, hio2]
      exact List.Sublist.append_left ((List.Sublist.refl B).cons z2) A
    have hsorted2 : SortedIO lt t2 := List.Pairwise.sublist hsub hsorted
    exact sortedIO_to_BSTOrd lt t2 hsorted2

theorem reach_c1state : Reach natLt c1state := by
  refine Reach.ins (Reach.ins (Reach.ins (Reach.ins (Reach.ins (Reach.ins
    (Reach.ins Reach.empty ?_) ?_) ?_) ?_) ?_) ?_) ?_ <;> decide

/-- **C2.** In every container state reachable from the empty tree by any
sequence of `insert` and `erase` operations, every real node's stored
`balance_` equals height(right subtree) − height(left subtree) and has
absolute value at most 1. -/
theorem claim_C2_balance_invariant {α : Type} [DecidableEq α]
    (lt : α → α → Bool) (q : QCT α) (h : Reach lt q) : BalOk q.root :=
  (reach_invariant lt q h).1

theorem claim_C2_witness : BalOk c1state.root :=
  claim_C2_balance_invariant natLt c1state reach_c1state

theorem insert_descent {α : Type} (lt : α → α → Bool) (x : α) :
    ∀ t : QTree α, ∀ anc, ProperAnc anc (qct_insert lt x t).2 →
      szf (subtreeAt (qct_insert lt x t).1 anc) = szf (subtreeAt t anc) + 1 := by
  intro t
  induction t with
  | qnil => intro anc h; exact absurd h (properAnc_nil anc)
  | qnode l v b s r ihl ihr =>
    intro anc h
    cases hlt : lt v x with
    | true =>
      have e1 : qct_insert lt x (qnode l v b s r) =
          (qnode l v b (s + 1) (qct_insert lt x r).1,
            true :: (qct_insert lt x r).2) := by
        simp [qct_insert, hlt]
      rw [e1] at h ⊢
      dsimp only at h ⊢
      rcases properAnc_cons h with rfl | ⟨q2, rfl, hq2⟩
      · rfl
      · simp only [subtreeAt]
        exact ihr q2 hq2
    | false =>
      have e1 : qct_insert lt x (qnode l v b s r) =
          (qnode (qct_insert lt x l).1 v b (s + 1) r,
            false :: (qct_insert lt x l).2) := by
        simp [qct_insert, hlt]
      rw [e1] at h ⊢
      dsimp only at h ⊢
      rcases properAnc_cons h with rfl | ⟨q2, rfl, hq2⟩
      · rfl
      · simp only [subtreeAt]
        exact ihl q2 hq2

theorem reach_c3state : Reach natLt c3state := by
  refine Reach.ins (Reach.ins (Reach.ins (Reach.ins (Reach.ins (Reach.ins
    (Reach.ins Reach.empty ?_) ?_) ?_) ?_) ?_) ?_) ?_ <;> decide

/-- **C3, counterexample.**  In the reachable state built by inserting
10, 5, 20, 3, 15, 25, 30, erasing the node 3 (path `[false, false]`)
triggers a rotation during the climb, and afterwards the stored size at the
ancestor position `[false]` of the removed position is 3, not the claimed
old value minus one (2 − 1 = 1): once a rotation runs, the climb's
unconditional `x->subtree_size_--` no longer describes the sizes found at
(or held by) the erased node's former ancestors. -/
theorem claim_C3_counterexample :
    Reach natLt c3state ∧
    isValidPath c3state.root [false, false] = true ∧
    ProperAnc [false] (erasePath c3state.root [false, false]) ∧
    szf (subtreeAt c3state.root [false]) = 2 ∧
    szf (subtreeAt (QCT.erase c3state [false, false]).root [false]) = 3 :=
  ⟨reach_c3state, by decide, by decide, by decide, by decide⟩

/-- **C3, amended.**  For every reachable container state: (1) every real
node's stored `subtree_size_` equals 1 + stored size of its left child (or 0
if absent) + stored size of its right child (or 0 if absent); (2) the
placement pass of insert (`qct_insert`, which runs before any rotation)
increments the stored size of every node visited during the descent —
every proper ancestor position of the new node — by exactly one; and (3)
erase decrements the root's stored size by exactly one, and *provided the
climb performed no rotation* it decrements the stored size at every proper
ancestor position of the removed position by exactly one. -/
theorem claim_C3_size_invariant_amended {α : Type} [DecidableEq α]
    (lt : α → α → Bool) (q : QCT α) (h : Reach lt q) (x : α) (p : List Bool)
    (hvp : isValidPath q.root p = true) :
    SizeOk q.root ∧
    (∀ anc, ProperAnc anc (qct_insert lt x q.root).2 →
      szf (subtreeAt (qct_insert lt x q.root).1 anc) =
        szf (subtreeAt q.root anc) + 1) ∧
    szf q.root = szf (qct_erase q.root p).1 + 1 ∧
    ((qct_erase q.root p).2.2 = 0 →
      ∀ anc, ProperAnc anc (erasePath q.root p) →
        szf (subtreeAt (qct_erase q.root p).1 anc) =
          szf (subtreeAt q.root anc) - 1) := by
  obtain ⟨hB, hS, _⟩ := reach_invariant lt q h
  rcases hqe : qct_erase q.root p with ⟨t2, dec, cnt⟩
  have spec := erase_spec q.root hB hS p hvp t2 dec cnt hqe
  exact ⟨hS, insert_descent lt x q.root, spec.2.2.2.2.1, spec.2.2.2.2.2.2⟩

theorem claim_C3_witness :
    isValidPath c3state.root [true, true, true] = true ∧
    (SizeOk c3state.root ∧
    (∀ anc, ProperAnc anc (qct_insert natLt 4 c3state.root).2 →
      szf (subtreeAt (qct_insert natLt 4 c3state.root).1 anc) =
        szf (subtreeAt c3state.root anc) + 1) ∧
    szf c3state.root = szf (qct_erase c3state.root [true, true, true]).1 + 1 ∧
    ((qct_erase c3state.root [true, true, true]).2.2 = 0 →
      ∀ anc, ProperAnc anc (erasePath c3state.root [true, true, true]) →
        szf (subtreeAt (qct_erase c3state.root [true, true, true]).1 anc) =
          szf (subtreeAt c3state.root anc) - 1)) :=
  ⟨by decide, claim_C3_size_invariant_amended natLt c3state reach_c3state 4
    [true, true, true] (by decide)⟩

theorem succClimb_append_some :
    ∀ (xs : List Bool) (q : List Bool), succClimb xs = some q →
      ∀ d, succClimb (xs ++ [d]) = some (d :: q) := by
  intro xs
  induction xs with
  | nil => intro q h; exact absurd h (by simp [succClimb])
  | cons e rest ih =>
    intro q h d
    cases e with
    | true => exact ih q h d
    | false =>
      simp only [succClimb, Option.some.injEq] at h
      show succClimb (false :: (rest ++ [d])) = some (d :: q)
      simp only [succClimb, List.reverse_append, List.reverse_cons,
        List.reverse_nil, List.nil_append, List.singleton_append,
        Option.some.injEq]
      rw [← h]

theorem succClimb_append_none :
    ∀ xs : List Bool, succClimb xs = none →
      succClimb (xs ++ [true]) = none ∧ succClimb (xs ++ [false]) = some [] := by
  intro xs
  induction xs with
  | nil => exact fun _ => ⟨rfl, rfl⟩
  | cons e rest ih =>
    intro h
    cases e with
    | true => exact ih h
    | false => exact absurd h (by simp [succClimb])

theorem minPath_valid {α : Type} :
    ∀ t : QTree α, t ≠ qnil → isValidPath t (minPath t) = true := by
  intro t
  induction t with
  | qnil => intro h; exact absurd rfl h
  | qnode l v b s r ihl _ =>
    intro _
    cases l with
    | qnil => rfl
    | qnode a w c d e => exact ihl (by simp)

theorem inorderTail_minPath {α : Type} :
    ∀ t : QTree α, inorderTail t (minPath t) = inorder t := by
  intro t
  induction t with
  | qnil => rfl
  | qnode l v b s r ihl _ =>
    cases l with
    | qnil => simp [minPath, inorderTail, inorder]
    | qnode a w c d e =>
      show inorderTail (qnode a w c d e) (minPath (qnode a w c d e)) ++
        v :: inorder r = _
      rw [ihl]
      rfl

theorem inorder_length {α : Type} :
    ∀ t : QTree α, (inorder t).length = realSize t := by
  intro t
  induction t with
  | qnil => rfl
  | qnode l v b s r ihl ihr => simp [inorder, realSize, ihl, ihr]; omega

/-- Successor correctness: standing on a real node, the remaining in-order
suffix is that node's element followed by the suffix at `bst_successor`'s
result (empty when the successor climb reaches the header), and the
successor of a real node is again a real node whenever it is not the
header. -/
theorem inorderTail_succ {α : Type} :
    ∀ (t : QTree α) (p : List Bool) (z : α), valAt? t p = some z →
      (inorderTail t p = z :: (match succPath t p with
        | IterPos.header => ([] : List α)
        | IterPos.node q2 => inorderTail t q2)) ∧
      (∀ q2, succPath t p = IterPos.node q2 → isValidPath t q2 = true) := by
  intro t
  induction t with
  | qnil =>
    intro p z hz
    exact absurd hz (by cases p <;> simp [valAt?, subtreeAt])
  | qnode l v b s r ihl ihr =>
    intro p z hz
    cases p with
    | nil =>
      have hzv : v = z := by injection hz
      subst hzv
      cases r with
      | qnil =>
        refine ⟨rfl, fun q2 h => IterPos.noConfusion h⟩
      | qnode ra wa ca da ea =>
        have hsp : succPath (qnode l v b s (qnode ra wa ca da ea)) [] =
            IterPos.node (true :: minPath (qnode ra wa ca da ea)) := rfl
        constructor
        · rw [hsp]
          show (v :: inorder (qnode ra wa ca da ea) : List α) =
            v :: inorderTail (qnode ra wa ca da ea)
              (minPath (qnode ra wa ca da ea))
          rw [inorderTail_minPath]
        · intro q2 h
          rw [hsp] at h
          injection h with h2
          subst h2
          exact minPath_valid _ (by simp)
    | cons d p2 =>
      cases d with
      | false =>
        have hz2 : valAt? l p2 = some z := hz
        obtain ⟨ih1, ih2⟩ := ihl p2 z hz2
        cases hrr : rightOf (subtreeAt l p2) with
        | qnode a2 w2 c2 d2 e2 =>
          have hspl : succPath l p2 =
              IterPos.node (p2 ++ true :: minPath (qnode a2 w2 c2 d2 e2)) := by
            unfold succPath
            rw [hrr]
          have hsp : succPath (qnode l v b s r) (false :: p2) =
              IterPos.node
                (false :: (p2 ++ true :: minPath (qnode a2 w2 c2 d2 e2))) := by
            unfold succPath
            rw [show subtreeAt (qnode l v b s r) (false :: p2) =
              subtreeAt l p2 from rfl, hrr]
            rfl
          rw [hspl] at ih1
          constructor
          · rw [hsp]
            show inorderTail l p2 ++ v :: inorder r =
              z :: (inorderTail l
                (p2 ++ true :: minPath (qnode a2 w2 c2 d2 e2)) ++
                v :: inorder r)
            rw [ih1]
            rfl
          · intro q2 h
            rw [hsp] at h
            injection h with h2
            subst h2
            show isValidPath l
              (p2 ++ true :: minPath (qnode a2 w2 c2 d2 e2)) = true
            exact ih2 _ hspl
        | qnil =>
          cases hsc : succClimb p2.reverse with
          | some qq =>
            have hspl : succPath l p2 = IterPos.node qq := by
              unfold succPath
              rw [hrr, hsc]
            have hclimb := succClimb_append_some p2.reverse qq hsc false
            have hsp : succPath (qnode l v b s r) (false :: p2) =
                IterPos.node (false :: qq) := by
              unfold succPath
              rw [show subtreeAt (qnode l v b s r) (false :: p2) =
                subtreeAt l p2 from rfl, hrr, List.reverse_cons, hclimb]
            rw [hspl] at ih1
            constructor
            · rw [hsp]
              show inorderTail l p2 ++ v :: inorder r =
                z :: (inorderTail l qq ++ v :: inorder r)
              rw [ih1]
              rfl
            · intro q2 h
              rw [hsp] at h
              injection h with h2
              subst h2
              show isValidPath l qq = true
              exact ih2 qq hspl
          | none =>
            have hspl : succPath l p2 = IterPos.header := by
              unfold succPath
              rw [hrr, hsc]
            have hclimb := (succClimb_append_none p2.reverse hsc).2
            have hsp : succPath (qnode l v b s r) (false :: p2) =
                IterPos.node [] := by
              unfold succPath
              rw [show subtreeAt (qnode l v b s r) (false :: p2) =
                subtreeAt l p2 from rfl, hrr, List.reverse_cons, hclimb]
            rw [hspl] at ih1
            constructor
            · rw [hsp]
              show inorderTail l p2 ++ v :: inorder r = z :: (v :: inorder r)
              rw [ih1]
              rfl
            · intro q2 h
              rw [hsp] at h
              injection h with h2
              subst h2
              rfl
      | true =>
        have hz2 : valAt? r p2 = some z := hz
        obtain ⟨ih1, ih2⟩ := ihr p2 z hz2
        cases hrr : rightOf (subtreeAt r p2) with
        | qnode a2 w2 c2 d2 e2 =>
          have hspl : succPath r p2 =
              IterPos.node (p2 ++ true :: minPath (qnode a2 w2 c2 d2 e2)) := by
            unfold succPath
            rw [hrr]
          have hsp : succPath (qnode l v b s r) (true :: p2) =
              IterPos.node
                (true :: (p2 ++ true :: minPath (qnode a2 w2 c2 d2 e2))) := by
            unfold succPath
            rw [show subtreeAt (qnode l v b s r) (true :: p2) =
              subtreeAt r p2 from rfl, hrr]
            rfl
          rw [hspl] at ih1
          constructor
          · rw [hsp]
            show inorderTail r p2 =
              z :: inorderTail r
                (p2 ++ true :: minPath (qnode a2 w2 c2 d2 e2))
            exact ih1
          · intro q2 h
            rw [hsp] at h
            injection h with h2
            subst h2
            show isValidPath r
              (p2 ++ true :: minPath (qnode a2 w2 c2 d2 e2)) = true
            exact ih2 _ hspl
        | qnil =>
          cases hsc : succClimb p2.reverse with
          | some qq =>
            have hspl : succPath r p2 = IterPos.node qq := by
              unfold succPath
              rw [hrr, hsc]
            have hclimb := succClimb_append_some p2.reverse qq hsc true
            have hsp : succPath (qnode l v b s r) (true :: p2) =
                IterPos.node (true :: qq) := by
              unfold succPath
              rw [show subtreeAt (qnode l v b s r) (true :: p2) =
                subtreeAt r p2 from rfl, hrr, List.reverse_cons, hclimb]
            rw [hspl] at ih1
            constructor
            · rw [hsp]
              show inorderTail r p2 = z :: inorderTail r qq
              exact ih1
            · intro q2 h
              rw [hsp] at h
              injection h with h2
              subst h2
              show isValidPath r qq = true
              exact ih2 qq hspl
          | none =>
            have hspl : succPath r p2 = IterPos.header := by
              unfold succPath
              rw [hrr, hsc]
            have hclimb := (succClimb_append_none p2.reverse hsc).1
            have hsp : succPath (qnode l v b s r) (true :: p2) =
                IterPos.header := by
              unfold succPath
              rw [show subtreeAt (qnode l v b s r) (true :: p2) =
                subtreeAt r p2 from rfl, hrr, List.reverse_cons, hclimb]
            rw [hspl] at ih1
            constructor
            · rw [hsp]
              exact ih1
            · intro q2 h
              rw [hsp] at h
              exact IterPos.noConfusion h

theorem iterChain_inorderTail {α : Type} :
    ∀ (n : Nat) (t : QTree α) (p : List Bool), isValidPath t p = true →
      n = (inorderTail t p).length →
      iterChain t n (IterPos.node p) = inorderTail t p := by
  intro n
  induction n with
  | zero =>
    intro t p hv hn
    obtain ⟨z, hz⟩ := valAt_isSome_of_valid t p hv
    have hs := (inorderTail_succ t p z hz).1
    rw [hs] at hn
    simp at hn
  | succ n ih =>
    intro t p hv hn
    obtain ⟨z, hz⟩ := valAt_isSome_of_valid t p hv
    obtain ⟨hs1, hs2⟩ := inorderTail_succ t p z hz
    have e : iterChain t (n + 1) (IterPos.node p) =
        z :: iterChain t n (succPath t p) := by
      simp only [iterChain]
      rw [hz]
    rw [e]
    cases hsp : succPath t p with
    | header =>
      rw [hsp] at hs1
      have hn0 : n = 0 := by
        rw [hs1] at hn
        simp at hn
        omega
      subst hn0
      rw [hs1]
      rfl
    | node q2 =>
      rw [hsp] at hs1
      have hlen : n = (inorderTail t q2).length := by
        rw [hs1] at hn
        simp at hn
        omega
      rw [hs1, ih t q2 (hs2 q2 hsp) hlen]

/-- Iterating from `begin()` to `end()` through `bst_successor` visits
exactly the structural in-order sequence. -/
theorem traverse_eq_inorder {α : Type} :
    ∀ t : QTree α, traverse t = inorder t := by
  intro t
  cases t with
  | qnil => rfl
  | qnode l v b s r =>
    show iterChain (qnode l v b s r) (realSize (qnode l v b s r))
      (IterPos.node (minPath (qnode l v b s r))) = _
    rw [iterChain_inorderTail (realSize (qnode l v b s r))
      (qnode l v b s r) (minPath (qnode l v b s r))
      (minPath_valid _ (by simp))
      (by rw [inorderTail_minPath, inorder_length])]
    exact inorderTail_minPath _

theorem natLt_asymm : LtAsymm natLt := by
  intro a b h
  simp only [natLt, decide_eq_true_eq] at h
  simp only [natLt, decide_eq_false_iff_not]
  omega

theorem natLt_weakLinear : LtWeakLinear natLt := by
  intro a b c h
  simp only [natLt, decide_eq_true_eq] at h
  by_cases hac : a < c
  · exact Or.inl (by simp [natLt, hac])
  · exact Or.inr (by simp only [natLt, decide_eq_true_eq]; omega)

/-- **C4.** In every reachable container state (under a comparator
satisfying the strict-weak-order contract), iterating from `begin()` to
`end()` via `bst_successor` yields exactly the structural in-order sequence
of the tree, and that sequence is non-decreasing under the comparator: no
element is strictly less than an earlier one. -/
theorem claim_C4_inorder_nondecreasing {α : Type} [DecidableEq α]
    (lt : α → α → Bool) (q : QCT α) (h : Reach lt q)
    (hA : LtAsymm lt) (hW : LtWeakLinear lt) :
    traverse q.root = inorder q.root ∧
    List.Pairwise (fun a c => lt c a = false) (traverse q.root) := by
  refine ⟨traverse_eq_inorder q.root, ?_⟩
  rw [traverse_eq_inorder q.root]
  exact BSTOrd_to_sortedIO lt hW q.root ((reach_invariant lt q h).2.2 hA hW)

theorem claim_C4_witness :
    traverse c1state.root = inorder c1state.root ∧
    List.Pairwise (fun a c => natLt c a = false) (traverse c1state.root) :=
  claim_C4_inorder_nondecreasing natLt c1state reach_c1state
    natLt_asymm natLt_weakLinear

theorem rotL_inorder_any {α : Type} :
    ∀ t : QTree α, inorder (qct_rotate_left t) = inorder t := by
  intro t
  cases t with
  | qnil => rfl
  | qnode xl xv xb xs r =>
    cases r with
    | qnil => rfl
    | qnode tmp zv zb zs zr => exact rotL_inorder xl tmp zr xv zv xb zb xs zs

theorem rotR_inorder_any {α : Type} :
    ∀ t : QTree α, inorder (qct_rotate_right t) = inorder t := by
  intro t
  cases t with
  | qnil => rfl
  | qnode l xv xb xs xr =>
    cases l with
    | qnil => rfl
    | qnode zl zv zb zs tmp => exact rotR_inorder zl tmp xr xv zv xb zb xs zs

theorem rotRL_inorder_any {α : Type} :
    ∀ t : QTree α, inorder (qct_rotate_right_left t) = inorder t := by
  intro t
  cases t with
  | qnil => rfl
  | qnode xl xv xb xs r =>
    cases r with
    | qnil => rfl
    | qnode y zv zb zs zr =>
      cases y with
      | qnil => rfl
      | qnode tmp2 yv yb ys tmp1 =>
        exact rotRL_inorder xl tmp2 tmp1 zr xv yv zv xb yb zb xs ys zs

theorem rotLR_inorder_any {α : Type} :
    ∀ t : QTree α, inorder (qct_rotate_left_right t) = inorder t := by
  intro t
  cases t with
  | qnil => rfl
  | qnode l xv xb xs xr =>
    cases l with
    | qnil => rfl
    | qnode zl zv zb zs y =>
      cases y with
      | qnil => rfl
      | qnode tmp1 yv yb ys tmp2 =>
        exact rotLR_inorder zl tmp1 tmp2 xr xv yv zv xb yb zb xs ys zs

theorem insStepL_inorder {α : Type} (l : QTree α) (v : α) (b : Int)
    (s : Nat) (r : QTree α) :
    inorder (insStepL l v b s r).1 = inorder l ++ v :: inorder r := by
  unfold insStepL
  split_ifs <;>
    simp [rotLR_inorder_any, rotR_inorder_any, inorder]

theorem insStepR_inorder {α : Type} (l : QTree α) (v : α) (b : Int)
    (s : Nat) (r : QTree α) :
    inorder (insStepR l v b s r).1 = inorder l ++ v :: inorder r := by
  unfold insStepR
  split_ifs <;>
    simp [rotRL_inorder_any, rotL_inorder_any, inorder]

theorem insRebal_inorder {α : Type} :
    ∀ (t : QTree α) (p : List Bool),
      inorder (qct_insert_rebalance t p).1 = inorder t := by
  intro t
  induction t with
  | qnil => intro p; cases p <;> rfl
  | qnode l v b s r ihl ihr =>
    intro p
    cases p with
    | nil => rfl
    | cons d p2 =>
      cases d with
      | false =>
        have hl : inorder (qct_insert_rebalance l p2).1 = inorder l := ihl p2
        rcases hres : qct_insert_rebalance l p2 with ⟨l2, g2, c2⟩
        rw [hres] at hl
        replace hl : inorder l2 = inorder l := hl
        simp only [qct_insert_rebalance, hres]
        cases g2 with
        | true =>
          rw [if_pos rfl]
          show inorder (insStepL l2 v b s r).1 = _
          rw [insStepL_inorder]
          show inorder l2 ++ v :: inorder r = inorder l ++ v :: inorder r
          rw [hl]
        | false =>
          rw [if_neg (Bool.noConfusion : ¬ false = true)]
          show inorder l2 ++ v :: inorder r = inorder l ++ v :: inorder r
          rw [hl]
      | true =>
        have hr : inorder (qct_insert_rebalance r p2).1 = inorder r := ihr p2
        rcases hres : qct_insert_rebalance r p2 with ⟨r2, g2, c2⟩
        rw [hres] at hr
        replace hr : inorder r2 = inorder r := hr
        simp only [qct_insert_rebalance, hres]
        cases g2 with
        | true =>
          rw [if_pos rfl]
          show inorder (insStepR l v b s r2).1 = _
          rw [insStepR_inorder]
          show inorder l ++ v :: inorder r2 = inorder l ++ v :: inorder r
          rw [hr]
        | false =>
          rw [if_neg (Bool.noConfusion : ¬ false = true)]
          show inorder l ++ v :: inorder r2 = inorder l ++ v :: inorder r
          rw [hr]

/-- The placement pass splits the in-order sequence at the insertion point;
the descent path is all-left exactly when the new node lands first in order,
and all-right exactly when it lands last. -/
theorem insert_place_inorder {α : Type} (lt : α → α → Bool) (x : α) :
    ∀ t : QTree α, ∃ A B, inorder t = A ++ B ∧
      inorder (qct_insert lt x t).1 = A ++ x :: B ∧
      ((qct_insert lt x t).2.all (fun d => !d) = true ↔ A = []) ∧
      ((qct_insert lt x t).2.all (fun d => d) = true ↔ B = []) := by
  intro t
  induction t with
  | qnil => exact ⟨[], [], rfl, rfl, by simp [qct_insert], by simp [qct_insert]⟩
  | qnode l v b s r ihl ihr =>
    cases hlt : lt v x with
    | true =>
      obtain ⟨A, B, h1, h2, h3, h4⟩ := ihr
      have e1 : qct_insert lt x (qnode l v b s r) =
          (qnode l v b (s + 1) (qct_insert lt x r).1,
            true :: (qct_insert lt x r).2) := by
        simp [qct_insert, hlt]
      refine ⟨inorder l ++ v :: A, B, ?_, ?_, ?_, ?_⟩
      · show inorder l ++ v :: inorder r = _
        rw [h1]
        simp
      · rw [e1]
        show inorder l ++ v :: inorder (qct_insert lt x r).1 = _
        rw [h2]
        simp
      · rw [e1]
        constructor
        · intro hall
          simp at hall
        · intro hA
          exact absurd hA (by simp)
      · rw [e1]
        show ((true :: (qct_insert lt x r).2).all (fun d => d) = true) ↔ B = []
        simp only [List.all_cons, Bool.true_and]
        exact h4
    | false =>
      obtain ⟨A, B, h1, h2, h3, h4⟩ := ihl
      have e1 : qct_insert lt x (qnode l v b s r) =
          (qnode (qct_insert lt x l).1 v b (s + 1) r,
            false :: (qct_insert lt x l).2) := by
        simp [qct_insert, hlt]
      refine ⟨A, B ++ v :: inorder r, ?_, ?_, ?_, ?_⟩
      · show inorder l ++ v :: inorder r = _
        rw [h1]
        simp
      · rw [e1]
        show inorder (qct_insert lt x l).1 ++ v :: inorder r = _
        rw [h2]
        simp
      · rw [e1]
        show ((false :: (qct_insert lt x l).2).all (fun d => !d) = true) ↔
          A = []
        simp only [List.all_cons, Bool.not_false, Bool.true_and]
        exact h3
      · rw [e1]
        constructor
        · intro hall
          simp at hall
        · intro hB
          exact absurd hB (by simp)

theorem inorder_eq_nil {α : Type} :
    ∀ t : QTree α, inorder t = [] ↔ t = qnil := by
  intro t
  cases t with
  | qnil => simp [inorder]
  | qnode l v b s r => simp [inorder]

theorem minVal_eq_head {α : Type} :
    ∀ t : QTree α, minVal? t = (inorder t).head? := by
  intro t
  induction t with
  | qnil => rfl
  | qnode l v b s r ihl _ =>
    cases l with
    | qnil => rfl
    | qnode a w c d e =>
      show minVal? (qnode a w c d e) = _
      rw [ihl]
      show (inorder (qnode a w c d e)).head? =
        (inorder (qnode a w c d e) ++ v :: inorder r).head?
      cases hio : inorder (qnode a w c d e) with
      | nil => exact absurd hio (by simp [inorder])
      | cons c0 cs => simp

theorem maxVal_eq_getLast {α : Type} :
    ∀ t : QTree α, maxVal? t = (inorder t).getLast? := by
  intro t
  induction t with
  | qnil => rfl
  | qnode l v b s r _ ihr =>
    cases r with
    | qnil =>
      show some v = (inorder l ++ v :: inorder (qnil : QTree α)).getLast?
      rw [show inorder (qnil : QTree α) = [] from rfl,
        List.getLast?_concat]
    | qnode a w c d e =>
      show maxVal? (qnode a w c d e) = _
      rw [ihr]
      show (inorder (qnode a w c d e)).getLast? =
        (inorder l ++ v :: inorder (qnode a w c d e)).getLast?
      cases hio : inorder (qnode a w c d e) with
      | nil => exact absurd hio (by simp [inorder])
      | cons c0 cs =>
        cases hgl : (c0 :: cs).getLast? with
        | none => simp at hgl
        | some z => simp [hgl]

theorem valAt_mem {α : Type} :
    ∀ (t : QTree α) (p : List Bool) (v : α), valAt? t p = some v →
      v ∈ inorder t := by
  intro t
  induction t with
  | qnil =>
    intro p v h
    exact absurd h (by cases p <;> simp [valAt?, subtreeAt])
  | qnode l w b s r ihl ihr =>
    intro p v h
    cases p with
    | nil =>
      have : w = v := by injection h
      subst this
      simp [inorder]
    | cons d p2 =>
      cases d with
      | false =>
        have h2 : valAt? l p2 = some v := h
        simp only [inorder, List.mem_append]
        exact Or.inl (ihl p2 v h2)
      | true =>
        have h2 : valAt? r p2 = some v := h
        simp only [inorder, List.mem_append, List.mem_cons]
        exact Or.inr (Or.inr (ihr p2 v h2))

theorem pathToVal_mem {α : Type} [DecidableEq α] :
    ∀ (t : QTree α) (v : α) (p : List Bool), pathToVal t v = some p →
      v ∈ inorder t := by
  intro t
  induction t with
  | qnil => intro v p h; exact absurd h (by simp [pathToVal])
  | qnode l w b s r ihl ihr =>
    intro v p h
    by_cases hw : w = v
    · subst hw
      simp [inorder]
    · simp only [pathToVal, if_neg hw] at h
      simp only [inorder, List.mem_append, List.mem_cons]
      cases hpl : pathToVal l v with
      | some pl => exact Or.inl (ihl v pl hpl)
      | none =>
        rw [hpl] at h
        cases hpr : pathToVal r v with
        | some pr => exact Or.inr (Or.inr (ihr v pr hpr))
        | none =>
          rw [hpr] at h
          exact absurd h (by simp)

theorem pathToVal_complete {α : Type} [DecidableEq α] :
    ∀ (t : QTree α) (p : List Bool) (v : α), (inorder t).Nodup →
      valAt? t p = some v → pathToVal t v = some p := by
  intro t
  induction t with
  | qnil =>
    intro p v _ h
    exact absurd h (by cases p <;> simp [valAt?, subtreeAt])
  | qnode l w b s r ihl ihr =>
    intro p v hnd h
    simp only [inorder] at hnd
    rw [List.nodup_append] at hnd
    obtain ⟨hndL, hndR, hdisj⟩ := hnd
    rw [List.nodup_cons] at hndR
    obtain ⟨hwR, hndR⟩ := hndR
    cases p with
    | nil =>
      have : w = v := by injection h
      subst this
      simp [pathToVal]
    | cons d p2 =>
      cases d with
      | false =>
        have h2 : valAt? l p2 = some v := h
        have hmem : v ∈ inorder l := valAt_mem l p2 v h2
        have hw : w ≠ v := by
          intro he
          subst he
          exact hdisj hmem (List.mem_cons_self w (inorder r))
        simp [pathToVal, hw, ihl p2 v hndL h2]
      | true =>
        have h2 : valAt? r p2 = some v := h
        have hmem : v ∈ inorder r := valAt_mem r p2 v h2
        have hw : w ≠ v := by
          intro he
          subst he
          exact hwR hmem
        have hnl : pathToVal l v = none := by
          cases hpl : pathToVal l v with
          | none => rfl
          | some pl =>
            have hvl : v ∈ inorder l := pathToVal_mem l v pl hpl
            exact absurd (hdisj hvl (List.mem_cons_of_mem w hmem)) (fun h => h)
        simp [pathToVal, hw, hnl, ihr p2 v hndR h2]

theorem maxPath_valid {α : Type} :
    ∀ t : QTree α, t ≠ qnil → isValidPath t (maxPath t) = true := by
  intro t
  induction t with
  | qnil => intro h; exact absurd rfl h
  | qnode l v b s r _ ihr =>
    intro _
    cases r with
    | qnil => rfl
    | qnode a w c d e => exact ihr (by simp)

theorem valAt_minPath {α : Type} :
    ∀ t : QTree α, valAt? t (minPath t) = minVal? t := by
  intro t
  induction t with
  | qnil => rfl
  | qnode l v b s r ihl _ =>
    cases l with
    | qnil => rfl
    | qnode a w c d e => exact ihl

theorem valAt_maxPath {α : Type} :
    ∀ t : QTree α, valAt? t (maxPath t) = maxVal? t := by
  intro t
  induction t with
  | qnil => rfl
  | qnode l v b s r _ ihr =>
    cases r with
    | qnil => rfl
    | qnode a w c d e => exact ihr

theorem szf_pos {α : Type} :
    ∀ t : QTree α, SizeOk t → t ≠ qnil → 1 ≤ szf t := by
  intro t hs hne
  cases t with
  | qnil => exact absurd rfl hne
  | qnode l v b s r =>
    obtain ⟨hss, _, _⟩ := hs
    show 1 ≤ s
    omega

theorem dfbAux_minPath {α : Type} :
    ∀ t : QTree α, dfbAux t (minPath t) = 0 := by
  intro t
  induction t with
  | qnil => rfl
  | qnode l v b s r ihl _ =>
    cases l with
    | qnil => rfl
    | qnode a w c d e => exact ihl

theorem dfbAux_maxPath {α : Type} :
    ∀ t : QTree α, SizeOk t → t ≠ qnil →
      dfbAux t (maxPath t) = szf t - 1 := by
  intro t
  induction t with
  | qnil => intro _ h; exact absurd rfl h
  | qnode l v b s r _ ihr =>
    intro hs _
    obtain ⟨hss, hsl, hsr⟩ := hs
    cases r with
    | qnil =>
      show szf l = s - 1
      have h0 : szf (qnil : QTree α) = 0 := rfl
      omega
    | qnode a w c d e =>
      show (s - szf (qnode a w c d e)) +
        dfbAux (qnode a w c d e) (maxPath (qnode a w c d e)) = s - 1
      rw [ihr hsr (by simp)]
      have h1 : 1 ≤ szf (qnode a w c d e) := szf_pos _ hsr (by simp)
      omega

/-- In-order decomposition around the subtree a valid path points to; the
prefix is empty exactly for an all-left path and the suffix is empty exactly
for an all-right path. -/
theorem subtree_inorder_decomp {α : Type} :
    ∀ (t : QTree α) (p : List Bool), isValidPath t p = true →
      ∃ U V, inorder t = U ++ inorder (subtreeAt t p) ++ V ∧
        (U = [] ↔ p.all (fun d => !d) = true) ∧
        (V = [] ↔ p.all (fun d => d) = true) := by
  intro t
  induction t with
  | qnil => intro p hv; exact absurd hv (by simp [isValidPath])
  | qnode l v b s r ihl ihr =>
    intro p hv
    cases p with
    | nil => exact ⟨[], [], by simp [subtreeAt], by simp, by simp⟩
    | cons d p2 =>
      cases d with
      | false =>
        obtain ⟨U, V, h1, h2, h3⟩ := ihl p2 hv
        refine ⟨U, V ++ v :: inorder r, ?_, ?_, ?_⟩
        · show inorder l ++ v :: inorder r =
            U ++ inorder (subtreeAt l p2) ++ (V ++ v :: inorder r)
          rw [h1]
          simp
        · rw [h2]
          simp
        · constructor
          · intro hV
            exact absurd hV (by simp)
          · intro hall
            simp at hall
      | true =>
        obtain ⟨U, V, h1, h2, h3⟩ := ihr p2 hv
        refine ⟨inorder l ++ v :: U, V, ?_, ?_, ?_⟩
        · show inorder l ++ v :: inorder r =
            (inorder l ++ v :: U) ++ inorder (subtreeAt r p2) ++ V
          rw [h1]
          simp
        · constructor
          · intro hU
            exact absurd hU (by simp)
          · intro hall
            simp at hall
        · rw [h3]
          simp

/-- In a duplicate-free list, the split around an occurrence is unique. -/
theorem nodup_middle_unique {α : Type} :
    ∀ (A : List α) (z : α) (B W Y : List α),
      (A ++ z :: B).Nodup → A ++ z :: B = W ++ z :: Y →
      A = W ∧ B = Y := by
  intro A
  induction A with
  | nil =>
    intro z B W Y hnd heq
    cases W with
    | nil =>
      have heq2 : z :: B = z :: Y := heq
      injection heq2 with _ h
      exact ⟨rfl, h⟩
    | cons w W2 =>
      have heq2 : z :: B = w :: (W2 ++ z :: Y) := heq
      injection heq2 with hz hB
      have hnd2 : (z :: B).Nodup := hnd
      rw [List.nodup_cons] at hnd2
      exact absurd (by rw [hB]; simp : z ∈ B) hnd2.1
  | cons a A2 ih =>
    intro z B W Y hnd heq
    cases W with
    | nil =>
      have heq2 : a :: (A2 ++ z :: B) = z :: Y := heq
      injection heq2 with hz hrest
      have hnd2 : (a :: (A2 ++ z :: B)).Nodup := hnd
      rw [List.nodup_cons] at hnd2
      subst hz
      exact absurd (by simp : a ∈ A2 ++ a :: B) hnd2.1
    | cons w W2 =>
      have heq2 : a :: (A2 ++ z :: B) = w :: (W2 ++ z :: Y) := heq
      injection heq2 with haw hrest
      have hnd2 : (a :: (A2 ++ z :: B)).Nodup := hnd
      rw [List.nodup_cons] at hnd2
      obtain ⟨h1, h2⟩ := ih z B W2 Y hnd2.2 hrest
      exact ⟨by rw [haw, h1], h2⟩

theorem maxPath_of_allTrue {α : Type} :
    ∀ (t : QTree α) (p : List Bool), isValidPath t p = true →
      p.all (fun d => d) = true → rightOf (subtreeAt t p) = qnil →
      p = maxPath t := by
  intro t
  induction t with
  | qnil => intro p hv; exact absurd hv (by simp [isValidPath])
  | qnode l v b s r _ ihr =>
    intro p hv hall hro
    cases p with
    | nil =>
      have : r = qnil := hro
      subst this
      rfl
    | cons d p2 =>
      cases d with
      | false => simp at hall
      | true =>
        have hv2 : isValidPath r p2 = true := hv
        have hall2 : p2.all (fun d => d) = true := by
          simp only [List.all_cons] at hall
          simpa using hall
        have hro2 : rightOf (subtreeAt r p2) = qnil := hro
        cases r with
        | qnil => exact absurd hv2 (by simp [isValidPath])
        | qnode a w c d0 e =>
          show true :: p2 = true :: maxPath (qnode a w c d0 e)
          rw [ihr p2 hv2 hall2 hro2]

theorem all_dropLast {α : Type} (f : α → Bool) :
    ∀ p : List α, p.all f = true → p.dropLast.all f = true := by
  intro p hall
  rw [List.all_eq_true] at hall ⊢
  intro x hx
  exact hall x (List.dropLast_subset p hx)

theorem minVal_subtreeAt_allFalse {α : Type} :
    ∀ (t : QTree α) (q : List Bool), isValidPath t q = true →
      q.all (fun d => !d) = true →
      minVal? (subtreeAt t q) = minVal? t := by
  intro t
  induction t with
  | qnil => intro q hv; exact absurd hv (by simp [isValidPath])
  | qnode l v b s r ihl _ =>
    intro q hv hall
    cases q with
    | nil => rfl
    | cons d q2 =>
      cases d with
      | true => simp at hall
      | false =>
        have hv2 : isValidPath l q2 = true := hv
        have hall2 : q2.all (fun d => !d) = true := by
          simp only [List.all_cons] at hall
          simpa using hall
        cases l with
        | qnil => exact absurd hv2 (by simp [isValidPath])
        | qnode a w c d0 e =>
          show minVal? (subtreeAt (qnode a w c d0 e) q2) =
            minVal? (qnode a w c d0 e)
          exact ihl q2 hv2 hall2

/-- Splicing out the leftmost node (an all-left path to a node with no left
child, i.e. `bst_erase`'s first branch on the minimum) drops the head of the
in-order sequence, and the erased node's old parent position stays a valid
position of the spliced tree. -/
theorem splice_leftmost {α : Type} :
    ∀ (t : QTree α) (p : List Bool), isValidPath t p = true →
      p.all (fun d => !d) = true →
      leftOf (subtreeAt t p) = qnil →
      inorder (bst_splice t p) = (inorder t).tail ∧
      (p ≠ [] → isValidPath (bst_splice t p) p.dropLast = true) := by
  intro t
  induction t with
  | qnil => intro p hv; exact absurd hv (by simp [isValidPath])
  | qnode l v b s r ihl _ =>
    intro p hv hall hlo
    cases p with
    | nil =>
      have hl : l = qnil := hlo
      subst hl
      refine ⟨?_, fun h => absurd rfl h⟩
      show inorder (bst_splice (qnode qnil v b s r) []) =
        (inorder qnil ++ v :: inorder r).tail
      cases r <;> rfl
    | cons d p2 =>
      cases d with
      | true => simp at hall
      | false =>
        have hv2 : isValidPath l p2 = true := hv
        have hall2 : p2.all (fun d => !d) = true := by
          simp only [List.all_cons] at hall
          simpa using hall
        have hlo2 : leftOf (subtreeAt l p2) = qnil := hlo
        obtain ⟨ih1, ih2⟩ := ihl p2 hv2 hall2 hlo2
        have hlne : l ≠ qnil := by
          intro he
          rw [he] at hv2
          exact absurd hv2 (by simp [isValidPath])
        constructor
        · show inorder (bst_splice l p2) ++ v :: inorder r =
            (inorder l ++ v :: inorder r).tail
          rw [ih1]
          cases hio : inorder l with
          | nil => exact absurd ((inorder_eq_nil l).mp hio) hlne
          | cons c0 cs => simp
        · intro _
          cases p2 with
          | nil => rfl
          | cons x xs =>
            show isValidPath (qnode (bst_splice l (x :: xs)) v b s r)
              (false :: (x :: xs).dropLast) = true
            show isValidPath (bst_splice l (x :: xs)) (x :: xs).dropLast = true
            exact ih2 (by simp)

theorem reachSafe_reach {α : Type} [DecidableEq α] (lt : α → α → Bool) :
    ∀ q : QCT α, ReachSafe lt q → Reach lt q := by
  intro q h
  induction h with
  | empty => exact Reach.empty
  | @ins q x _ hx ih => exact Reach.ins ih hx
  | @del q p _ hv _ ih => exact Reach.del ih hv

/-- All stored elements of a reachable tree are distinct: a node object may
only be inserted while not a member, and each node holds one element. -/
theorem reach_nodup {α : Type} [DecidableEq α] (lt : α → α → Bool) :
    ∀ q : QCT α, Reach lt q → (inorder q.root).Nodup := by
  intro q h
  induction h with
  | empty => exact List.nodup_nil
  | @ins q x _ hx ih =>
    obtain ⟨A, B, h1, h2, h3, h4⟩ := insert_place_inorder lt x q.root
    have hroot : inorder (QCT.insert lt x q).root = A ++ x :: B := by
      show inorder (qct_insert_rebalance (qct_insert lt x q.root).1
        (qct_insert lt x q.root).2).1 = _
      rw [insRebal_inorder, h2]
    rw [hroot, List.nodup_middle, List.nodup_cons]
    rw [h1] at ih
    refine ⟨?_, ih⟩
    rw [← h1]
    exact hx
  | @del q p hr hv ih =>
    obtain ⟨hB, hS, _⟩ := reach_invariant lt q hr
    obtain ⟨z, hz⟩ := valAt_isSome_of_valid q.root p hv
    rcases hqe : qct_erase q.root p with ⟨t2, dec, cnt⟩
    have spec := erase_spec q.root hB hS p hv t2 dec cnt hqe
    obtain ⟨_, _, _, _, _, ⟨A, B, z2, _, hio1, hio2⟩, _⟩ := spec
    have hroot : (QCT.erase q p).root = t2 := by
      unfold QCT.erase
      rw [hz]
      show (qct_erase q.root p).1 = t2
      rw [hqe]
    rw [hroot]
    have hsub : List.Sublist (inorder t2) (inorder q.root) := by
      rw [hio1, hio2]
      exact List.Sublist.append_left ((List.Sublist.refl B).cons z2) A
    exact List.Nodup.sublist hsub ih

theorem subtree_shape_of_valAt {α : Type} (t : QTree α) (p : List Bool)
    (z : α) (h : valAt? t p = some z) :
    ∃ lz bz sz rz, subtreeAt t p = qnode lz z bz sz rz := by
  unfold valAt? at h
  cases hsub : subtreeAt t p with
  | qnil => rw [hsub] at h; exact Option.noConfusion h
  | qnode lz z0 bz sz rz =>
    rw [hsub] at h
    have : z0 = z := by injection h
    subst this
    exact ⟨lz, bz, sz, rz, rfl⟩

theorem minVal_isSome {α : Type} (t : QTree α) (h : t ≠ qnil) :
    ∃ z, minVal? t = some z := by
  rw [minVal_eq_head]
  cases hio : inorder t with
  | nil => exact absurd ((inorder_eq_nil t).mp hio) h
  | cons c cs => exact ⟨c, rfl⟩

theorem maxVal_isSome {α : Type} (t : QTree α) (h : t ≠ qnil) :
    ∃ z, maxVal? t = some z := by
  rw [maxVal_eq_getLast]
  cases hgl : (inorder t).getLast? with
  | none =>
    rw [List.getLast?_eq_none_iff] at hgl
    exact absurd ((inorder_eq_nil t).mp hgl) h
  | some c => exact ⟨c, rfl⟩

theorem valid_ne_qnil {α : Type} (t : QTree α) (p : List Bool)
    (h : isValidPath t p = true) : t ≠ qnil := by
  intro he
  rw [he] at h
  exact absurd h (by simp [isValidPath])

/-- Header-cache correctness on the safe reachable states: `leftmost()`
points at the minimum, `rightmost()` at the maximum, and both are null (the
default-constructed value — not the header) exactly on the empty tree. -/
theorem reachSafe_caches {α : Type} [DecidableEq α] (lt : α → α → Bool) :
    ∀ q : QCT α, ReachSafe lt q →
    (q.root = qnil → q.lm = HPtr.hnull ∧ q.rm = HPtr.hnull) ∧
    (∀ z, minVal? q.root = some z → q.lm = HPtr.helem z) ∧
    (∀ z, maxVal? q.root = some z → q.rm = HPtr.helem z) := by
  intro q h
  induction h with
  | empty =>
    refine ⟨fun _ => ⟨rfl, rfl⟩, ?_, ?_⟩ <;>
      exact fun z h => Option.noConfusion h
  | @ins q x _ hx ih =>
    obtain ⟨ih1, ih2, ih3⟩ := ih
    obtain ⟨A, B, h1, h2, h3, h4⟩ := insert_place_inorder lt x q.root
    have hroot : inorder (QCT.insert lt x q).root = A ++ x :: B := by
      show inorder (qct_insert_rebalance (qct_insert lt x q.root).1
        (qct_insert lt x q.root).2).1 = _
      rw [insRebal_inorder, h2]
    have hlm : (QCT.insert lt x q).lm =
        if (qct_insert lt x q.root).2.all (fun d => !d) then HPtr.helem x
        else q.lm := rfl
    have hrm : (QCT.insert lt x q).rm =
        if (qct_insert lt x q.root).2.all (fun d => d) then HPtr.helem x
        else q.rm := rfl
    refine ⟨?_, ?_, ?_⟩
    · intro he
      rw [he] at hroot
      exact absurd hroot.symm (by simp [inorder])
    · intro m hm
      rw [minVal_eq_head, hroot] at hm
      by_cases hAF : (qct_insert lt x q.root).2.all (fun d => !d) = true
      · have hA : A = [] := h3.mp hAF
        subst hA
        have hxm : x = m := by
          have h5 : (x :: B).head? = some m := hm
          injection h5
        rw [hlm, if_pos hAF, hxm]
      · cases hA : A with
        | nil => exact absurd (h3.mpr hA) hAF
        | cons a A2 =>
          rw [hA] at hm
          have ham : a = m := by
            have h5 : (a :: (A2 ++ x :: B)).head? = some m := hm
            injection h5
          have hold : minVal? q.root = some a := by
            rw [minVal_eq_head, h1, hA]
            rfl
          rw [hlm, if_neg hAF, ← ham]
          exact ih2 a hold
    · intro m hm
      rw [maxVal_eq_getLast, hroot] at hm
      by_cases hAT : (qct_insert lt x q.root).2.all (fun d => d) = true
      · have hB : B = [] := h4.mp hAT
        subst hB
        have hxm : x = m := by
          rw [List.getLast?_concat] at hm
          injection hm
        rw [hrm, if_pos hAT, hxm]
      · cases hB : B with
        | nil => exact absurd (h4.mpr hB) hAT
        | cons b B2 =>
          rw [hB] at hm
          obtain ⟨c, hgl⟩ : ∃ c, (b :: B2).getLast? = some c := by
            cases hgl0 : (b :: B2).getLast? with
            | none => simp at hgl0
            | some c => exact ⟨c, rfl⟩
          have hcm : c = m := by
            rw [List.getLast?_append, List.getLast?_cons_cons, hgl] at hm
            have h5 : some c = some m := hm
            injection h5
          have hold : maxVal? q.root = some c := by
            rw [maxVal_eq_getLast, h1, hB, List.getLast?_append, hgl]
            rfl
          rw [hrm, if_neg hAT, ← hcm]
          exact ih3 c hold
  | @del q p _ hv hsafe ih =>
    rename_i hr
    obtain ⟨ih1, ih2, ih3⟩ := ih
    have hreach := reachSafe_reach lt q hr
    obtain ⟨hB0, hS0, _⟩ := reach_invariant lt q hreach
    have hnd := reach_nodup lt q hreach
    obtain ⟨z, hz⟩ := valAt_isSome_of_valid q.root p hv
    obtain ⟨lz, bz, sz, rz, hshape⟩ := subtree_shape_of_valAt q.root p z hz
    rcases hqe : qct_erase q.root p with ⟨t2, dec, cnt⟩
    have spec := erase_spec q.root hB0 hS0 p hv t2 dec cnt hqe
    obtain ⟨_, _, _, _, _, ⟨A, B, z2, hz2, hio1, hio2⟩, _⟩ := spec
    have hzz : z = z2 := by
      rw [hz] at hz2
      injection hz2
    subst hzz
    have hroot : (QCT.erase q p).root = t2 := by
      unfold QCT.erase
      rw [hz]
      show (qct_erase q.root p).1 = t2
      rw [hqe]
    have hlm : (QCT.erase q p).lm =
        (if leftOf (subtreeAt q.root p) = qnil ∧ q.lm = HPtr.helem z then
          (if p = [] then q.lm
           else match minVal? (subtreeAt (bst_splice q.root p) p.dropLast) with
             | some w => HPtr.helem w
             | none => HPtr.hnull)
         else q.lm) := by
      unfold QCT.erase
      rw [hz]
    have hrm : (QCT.erase q p).rm =
        (if leftOf (subtreeAt q.root p) ≠ qnil ∧
            rightOf (subtreeAt q.root p) = qnil ∧ q.rm = HPtr.helem z then
          (match maxVal? (leftOf (subtreeAt q.root p)) with
            | some w => HPtr.helem w
            | none => q.rm)
         else q.rm) := by
      unfold QCT.erase
      rw [hz]
    obtain ⟨U, V, hdec, hUiff, hViff⟩ := subtree_inorder_decomp q.root p hv
    rw [hshape] at hdec
    have hdec2 : inorder q.root = (U ++ inorder lz) ++ z :: (inorder rz ++ V) := by
      rw [hdec]
      simp [inorder]
    have huniq := nodup_middle_unique A z B (U ++ inorder lz) (inorder rz ++ V)
      (hio1 ▸ hnd) (hio1.symm.trans hdec2)
    have ht2ne : t2 ≠ qnil := by
      intro he
      have hioe : A ++ B = [] := by
        rw [← hio2, he]
        rfl
      rw [List.append_eq_nil] at hioe
      obtain ⟨hA, hBe⟩ := hioe
      subst hA
      subst hBe
      rcases hq0 : q.root with _ | ⟨l0, v0, b0, s0, r0⟩
      · rw [hq0] at hv
        exact absurd hv (by simp [isValidPath])
      · rw [hq0] at hio1 hv hsafe
        have hio1b : inorder l0 ++ v0 :: inorder r0 = [z] := by
          simpa [inorder] using hio1
        cases hiol : inorder l0 with
        | cons c cs =>
          rw [hiol] at hio1b
          simp at hio1b
        | nil =>
          rw [hiol] at hio1b
          simp at hio1b
          obtain ⟨hv0, hr0⟩ := hio1b
          have hl0 : l0 = qnil := (inorder_eq_nil l0).mp hiol
          have hr0n : r0 = qnil := (inorder_eq_nil r0).mp hr0
          subst hl0
          subst hr0n
          cases p with
          | cons d p2 =>
            cases d with
            | false => exact absurd hv (by simp [isValidPath])
            | true => exact absurd hv (by simp [isValidPath])
          | nil =>
            obtain ⟨hlne, _⟩ := hsafe.1 rfl
            exact hlne rfl
    refine ⟨?_, ?_, ?_⟩
    · intro he
      rw [hroot] at he
      exact absurd he ht2ne
    · intro m hm
      rw [hroot] at hm
      rw [minVal_eq_head, hio2] at hm
      by_cases hguard : leftOf (subtreeAt q.root p) = qnil ∧
          q.lm = HPtr.helem z
      · have hlzn : lz = qnil := by
          have h5 := hguard.1
          rw [hshape] at h5
          exact h5
        subst hlzn
        have hA : A = [] := by
          cases hA0 : A with
          | nil => rfl
          | cons a A2 =>
            have hold : minVal? q.root = some a := by
              rw [minVal_eq_head, hio1, hA0]
              rfl
            have hql : q.lm = HPtr.helem a := ih2 a hold
            have haz : a = z := by
              have h5 := hql.symm.trans hguard.2
              injection h5
            subst haz
            have hndz : ((a :: A2) ++ a :: B).Nodup := by
              rw [hA0] at hio1
              exact hio1 ▸ hnd
            have hndz2 : (a :: (A2 ++ a :: B)).Nodup := hndz
            rw [List.nodup_cons] at hndz2
            exact absurd (by simp : a ∈ A2 ++ a :: B) hndz2.1
        subst hA
        have hU : U = [] := by
          have h5 : U ++ inorder (qnil : QTree α) = [] := huniq.1.symm
          rw [List.append_eq_nil] at h5
          exact h5.1
        have hallf : p.all (fun d => !d) = true := hUiff.mp hU
        have hpne : p ≠ [] := by
          intro hpe
          obtain ⟨hlne, _⟩ := hsafe.1 hpe
          rw [hpe] at hshape
          have hq0 : q.root = qnode qnil z bz sz rz := by
            rw [← hshape]
            cases q.root <;> rfl
          exact hlne (by rw [hq0]; rfl)
        obtain ⟨hsp1, hsp2⟩ := splice_leftmost q.root p hv hallf
          (by rw [hshape]; rfl)
        have hmin2 : minVal? (subtreeAt (bst_splice q.root p) p.dropLast) =
            some m := by
          rw [minVal_subtreeAt_allFalse _ _ (hsp2 hpne)
            (all_dropLast _ p hallf)]
          rw [minVal_eq_head, hsp1, hio1]
          exact hm
        rw [hlm, if_pos hguard, if_neg hpne, hmin2]
      · rw [hlm, if_neg hguard]
        cases hA0 : A with
        | cons a A2 =>
          rw [hA0] at hm
          have ham : a = m := by
            have h5 : (a :: (A2 ++ B)).head? = some m := hm
            injection h5
          have hold : minVal? q.root = some a := by
            rw [minVal_eq_head, hio1, hA0]
            rfl
          rw [← ham]
          exact ih2 a hold
        | nil =>
          have hold : minVal? q.root = some z := by
            rw [minVal_eq_head, hio1, hA0]
            rfl
          have hql : q.lm = HPtr.helem z := ih2 z hold
          have hUL : U ++ inorder lz = [] := by
            rw [hA0] at huniq
            exact huniq.1.symm
          rw [List.append_eq_nil] at hUL
          have hlz : lz = qnil := (inorder_eq_nil lz).mp hUL.2
          exact absurd ⟨by rw [hshape, hlz]; rfl, hql⟩ hguard
    · intro m hm
      rw [hroot] at hm
      rw [maxVal_eq_getLast, hio2] at hm
      by_cases hguard : leftOf (subtreeAt q.root p) ≠ qnil ∧
          rightOf (subtreeAt q.root p) = qnil ∧ q.rm = HPtr.helem z
      · obtain ⟨hlne, hrnil, hrmz⟩ := hguard
        have hrzn : rz = qnil := by
          rw [hshape] at hrnil
          exact hrnil
        subst hrzn
        have hlzn : lz ≠ qnil := fun he => hlne (by rw [hshape, he]; rfl)
        have hB : B = [] := by
          cases hB0 : B with
          | nil => rfl
          | cons b B2 =>
            obtain ⟨c, hgl⟩ : ∃ c, (b :: B2).getLast? = some c := by
              cases hgl0 : (b :: B2).getLast? with
              | none => simp at hgl0
              | some c => exact ⟨c, rfl⟩
            have hold : maxVal? q.root = some c := by
              rw [maxVal_eq_getLast, hio1, hB0, List.getLast?_append,
                List.getLast?_cons_cons, hgl]
              rfl
            have hqr : q.rm = HPtr.helem c := ih3 c hold
            have hcz : c = z := by
              have h5 := hqr.symm.trans hrmz
              injection h5
            have hzmem : z ∈ b :: B2 := by
              rw [hcz] at hgl
              rw [List.getLast?_eq_some_iff] at hgl
              obtain ⟨ys, hys⟩ := hgl
              rw [hys]
              simp
            have hndz : (A ++ z :: B).Nodup := hio1 ▸ hnd
            rw [List.nodup_middle, List.nodup_cons] at hndz
            exact absurd (by rw [hB0]; simp [hzmem] : z ∈ A ++ B) hndz.1
        subst hB
        obtain ⟨w, hw⟩ := maxVal_isSome lz hlzn
        have hAeq : A = U ++ inorder lz := huniq.1
        have hlzio : inorder lz ≠ [] := fun he =>
          hlzn ((inorder_eq_nil lz).mp he)
        have hwm : w = m := by
          have hm2 : A.getLast? = some m := by simpa using hm
          have hwgl : (inorder lz).getLast? = some w := by
            rw [← maxVal_eq_getLast]
            exact hw
          rw [hAeq, List.getLast?_append, hwgl] at hm2
          have h5 : some w = some m := hm2
          injection h5
        rw [hrm, if_pos ⟨hlne, hrnil, hrmz⟩,
          show leftOf (subtreeAt q.root p) = lz from by rw [hshape]; rfl,
          hw, hwm]
      · rw [hrm, if_neg hguard]
        cases hB0 : B with
        | cons b B2 =>
          rw [hB0] at hm
          obtain ⟨c, hgl⟩ : ∃ c, (b :: B2).getLast? = some c := by
            cases hgl0 : (b :: B2).getLast? with
            | none => simp at hgl0
            | some c => exact ⟨c, rfl⟩
          have hcm : c = m := by
            rw [List.getLast?_append, hgl] at hm
            have h5 : some c = some m := hm
            injection h5
          have hold : maxVal? q.root = some c := by
            rw [maxVal_eq_getLast, hio1, hB0, List.getLast?_append,
              List.getLast?_cons_cons, hgl]
            rfl
          rw [← hcm]
          exact ih3 c hold
        | nil =>
          have hold : maxVal? q.root = some z := by
            rw [maxVal_eq_getLast, hio1, hB0, List.getLast?_concat]
          have hqr : q.rm = HPtr.helem z := ih3 z hold
          have hrV : inorder rz ++ V = [] := by
            rw [hB0] at huniq
            exact huniq.2.symm
          rw [List.append_eq_nil] at hrV
          have hrz : rz = qnil := (inorder_eq_nil rz).mp hrV.1
          have hV : V = [] := hrV.2
          by_cases hlz : lz = qnil
          · have hallt : p.all (fun d => d) = true := hViff.mp hV
            have hpmax : p = maxPath q.root :=
              maxPath_of_allTrue q.root p hv hallt (by rw [hshape, hrz]; rfl)
            have hlne := hsafe.2 hpmax
            exact absurd (by rw [hshape, hlz]; rfl) hlne
          · refine absurd ⟨?_, by rw [hshape, hrz]; rfl, hqr⟩ hguard
            intro he
            rw [hshape] at he
            exact hlz he

theorem reachSafe_c5safe : ReachSafe natLt c5safe :=
  ReachSafe.del (ReachSafe.ins (ReachSafe.ins (ReachSafe.ins
    ReachSafe.empty (by decide)) (by decide)) (by decide)) (by decide)
    ⟨fun _ => ⟨by decide, by decide⟩, fun hp => absurd hp (by decide)⟩

/-- **C5, counterexample.**  Erasing the childless maximum 2 from the
two-element tree {1, 2} runs the first branch of `bst_erase` (`!z->left_`),
which never touches `rightmost()`: afterwards the tree's only element — and
its maximum — is 1, yet `header_.right_` still holds the erased node 2.
(The erase is tree-structurally valid: node 2 sits at path `[true]`.) -/
theorem claim_C5_counterexample :
    Reach natLt c5state ∧
    maxVal? c5state.root = some 1 ∧
    c5state.rm = HPtr.helem 2 := by
  refine ⟨Reach.del (Reach.ins (Reach.ins Reach.empty (by decide))
    (by decide)) (by decide), by decide, by decide⟩

/-- **C5, amended.**  Restricted to erases that keep the caches live (the
erased node is neither the root of a tree with fewer than two root children
nor a childless maximum — `ReachSafe`): `leftmost()` (`header_.left_`)
points at the minimum real element and `rightmost()` (`header_.right_`) at
the maximum, and on the empty tree both caches are the *null pointer* of the
default-constructed header — not the header itself, as the original sentence
claims.  (`header_.parent_` is the model's root field, so "header.parent =
real root, or null if empty" holds by construction of the state record.) -/
theorem claim_C5_sentinel_caches_amended {α : Type} [DecidableEq α]
    (lt : α → α → Bool) (q : QCT α) (h : ReachSafe lt q) :
    (q.root = qnil → q.lm = HPtr.hnull ∧ q.rm = HPtr.hnull) ∧
    (∀ z, minVal? q.root = some z → q.lm = HPtr.helem z) ∧
    (∀ z, maxVal? q.root = some z → q.rm = HPtr.helem z) :=
  reachSafe_caches lt q h

theorem claim_C5_witness :
    (c5safe.root = qnil → c5safe.lm = HPtr.hnull ∧ c5safe.rm = HPtr.hnull) ∧
    (∀ z, minVal? c5safe.root = some z → c5safe.lm = HPtr.helem z) ∧
    (∀ z, maxVal? c5safe.root = some z → c5safe.rm = HPtr.helem z) :=
  claim_C5_sentinel_caches_amended natLt c5safe reachSafe_c5safe

/-- **C6, counterexample** (pointer-level model).  Insert the caller-owned
nodes 1, 2, 3 (ids = payloads) and erase the childless maximum 3 through the
transcribed pointer operations; the erased node's record stays in the heap
with its stale fields, exactly like the caller-owned storage in the C++.
The tree now holds {1, 2} (`size() = 2`), but `header_.right_` still points
at the erased node 3, whose stale `parent_` leads back into the tree: the
header case of `node::distance_from_begin` computes
`header_.right_->distance_from_begin() + 1 = 1`, so
`distance_from_begin(end()) = 1 ≠ 2 = size()` and
`distance(begin(), end()) = 1 ≠ size()` (fuel 10 exceeds every loop's actual
iteration count on this 4-record heap, so the fueled loops have saturated). -/
theorem claim_C6_counterexample :
    c6heap = Heap.hErase (Heap.hInsert (Heap.hInsert (Heap.hInsert
      Heap.hempty natLt 1 1) natLt 2 2) natLt 3 3) 3 ∧
    Heap.hSize c6heap = 2 ∧
    Heap.hDfb c6heap 10 0 = 1 ∧
    Heap.hDistBeginEnd c6heap 10 = 1 ∧
    Heap.hDfb c6heap 10 0 ≠ Heap.hSize c6heap ∧
    Heap.hDistBeginEnd c6heap 10 ≠ (Heap.hSize c6heap : Int) :=
  ⟨rfl, by decide, by decide, by decide, by decide, by decide⟩

/-- **C6, amended.**  On the cache-safe reachable states (where the header
caches point at live extremes): `distance_from_begin` at `end()` (the
header) returns `size()`, at `begin()` returns 0 (on a nonempty tree —
on an empty tree `begin()` holds a null pointer and the C++ would
dereference it), and `distance(begin(), end()) = size()` (on the empty tree
via the null-pointer guard of `iterator_impl::distance`). -/
theorem claim_C6_rank_identities_amended {α : Type} [DecidableEq α]
    (lt : α → α → Bool) (q : QCT α) (h : ReachSafe lt q) :
    QCT.dfbEnd q = some (QCT.size q) ∧
    (q.root ≠ qnil → QCT.dfbBegin q = some 0) ∧
    QCT.distBeginEnd q = some ((QCT.size q : Int)) := by
  obtain ⟨qr, qlm, qrm⟩ := q
  obtain ⟨hc1, hc2, hc3⟩ := reachSafe_caches lt _ h
  have hreach := reachSafe_reach lt _ h
  obtain ⟨_, hS0, _⟩ := reach_invariant lt _ hreach
  have hnd := reach_nodup lt _ hreach
  by_cases hq0 : qr = qnil
  · subst hq0
    obtain ⟨hlmn, hrmn⟩ := hc1 rfl
    subst hlmn
    subst hrmn
    exact ⟨rfl, fun hne => absurd rfl hne, rfl⟩
  · obtain ⟨mn, hmn⟩ := minVal_isSome qr hq0
    obtain ⟨mx, hmx⟩ := maxVal_isSome qr hq0
    have hlm : qlm = HPtr.helem mn := hc2 mn hmn
    have hrm : qrm = HPtr.helem mx := hc3 mx hmx
    subst hlm
    subst hrm
    have hmnpath : pathToVal qr mn = some (minPath qr) :=
      pathToVal_complete qr (minPath qr) mn hnd
        (by rw [valAt_minPath]; exact hmn)
    have hmxpath : pathToVal qr mx = some (maxPath qr) :=
      pathToVal_complete qr (maxPath qr) mx hnd
        (by rw [valAt_maxPath]; exact hmx)
    have hone : 1 ≤ szf qr := szf_pos qr hS0 hq0
    have hdmax : dfbAux qr (maxPath qr) = szf qr - 1 :=
      dfbAux_maxPath qr hS0 hq0
    cases qr with
    | qnil => exact absurd rfl hq0
    | qnode l0 v0 b0 s0 r0 =>
      have hend : QCT.dfbEnd
          ⟨qnode l0 v0 b0 s0 r0, HPtr.helem mn, HPtr.helem mx⟩ =
          some (QCT.size
            ⟨qnode l0 v0 b0 s0 r0, HPtr.helem mn, HPtr.helem mx⟩) := by
        show Option.map (fun p => dfbAux (qnode l0 v0 b0 s0 r0) p + 1)
          (pathToVal (qnode l0 v0 b0 s0 r0) mx) = _
        rw [hmxpath]
        show some (dfbAux (qnode l0 v0 b0 s0 r0)
          (maxPath (qnode l0 v0 b0 s0 r0)) + 1) = _
        rw [hdmax]
        show some (szf (qnode l0 v0 b0 s0 r0) - 1 + 1) =
          some (szf (qnode l0 v0 b0 s0 r0))
        rw [Nat.sub_add_cancel hone]
      refine ⟨hend, ?_, ?_⟩
      · intro _
        show Option.map (fun p => dfbAux (qnode l0 v0 b0 s0 r0) p)
          (pathToVal (qnode l0 v0 b0 s0 r0) mn) = some 0
        rw [hmnpath]
        show some (dfbAux (qnode l0 v0 b0 s0 r0)
          (minPath (qnode l0 v0 b0 s0 r0))) = some 0
        rw [dfbAux_minPath]
      · show (match pathToVal (qnode l0 v0 b0 s0 r0) mn,
            QCT.dfbEnd ⟨qnode l0 v0 b0 s0 r0, HPtr.helem mn,
              HPtr.helem mx⟩ with
          | some p, some b =>
              some ((b : Int) - (dfbAux (qnode l0 v0 b0 s0 r0) p : Int))
          | _, _ => none) = _
        rw [hmnpath, hend]
        show some ((szf (qnode l0 v0 b0 s0 r0) : Int) -
          (dfbAux (qnode l0 v0 b0 s0 r0)
            (minPath (qnode l0 v0 b0 s0 r0)) : Int)) = _
        rw [dfbAux_minPath]
        show some ((szf (qnode l0 v0 b0 s0 r0) : Int) - ((0 : Nat) : Int)) = _
        norm_num
        rfl

theorem claim_C6_witness :
    QCT.dfbEnd c5safe = some (QCT.size c5safe) ∧
    (c5safe.root ≠ qnil → QCT.dfbBegin c5safe = some 0) ∧
    QCT.distBeginEnd c5safe = some ((QCT.size c5safe : Int)) :=
  claim_C6_rank_identities_amended natLt c5safe reachSafe_c5safe
